import Mathlib

/-!
# WebBI hybrid rendering system: tile rasterizer and triple-buffer rotation

A shallow embedding of `src/WebBI_hybrid0.1.cpp` (and of the identical core of
`src/WebBI_Native_CPU_GPU.cpp`).

Modelling conventions

* `int` is modelled by `Int`; every theorem about pixels works inside the frame,
  where all intermediate values are far below `2^31`.
* `float` is IEEE 754 binary32 (`F32`): every subtraction, addition, product, quotient and
  `int` conversion is the exact rational result rounded to nearest, ties to even, with
  subnormals, overflow to the infinities and NaN.  The two zeros are identified; the program
  only compares floats, and comparisons do not tell them apart.
* `uint32_t` colours are natural numbers; they are only copied, never computed with.
* `std::vector` is a `List`; an access outside `[0, size)` is undefined behaviour in the
  source and makes the embedded operation return `none`, as does a division by zero.
* A `for` loop whose stride is not known to be positive runs on fuel and returns `none`
  when the fuel is exhausted.
* The worker threads of `drawTriangleMT` are run one after the other in creation order.
* The `while(true)` loops are modelled by their bodies: one iteration maps the three role
  pointers to the buffer it renders into, the consumer reads it performs and the role
  pointers it ends with.
* `upscale2x` returns the destination vector; the source vector is only read.
-/

namespace WebBI

/-! ## Binary32 arithmetic -/

/-- A binary32 value: a finite value given by the rational it denotes (the two zeros are
identified, which no comparison of the program distinguishes), an infinity, or NaN. -/
inductive F32 where
  | fin (q : ℚ)
  | pinf
  | ninf
  | nan
  deriving DecidableEq

namespace F32

/-- The power `2^e` for an integer exponent. -/
def pow2 (e : Int) : ℚ :=
  if 0 ≤ e then ((2 ^ e.toNat : Nat) : ℚ) else 1 / ((2 ^ (-e).toNat : Nat) : ℚ)

/-- The number of binary digits of `n`, counted with `fuel` halvings at most. -/
def bitLength : Nat → Nat → Nat
  | 0, _ => 0
  | fuel + 1, n => if n = 0 then 0 else bitLength fuel (n / 2) + 1

/-- The binary exponent `floor(log2 |q|)` of a rational `q ≠ 0`. -/
def ilog2 (q : ℚ) : Int :=
  let e : Int := (bitLength q.num.natAbs q.num.natAbs : Int) - (bitLength q.den q.den : Int)
  if pow2 e ≤ |q| then e else e - 1

/-- Rounding to the nearest integer, ties to the even one. -/
def roundEven (q : ℚ) : Int :=
  if q - ⌊q⌋ < 1 / 2 then ⌊q⌋
  else if 1 / 2 < q - ⌊q⌋ then ⌊q⌋ + 1
  else if ⌊q⌋ % 2 = 0 then ⌊q⌋ else ⌊q⌋ + 1

/-- Rounding of an exact result to binary32, to nearest with ties to even: the exponent is
held in `[-126, 127]`, the significand has 24 bits, and a result of magnitude `2^128` or
more is an infinity. -/
def round (q : ℚ) : F32 :=
  let e := min (max (ilog2 q) (-126)) 127
  let r := (roundEven (q / pow2 (e - 23)) : ℚ) * pow2 (e - 23)
  if pow2 128 ≤ |r| then (if 0 < q then pinf else ninf) else fin r

/-- The conversion of an `int` to `float`. -/
def ofInt (n : Int) : F32 := round n

/-- The binary32 difference `a - b`. -/
def sub : F32 → F32 → F32
  | fin a, fin b => round (a - b)
  | nan, _ => nan
  | _, nan => nan
  | pinf, pinf => nan
  | ninf, ninf => nan
  | pinf, _ => pinf
  | ninf, _ => ninf
  | fin _, pinf => ninf
  | fin _, ninf => pinf

/-- The binary32 sum `a + b`. -/
def add : F32 → F32 → F32
  | fin a, fin b => round (a + b)
  | nan, _ => nan
  | _, nan => nan
  | pinf, ninf => nan
  | ninf, pinf => nan
  | pinf, _ => pinf
  | ninf, _ => ninf
  | fin _, pinf => pinf
  | fin _, ninf => ninf

/-- The product of an infinity of sign `s` (positive when `s` is true) with a finite `a`. -/
def mulInf (s : Bool) (a : ℚ) : F32 :=
  if a = 0 then nan else if (0 < a) = s then pinf else ninf

/-- The binary32 product `a * b`. -/
def mul : F32 → F32 → F32
  | fin a, fin b => round (a * b)
  | nan, _ => nan
  | _, nan => nan
  | pinf, fin b => mulInf true b
  | ninf, fin b => mulInf false b
  | fin a, pinf => mulInf true a
  | fin a, ninf => mulInf false a
  | pinf, pinf => pinf
  | ninf, ninf => pinf
  | pinf, ninf => ninf
  | ninf, pinf => ninf

/-- The binary32 quotient `a / 3.0f`. -/
def divThree : F32 → F32
  | fin a => round (a / 3)
  | pinf => pinf
  | ninf => ninf
  | nan => nan

/-- The comparison `a < b` of binary32 values; false when an operand is NaN. -/
def lt : F32 → F32 → Prop
  | fin a, fin b => a < b
  | nan, _ => False
  | _, nan => False
  | ninf, ninf => False
  | ninf, _ => True
  | pinf, _ => False
  | fin _, pinf => True
  | fin _, ninf => False

/-- The comparison `a <= b` of binary32 values; false when an operand is NaN. -/
def le : F32 → F32 → Prop
  | fin a, fin b => a ≤ b
  | nan, _ => False
  | _, nan => False
  | ninf, _ => True
  | pinf, pinf => True
  | pinf, _ => False
  | fin _, pinf => True
  | fin _, ninf => False

instance : LT F32 := ⟨lt⟩

instance : LE F32 := ⟨le⟩

instance (a b : F32) : Decidable (a < b) := by
  show Decidable (lt a b)
  cases a <;> cases b <;> unfold lt <;> infer_instance

instance (a b : F32) : Decidable (a ≤ b) := by
  show Decidable (le a b)
  cases a <;> cases b <;> unfold le <;> infer_instance

end F32

/-! ## Configuration -/

/-- Source: `#define WIDTH 800` -/
def WIDTH : Int := 800

/-- Source: `#define HEIGHT 600` -/
def HEIGHT : Int := 600

/-- Source: `#define TILE_SIZE 32` -/
def TILE_SIZE : Int := 32

/-- The depth sentinel `1e9f` written by `clearBuffers`. -/
def SENTINEL : F32 := F32.fin 1000000000

/-! ## Data model -/

/-- The four `int` arguments `startX, startY, endX, endY` of `rasterTile`. -/
structure Tile where
  startX : Int
  startY : Int
  endX : Int
  endY : Int
  deriving DecidableEq, Repr

/-- Pixel `(x, y)` lies in the half-open rectangle `[startX,endX) x [startY,endY)`. -/
def Tile.contains (t : Tile) (x y : Int) : Prop :=
  t.startX ≤ x ∧ x < t.endX ∧ t.startY ≤ y ∧ y < t.endY

instance (t : Tile) (x y : Int) : Decidable (t.contains x y) := by
  unfold Tile.contains; infer_instance

/-- The nine `float` arguments of `rasterTile` describing one triangle. -/
structure Triangle where
  x0 : F32
  y0 : F32
  z0 : F32
  x1 : F32
  y1 : F32
  z1 : F32
  x2 : F32
  y2 : F32
  z2 : F32
  deriving DecidableEq

/-- Source: `struct Texture { int w, h; std::vector<uint32_t> data; }` -/
structure Texture where
  w : Int
  h : Int
  data : List Nat
  deriving DecidableEq

/-- The colour buffer `*fb` and the depth buffer `zb` that `rasterTile` works on. -/
structure Buffers where
  fb : List Nat
  zb : List F32
  deriving DecidableEq

/-! ## Tile partition (the nested loops of `drawTriangleMT`) -/

/-- The inner loop `for(int tx=0; tx<W; tx+=T)` of `drawTriangleMT`, started at `tx`:
the tiles of row `ty` in creation order. -/
def tileRow : Nat → Int → Int → Int → Int → Int → Option (List Tile)
  | 0, _, _, _, _, _ => none
  | fuel + 1, W, H, T, ty, tx =>
    if tx < W then
      (tileRow fuel W H T ty (tx + T)).map
        (fun rest => ⟨tx, ty, min (tx + T) W, min (ty + T) H⟩ :: rest)
    else some []

/-- The outer loop `for(int ty=0; ty<H; ty+=T)` of `drawTriangleMT`, started at `ty`. -/
def tileRows : Nat → Int → Int → Int → Int → Option (List Tile)
  | 0, _, _, _, _ => none
  | fuel + 1, W, H, T, ty =>
    if ty < H then
      match tileRow (W.toNat + 1) W H T ty 0 with
      | none => none
      | some row => (tileRows fuel W H T (ty + T)).map (fun rest => row ++ rest)
    else some []

/-- The tiles for which `drawTriangleMT` creates a worker, in creation order, for a frame
of `W x H` pixels and tile edge `T`. -/
def tileGrid (W H T : Int) : Option (List Tile) :=
  tileRows (H.toNat + 1) W H T 0

/-- Creation order of the tiles: an earlier tile lies in an earlier row, or in the same row
further left, each time by at least one tile edge. -/
def tileBefore (T : Int) (a b : Tile) : Prop :=
  a.startY + T ≤ b.startY ∨ (a.startY = b.startY ∧ a.startX + T ≤ b.startX)

/-- Two tiles share no pixel. -/
def Tile.disjoint (a b : Tile) : Prop := ∀ x y, ¬ (a.contains x y ∧ b.contains x y)

/-! ## Rasterizer -/

/-- Source: `float edge(float x0,float y0,float x1,float y1,float x,float y)` -/
def edge (x0 y0 x1 y1 x y : F32) : F32 :=
  F32.sub (F32.mul (F32.sub x x0) (F32.sub y1 y0)) (F32.mul (F32.sub y y0) (F32.sub x1 x0))

/-- The coverage test `w0>=0 && w1>=0 && w2>=0` of `rasterTile` at pixel `(x, y)`, with
`w0=edge(x1,y1,x2,y2,x,y)`, `w1=edge(x2,y2,x0,y0,x,y)`, `w2=edge(x0,y0,x1,y1,x,y)`; the
`int` coordinates of the pixel are converted to `float` at the calls of `edge`. -/
def covers (tri : Triangle) (x y : Int) : Prop :=
  edge tri.x1 tri.y1 tri.x2 tri.y2 (F32.ofInt x) (F32.ofInt y) ≥ F32.fin 0 ∧
  edge tri.x2 tri.y2 tri.x0 tri.y0 (F32.ofInt x) (F32.ofInt y) ≥ F32.fin 0 ∧
  edge tri.x0 tri.y0 tri.x1 tri.y1 (F32.ofInt x) (F32.ofInt y) ≥ F32.fin 0

instance (tri : Triangle) (x y : Int) : Decidable (covers tri x y) := by
  unfold covers; infer_instance

/-- Source: `float z = (z0+z1+z2)/3.0f;` -/
def flatDepth (tri : Triangle) : F32 := F32.divThree (F32.add (F32.add tri.z0 tri.z1) tri.z2)

/-- Source: `int idx = y*WIDTH + x;` -/
def pixelIndex (x y : Int) : Int := y * WIDTH + x

/-- Read `v[i]`; `none` when `i` is outside `[0, v.size())`. -/
def readAt {α : Type} (v : List α) (i : Int) : Option α :=
  if 0 ≤ i then v[i.toNat]? else none

/-- Write `v[i] = a`; `none` when `i` is outside `[0, v.size())`. -/
def writeAt {α : Type} (v : List α) (i : Int) (a : α) : Option (List α) :=
  if 0 ≤ i ∧ i.toNat < v.length then some (v.set i.toNat a) else none

/-- The C++ `a % b` on `int`: truncated remainder, undefined for `b = 0`. -/
def cmod (a b : Int) : Option Int :=
  if b = 0 then none else some (Int.tmod a b)

/-- The body of the two loops of `rasterTile` for one pixel `(x, y)`. -/
def shadePixel (tri : Triangle) (tex : Texture) (s : Buffers) (x y : Int) : Option Buffers :=
  if covers tri x y then do
    let z := flatDepth tri
    let idx := pixelIndex x y
    let d ← readAt s.zb idx
    if z < d then do
      let zb ← writeAt s.zb idx z
      let tx ← cmod x tex.w
      let ty ← cmod y tex.h
      let c ← readAt tex.data (ty * tex.w + tx)
      let fb ← writeAt s.fb idx c
      pure ⟨fb, zb⟩
    else pure s
  else pure s

/-- The values of `i` in `for(int i=a; i<b; i++)`. -/
def intRange (a b : Int) : List Int :=
  (List.range (b - a).toNat).map (fun (k : Nat) => a + (k : Int))

/-- The inner loop `for(int x=startX;x<endX;x++)` of `rasterTile` on row `y`. -/
def rasterRow (t : Tile) (tri : Triangle) (tex : Texture) (s : Buffers) (y : Int) :
    Option Buffers :=
  (intRange t.startX t.endX).foldlM (fun s x => shadePixel tri tex s x y) s

/-- Source: `void rasterTile(int startX,int startY,int endX,int endY, float x0,..., Texture &tex,
std::vector<uint32_t>* fb, std::vector<float>& zb)` -/
def rasterTile (t : Tile) (tri : Triangle) (tex : Texture) (s : Buffers) : Option Buffers :=
  (intRange t.startY t.endY).foldlM (fun s y => rasterRow t tri tex s y) s

/-- The triangle `400,100,0.5f, 200,500,0.5f, 600,500,0.5f` hard-wired in `drawTriangleMT`. -/
def fixedTriangle : Triangle :=
  ⟨F32.fin 400, F32.fin 100, F32.fin (1 / 2), F32.fin 200, F32.fin 500, F32.fin (1 / 2),
    F32.fin 600, F32.fin 500, F32.fin (1 / 2)⟩

/-- One `rasterTile` call per tile of the list, in list order. -/
def runTiles (ts : List Tile) (tri : Triangle) (tex : Texture) (s : Buffers) : Option Buffers :=
  ts.foldlM (fun s t => rasterTile t tri tex s) s

/-- The body of `drawTriangleMT` with the triangle as a parameter: one worker per tile of
the grid, all joined before returning. -/
def drawTriangleWith (tri : Triangle) (tex : Texture) (s : Buffers) : Option Buffers :=
  match tileGrid WIDTH HEIGHT TILE_SIZE with
  | none => none
  | some ts => runTiles ts tri tex s

/-- Source: `void drawTriangleMT(Texture &tex, std::vector<uint32_t>* fb, std::vector<float>& zb)` -/
def drawTriangleMT (tex : Texture) (s : Buffers) : Option Buffers :=
  drawTriangleWith fixedTriangle tex s

/-- Several triangles drawn one after the other into the same buffers. -/
def drawTriangles (tris : List Triangle) (tex : Texture) (s : Buffers) : Option Buffers :=
  tris.foldlM (fun s tri => drawTriangleWith tri tex s) s

/-- Source: `void clearBuffers(std::vector<uint32_t>* fb, std::vector<float>& zb)` -/
def clearBuffers (s : Buffers) : Buffers :=
  ⟨List.replicate s.fb.length 0, List.replicate s.zb.length SENTINEL⟩

/-- The value `((x/8+y/8)%2) ? 0xFFFFFFFF : 0xFF000000` stored by `checkerTexture`. -/
def checkerTexel (x y : Nat) : Nat :=
  if (x / 8 + y / 8) % 2 ≠ 0 then 0xFFFFFFFF else 0xFF000000

/-- Source: `Texture checkerTexture()`: the two loops store `checkerTexel x y` at `y*64+x`. -/
def checkerTexture : Texture :=
  { w := 64
    h := 64
    data := (List.range 64).foldl
      (fun d y => (List.range 64).foldl (fun d x => d.set (y * 64 + x) (checkerTexel x y)) d)
      (List.replicate (64 * 64) 0) }

/-- The rendering part of one iteration of `runNativeMode`:
`clearBuffers(nextFrame, zbuffer); drawTriangleMT(tex, nextFrame, zbuffer);`
with the triangle as a parameter. -/
def renderFrame (tri : Triangle) (tex : Texture) (s : Buffers) : Option Buffers :=
  drawTriangleWith tri tex (clearBuffers s)

/-! ## Triple-buffer rotation -/

/-- The three storage instances `framebuffer1`, `framebuffer2`, `framebuffer3`. -/
inductive Framebuffer where
  | framebuffer1
  | framebuffer2
  | framebuffer3
  deriving DecidableEq, Repr

/-- The three role pointers. `nextFrame` is the Write role, `currentFrame` the Settled role
and `displayFrame` the Display role. -/
structure Roles where
  currentFrame : Framebuffer
  nextFrame : Framebuffer
  displayFrame : Framebuffer
  deriving DecidableEq, Repr

/-- The initial values of the three pointers. -/
def Roles.initial : Roles :=
  ⟨Framebuffer.framebuffer1, Framebuffer.framebuffer2, Framebuffer.framebuffer3⟩

/-- Source: `std::swap(currentFrame, nextFrame);` -/
def swapCurrentNext (r : Roles) : Roles :=
  { r with currentFrame := r.nextFrame, nextFrame := r.currentFrame }

/-- Source: `std::swap(displayFrame, currentFrame);` -/
def swapDisplayCurrent (r : Roles) : Roles :=
  { r with displayFrame := r.currentFrame, currentFrame := r.displayFrame }

/-- The two swaps at the end of an iteration of `runNativeMode`. -/
def endFrame (r : Roles) : Roles :=
  swapDisplayCurrent (swapCurrentNext r)

/-- The role assignment after `n` calls of `endFrame` from the initial assignment. -/
def rolesAfter (n : Nat) : Roles :=
  endFrame^[n] Roles.initial

/-! ## Auxiliary notions used to state the theorems -/

/-- The texture is well formed: positive extents and `w*h` texels. -/
def Texture.wf (tex : Texture) : Prop :=
  0 < tex.w ∧ 0 < tex.h ∧ (tex.data.length : Int) = tex.w * tex.h

/-- The texel `tex.data[(y mod tex.h)*tex.w + (x mod tex.w)]`. -/
def texel (tex : Texture) (x y : Int) : Option Nat :=
  tex.data[((y % tex.h) * tex.w + x % tex.w).toNat]?

/-- Pixel `(x, y)` has a slot in both buffers and `x` is a column of the frame. -/
def inBuffers (s : Buffers) (x y : Int) : Prop :=
  0 ≤ x ∧ x < WIDTH ∧ 0 ≤ y ∧ pixelIndex x y < s.fb.length ∧ pixelIndex x y < s.zb.length

/-- The pixels of a tile in the order in which `rasterTile` visits them. -/
def pixelsOf (t : Tile) : List (Int × Int) :=
  (intRange t.startY t.endY).flatMap (fun y => (intRange t.startX t.endX).map (fun x => (x, y)))

/-- The loop body of `rasterTile` run over a list of pixels. -/
def shadeAll (tri : Triangle) (tex : Texture) (ps : List (Int × Int)) (s : Buffers) :
    Option Buffers :=
  ps.foldlM (fun s p => shadePixel tri tex s p.1 p.2) s

/-- The tile lies inside the columns of the frame and inside both buffers:
`0 <= startX`, `endX <= WIDTH`, `0 <= startY` and `endY*WIDTH` is at most either length. -/
def Tile.inFrame (t : Tile) (s : Buffers) : Prop :=
  0 ≤ t.startX ∧ t.endX ≤ WIDTH ∧ 0 ≤ t.startY ∧
    t.endY * WIDTH ≤ s.fb.length ∧ t.endY * WIDTH ≤ s.zb.length

/-- Buffer index `i` is the index `y*WIDTH+x` of some pixel `(x, y)` of the tile. -/
def Tile.touches (t : Tile) (i : Int) : Prop :=
  ∃ x y, t.contains x y ∧ pixelIndex x y = i

/-- The buffers hold one slot per pixel of the `WIDTH x HEIGHT` frame. -/
def Buffers.frameSized (s : Buffers) : Prop :=
  (s.fb.length : Int) = WIDTH * HEIGHT ∧ (s.zb.length : Int) = WIDTH * HEIGHT

/-- Buffers `s'` are `s` after one triangle has been rasterized over the whole frame: same
lengths, and every frame pixel that passes the coverage and depth test holds the flat depth
and its texel while every other frame pixel is as before. -/
def FrameResult (tri : Triangle) (tex : Texture) (s s' : Buffers) : Prop :=
  s'.fb.length = s.fb.length ∧ s'.zb.length = s.zb.length ∧
  ∀ x y, 0 ≤ x → x < WIDTH → 0 ≤ y → y < HEIGHT →
    ∀ d c, s.zb[(pixelIndex x y).toNat]? = some d → s.fb[(pixelIndex x y).toNat]? = some c →
      s'.zb[(pixelIndex x y).toNat]? =
        some (if covers tri x y ∧ flatDepth tri < d then flatDepth tri else d) ∧
      s'.fb[(pixelIndex x y).toNat]? =
        (if covers tri x y ∧ flatDepth tri < d then texel tex x y else some c)

/-- The global vectors `framebuffer2` and `zbuffer` as constructed at start-up:
`WIDTH*HEIGHT` value-initialised entries each. -/
def initialBuffers : Buffers :=
  ⟨List.replicate 480000 0, List.replicate 480000 (F32.fin 0)⟩

/-- The smaller of two binary32 values as `<` orders them (`a` when it does not order them). -/
def F32.min (a b : F32) : F32 := if b < a then b else a

/-- The flat depths of the triangles of the list that cover pixel `(x, y)`, in list order. -/
def coveringDepths (tris : List Triangle) (x y : Int) : List F32 :=
  (tris.filter (fun tri => decide (covers tri x y))).map flatDepth

/-- The depth the specification promises for pixel `(x, y)` after a frame: the minimum of the
flat depths of the covering triangles, or the sentinel if no triangle covers the pixel. -/
def specDepth (tris : List Triangle) (x y : Int) : F32 :=
  match coveringDepths tris x y with
  | [] => SENTINEL
  | d :: ds => ds.foldl F32.min d

/-- The minimum of the sentinel and of the flat depths of the triangles covering `(x, y)`. -/
def minDepth (tris : List Triangle) (x y : Int) : F32 :=
  (coveringDepths tris x y).foldl F32.min SENTINEL

/-- The number `ceil(a/T)` of strides of length `T` needed to pass `a`. -/
def tileCount (a T : Int) : Nat := ((a + T - 1) / T).toNat

/-- The tile list as the specification describes it: the tiles
`(x, y, min(x+T,W), min(y+T,H))` for `y = 0,T,2T,... < H` (outer) and
`x = 0,T,2T,... < W` (inner), to be compared with the loops `tileGrid`. -/
def specTiles (W H T : Int) : List Tile :=
  (List.range (tileCount H T)).flatMap (fun (j : Nat) =>
    (List.range (tileCount W T)).map (fun (i : Nat) =>
      (⟨i * T, j * T, min (i * T + T) W, min (j * T + T) H⟩ : Tile)))

/-- A sequence of `rasterTile` calls, each with its own tile and triangle, on one texture. -/
def runCalls (calls : List (Tile × Triangle)) (tex : Texture) (s : Buffers) : Option Buffers :=
  calls.foldlM (fun s c => rasterTile c.1 c.2 tex s) s

/-- Colour and depth agree at every frame pixel: either the depth is the sentinel and the
colour is `0`, or the depth is below the sentinel and the colour is the pixel's texel. -/
def Consistent (tex : Texture) (s : Buffers) : Prop :=
  ∀ x y, 0 ≤ x → x < WIDTH → 0 ≤ y → y < HEIGHT →
    (s.zb[(pixelIndex x y).toNat]? = some SENTINEL ∧ s.fb[(pixelIndex x y).toNat]? = some 0) ∨
    (∃ d, s.zb[(pixelIndex x y).toNat]? = some d ∧ d < SENTINEL ∧
      s.fb[(pixelIndex x y).toNat]? = texel tex x y)

/-! ## The rendering loops -/

/-- The stages that consume a framebuffer: the `upscale2x` pass, `writeCache` and the
network `send`. -/
inductive Consumer where
  | upscale2x
  | writeCache
  | send
  deriving DecidableEq, Repr

/-- One read of a framebuffer by a consumer stage: the stage, the buffer it takes as input,
the value of the three role pointers when it runs, and whether it runs while
`drawTriangleMT` of the same iteration is still running. -/
structure FrameRead where
  consumer : Consumer
  buffer : Framebuffer
  roles : Roles
  duringDraw : Bool
  deriving DecidableEq, Repr

/-- What one iteration of a rendering loop does with the framebuffers: the buffer passed to
`clearBuffers` and `drawTriangleMT`, the consumer reads in program order, and the role
pointers at the end of the iteration. -/
structure Iteration where
  target : Framebuffer
  reads : List FrameRead
  roles : Roles
  deriving DecidableEq, Repr

/-- One iteration of the `while(true)` loop of `runNativeMode`: clear and draw into
`nextFrame`, the two swaps, then `upscale2x(*displayFrame, ...)` and
`writeCache(..., *displayFrame)`. -/
def runNativeMode (r : Roles) : Iteration :=
  let r1 := swapCurrentNext r
  let r2 := swapDisplayCurrent r1
  { target := r.nextFrame
    reads := [⟨Consumer.upscale2x, r2.displayFrame, r2, false⟩,
      ⟨Consumer.writeCache, r2.displayFrame, r2, false⟩]
    roles := r2 }

/-- One iteration of the `while(true)` loop of `runServerMode`: clear and draw into
`nextFrame`, `send(client, nextFrame->data(), ...)`, then the single
`std::swap(currentFrame, nextFrame)`. -/
def runServerMode (r : Roles) : Iteration :=
  { target := r.nextFrame
    reads := [⟨Consumer.send, r.nextFrame, r, false⟩]
    roles := swapCurrentNext r }

/-- One iteration of the `while(true)` loop of `runNativeMandatoryCPU_GPU`: clear
`nextFrame`; `cpuThread` draws into `nextFrame` while `gpuThread` runs
`upscale2x(*nextFrame, ...)`; both are joined; the two swaps; then
`writeCache(..., *displayFrame)`. -/
def runNativeMandatoryCPU_GPU (r : Roles) : Iteration :=
  let r1 := swapCurrentNext r
  let r2 := swapDisplayCurrent r1
  { target := r.nextFrame
    reads := [⟨Consumer.upscale2x, r.nextFrame, r, true⟩,
      ⟨Consumer.writeCache, r2.displayFrame, r2, false⟩]
    roles := r2 }

/-- The role pointers at the start of iteration `n` (counted from `0`) of a loop. -/
def loopRoles (body : Roles → Iteration) (n : Nat) : Roles :=
  (fun r => (body r).roles)^[n] Roles.initial

/-- A read respects the roles: the buffer read is the one `displayFrame` points to, and it
is not the one `nextFrame` (the Write role) points to, when the stage runs. -/
def FrameRead.respectsRoles (rd : FrameRead) : Prop :=
  rd.buffer = rd.roles.displayFrame ∧ rd.buffer ≠ rd.roles.nextFrame

instance (rd : FrameRead) : Decidable rd.respectsRoles := by
  unfold FrameRead.respectsRoles; infer_instance

/-! ## Upscaling -/

/-- The four destination indices `dy*2*w + dx`, `dy*2*w + dx + 1`, `(dy+1)*2*w + dx` and
`(dy+1)*2*w + dx + 1`, with `dx = x*2` and `dy = y*2`, that `upscale2x` writes for source
pixel `(x, y)`, in program order. -/
def upscaleTargets (w x y : Int) : List Int :=
  [y * 2 * 2 * w + x * 2, y * 2 * 2 * w + x * 2 + 1,
    (y * 2 + 1) * 2 * w + x * 2, (y * 2 + 1) * 2 * w + x * 2 + 1]

/-- The body of the two loops of `upscale2x` for source pixel `(x, y)`:
`px = src[y*w+x]` is stored at the four destination indices. -/
def upscalePixel (src : List Nat) (w : Int) (dst : List Nat) (x y : Int) :
    Option (List Nat) := do
  let px ← readAt src (y * w + x)
  (upscaleTargets w x y).foldlM (fun d i => writeAt d i px) dst

/-- The inner loop `for(int x=0;x<w;x++)` of `upscale2x` on source row `y`. -/
def upscaleRow (src : List Nat) (w : Int) (dst : List Nat) (y : Int) : Option (List Nat) :=
  (intRange 0 w).foldlM (fun d x => upscalePixel src w d x y) dst

/-- Source: `void upscale2x(std::vector<uint32_t>& src, std::vector<uint32_t>& dst,
int w, int h)`; the result is the destination vector, the source vector is only read. -/
def upscale2x (src dst : List Nat) (w h : Int) : Option (List Nat) :=
  (intRange 0 h).foldlM (fun d y => upscaleRow src w d y) dst

/-- All destination indices written by `upscale2x`, in program order. -/
def upscaleWrites (w h : Int) : List Int :=
  (intRange 0 h).flatMap (fun y => (intRange 0 w).flatMap (fun x => upscaleTargets w x y))

/-- A sequence of writes `v[i] = a` performed one after the other. -/
def writeSeq {α : Type} (ws : List (Int × α)) (v : List α) : Option (List α) :=
  ws.foldlM (fun d p => writeAt d p.1 p.2) v

/-- The writes of `upscale2x` with the values they store, in program order. -/
def upscaleOps (src : List Nat) (w h : Int) : List (Int × Nat) :=
  (intRange 0 h).flatMap (fun y => (intRange 0 w).flatMap (fun x =>
    (upscaleTargets w x y).map (fun i => (i, src.getD (y * w + x).toNat 0))))

/-! ## Exact arithmetic, to compare the binary32 results with -/

/-- The rational denoted by a finite binary32 value (and `0` for the others). -/
def F32.toRat : F32 → ℚ
  | F32.fin q => q
  | _ => 0

/-- The largest finite binary32 value, `2^128 - 2^104`. -/
def F32.maxFinite : ℚ := 2 ^ 128 - 2 ^ 104

/-- The edge function over exact arithmetic:
`(p.x-vA.x)*(vB.y-vA.y) - (p.y-vA.y)*(vB.x-vA.x)`. -/
def exactEdge (x0 y0 x1 y1 x y : ℚ) : ℚ :=
  (x - x0) * (y1 - y0) - (y - y0) * (x1 - x0)

/-- The edge function on integers. -/
def edgeInt (x0 y0 x1 y1 x y : Int) : Int :=
  (x - x0) * (y1 - y0) - (y - y0) * (x1 - x0)

/-- The doubled signed area `edge(v1,v2,v0)` of a triangle over exact arithmetic. -/
def Triangle.area2 (tri : Triangle) : ℚ :=
  exactEdge tri.x1.toRat tri.y1.toRat tri.x2.toRat tri.y2.toRat tri.x0.toRat tri.y0.toRat

/-- At pixel `(x, y)` the three binary32 edge values of `rasterTile` are the exact ones. -/
def edgesExactAt (tri : Triangle) (x y : Int) : Prop :=
  edge tri.x1 tri.y1 tri.x2 tri.y2 (F32.ofInt x) (F32.ofInt y) =
    F32.fin (exactEdge tri.x1.toRat tri.y1.toRat tri.x2.toRat tri.y2.toRat x y) ∧
  edge tri.x2 tri.y2 tri.x0 tri.y0 (F32.ofInt x) (F32.ofInt y) =
    F32.fin (exactEdge tri.x2.toRat tri.y2.toRat tri.x0.toRat tri.y0.toRat x y) ∧
  edge tri.x0 tri.y0 tri.x1 tri.y1 (F32.ofInt x) (F32.ofInt y) =
    F32.fin (exactEdge tri.x0.toRat tri.y0.toRat tri.x1.toRat tri.y1.toRat x y)

instance (tri : Triangle) (x y : Int) : Decidable (edgesExactAt tri x y) := by
  unfold edgesExactAt; infer_instance

/-- The triangle with the integer vertices `(a0,b0)`, `(a1,b1)`, `(a2,b2)` and the vertex
depths `z0`, `z1`, `z2`. -/
def intTriangle (a0 b0 a1 b1 a2 b2 : Int) (z0 z1 z2 : F32) : Triangle :=
  ⟨F32.fin a0, F32.fin b0, z0, F32.fin a1, F32.fin b1, z1, F32.fin a2, F32.fin b2, z2⟩

/-! # Theorems -/

/-! ## Binary32 arithmetic -/

theorem f32_lt_self (a : F32) : ¬ a < a := by
  show ¬ F32.lt a a
  cases a <;> simp [F32.lt]

theorem f32_le_of_lt {a b : F32} (h : a < b) : a ≤ b := by
  have h1 : F32.lt a b := h
  show F32.le a b
  cases a <;> cases b <;> simp_all [F32.lt, F32.le]
  exact le_of_lt h1

theorem f32_lt_chain {a b c : F32} (h1 : a < b) (h2 : b < c) : a < c := by
  have h1' : F32.lt a b := h1
  have h2' : F32.lt b c := h2
  show F32.lt a c
  cases a <;> cases b <;> cases c <;> simp_all [F32.lt]
  exact lt_trans h1' h2'

theorem pow2_eq_zpow (e : Int) : F32.pow2 e = (2 : ℚ) ^ e := by
  unfold F32.pow2
  by_cases h : 0 ≤ e
  · rw [if_pos h]
    obtain ⟨k, rfl⟩ := Int.eq_ofNat_of_zero_le h
    simp
  · rw [if_neg h]
    obtain ⟨k, rfl⟩ : ∃ k : Nat, e = -(k : Int) := ⟨(-e).toNat, by omega⟩
    simp

theorem pow2_pos (e : Int) : 0 < F32.pow2 e := by
  rw [pow2_eq_zpow]
  positivity

theorem pow2_mono {a b : Int} (h : a ≤ b) : F32.pow2 a ≤ F32.pow2 b := by
  rw [pow2_eq_zpow, pow2_eq_zpow]
  exact zpow_le_zpow_right₀ (by norm_num) h

/-- Rounding to the nearest integer leaves integers alone. -/
theorem roundEven_intCast (k : Int) : F32.roundEven (k : ℚ) = k := by
  unfold F32.roundEven
  rw [Int.floor_intCast]
  simp

/-- Rounding to the nearest integer moves by at most one half. -/
theorem roundEven_near (q : ℚ) : |(F32.roundEven q : ℚ) - q| ≤ 1 / 2 := by
  have h1 := Int.floor_le q
  have h2 := Int.lt_floor_add_one q
  unfold F32.roundEven
  rw [abs_le]
  split_ifs with a b c
  · constructor <;> linarith
  · push_cast; constructor <;> linarith
  · constructor <;> linarith
  · push_cast; constructor <;> linarith

/-- The exponent used by the rounding lies in the binary32 range. -/
theorem round_exponent_le (q : ℚ) : min (max (F32.ilog2 q) (-126)) 127 ≤ 127 :=
  min_le_right _ _

/-- A number below `2^k` has at most `k` bits. -/
theorem bitLength_le (fuel : Nat) : ∀ n k : Nat, n < 2 ^ k → F32.bitLength fuel n ≤ k := by
  induction fuel with
  | zero => intro n k _; simp [F32.bitLength]
  | succ f ih =>
    intro n k h
    unfold F32.bitLength
    split_ifs with h0
    · omega
    · cases k with
      | zero => simp at h; omega
      | succ k =>
        have := ih (n / 2) k (by rw [pow_succ] at h; omega)
        omega

/-- The binary exponent of an integer of fewer than 25 bits is at most 23. -/
theorem ilog2_int_le (n : Int) (h1 : -16777216 < n) (h2 : n < 16777216) :
    F32.ilog2 (n : ℚ) ≤ 23 := by
  unfold F32.ilog2
  have hd : F32.bitLength 1 1 = 1 := rfl
  have hn : F32.bitLength n.natAbs n.natAbs ≤ 24 :=
    bitLength_le _ _ 24 (by omega)
  simp only [Rat.num_intCast, Rat.den_intCast, hd]
  split_ifs <;> omega

/-- Integers of fewer than 25 bits are binary32 values: rounding leaves them alone. -/
theorem round_int (n : Int) (h1 : -16777216 < n) (h2 : n < 16777216) :
    F32.round (n : ℚ) = F32.fin n := by
  have he := ilog2_int_le n h1 h2
  unfold F32.round
  have hle : min (max (F32.ilog2 (n : ℚ)) (-126)) 127 - 23 ≤ 0 := by omega
  dsimp only
  generalize min (max (F32.ilog2 (n : ℚ)) (-126)) 127 - 23 = e at hle ⊢
  obtain ⟨k, rfl⟩ : ∃ k : Nat, e = -(k : Int) := ⟨(-e).toNat, by omega⟩
  have hp : F32.pow2 (-(k : Int)) = 1 / (2 : ℚ) ^ k := by
    rw [pow2_eq_zpow]; simp
  have hq : (n : ℚ) / F32.pow2 (-(k : Int)) = ((n * 2 ^ k : Int) : ℚ) := by
    rw [hp]; push_cast; field_simp
  have hr : ((n * 2 ^ k : Int) : ℚ) * F32.pow2 (-(k : Int)) = (n : ℚ) := by
    rw [hp]; push_cast; field_simp
  rw [hq, roundEven_intCast, hr]
  have habs : |(n : ℚ)| < F32.pow2 128 := by
    rw [pow2_eq_zpow]
    have : |(n : ℚ)| < 16777216 := by
      rw [abs_lt]
      constructor
      · exact_mod_cast h1
      · exact_mod_cast h2
    have h128 : (16777216 : ℚ) ≤ (2 : ℚ) ^ (128 : Int) := by norm_num
    linarith
  rw [if_neg (not_le.2 habs)]

/-- A rounded result of magnitude below `2^128 - 2^103` is finite. -/
theorem round_finite (q : ℚ) (h : |q| < 2 ^ 128 - 2 ^ 103) : ∃ r, F32.round q = F32.fin r := by
  unfold F32.round
  have he : min (max (F32.ilog2 q) (-126)) 127 - 23 ≤ 104 := by
    have := round_exponent_le q
    omega
  dsimp only
  generalize min (max (F32.ilog2 q) (-126)) 127 - 23 = e at he ⊢
  have hu : F32.pow2 e ≤ 2 ^ 104 := by
    have := pow2_mono he
    rw [pow2_eq_zpow 104] at this
    have e104 : (2 : ℚ) ^ (104 : Int) = 2 ^ 104 := by norm_num
    rw [e104] at this
    exact this
  have hpos := pow2_pos e
  have hnear := roundEven_near (q / F32.pow2 e)
  have hr : |(F32.roundEven (q / F32.pow2 e) : ℚ) * F32.pow2 e| < F32.pow2 128 := by
    have e1 : (F32.roundEven (q / F32.pow2 e) : ℚ) * F32.pow2 e =
        q + ((F32.roundEven (q / F32.pow2 e) : ℚ) - q / F32.pow2 e) * F32.pow2 e := by
      field_simp
    rw [e1, pow2_eq_zpow 128]
    have e128 : (2 : ℚ) ^ (128 : Int) = 2 ^ 128 := by norm_num
    rw [e128]
    have h3 : |((F32.roundEven (q / F32.pow2 e) : ℚ) - q / F32.pow2 e) * F32.pow2 e|
        ≤ 1 / 2 * 2 ^ 104 := by
      rw [abs_mul, abs_of_pos hpos]
      exact mul_le_mul hnear hu (le_of_lt hpos) (by norm_num)
    have h4 := abs_add q (((F32.roundEven (q / F32.pow2 e) : ℚ) - q / F32.pow2 e) * F32.pow2 e)
    have h5 : (1 : ℚ) / 2 * 2 ^ 104 = 2 ^ 103 := by norm_num
    linarith
  rw [if_neg (not_le.2 hr)]
  exact ⟨_, rfl⟩

theorem round_zero : F32.round 0 = F32.fin 0 := by
  have := round_int 0 (by decide) (by decide)
  simpa using this

/-! ## Exact edge values on small integers -/

theorem sub_fin (a b : ℚ) : F32.sub (F32.fin a) (F32.fin b) = F32.round (a - b) := rfl

theorem mul_fin (a b : ℚ) : F32.mul (F32.fin a) (F32.fin b) = F32.round (a * b) := rfl

theorem add_fin (a b : ℚ) : F32.add (F32.fin a) (F32.fin b) = F32.round (a + b) := rfl

theorem fin_le_fin (a b : ℚ) : (F32.fin a ≤ F32.fin b) ↔ a ≤ b := Iff.rfl

theorem fin_lt_fin (a b : ℚ) : (F32.fin a < F32.fin b) ↔ a < b := Iff.rfl

/-- The conversion of a small `int` to `float` is exact. -/
theorem ofInt_small (n : Int) (h1 : -16777216 < n) (h2 : n < 16777216) :
    F32.ofInt n = F32.fin n := round_int n h1 h2

/-- On integer vertices and pixel coordinates of magnitude at most `1024` every binary32
operation of `edge` is exact. -/
theorem edge_int (x0 y0 x1 y1 x y : Int)
    (hx0 : -1024 ≤ x0 ∧ x0 ≤ 1024) (hy0 : -1024 ≤ y0 ∧ y0 ≤ 1024)
    (hx1 : -1024 ≤ x1 ∧ x1 ≤ 1024) (hy1 : -1024 ≤ y1 ∧ y1 ≤ 1024)
    (hx : -1024 ≤ x ∧ x ≤ 1024) (hy : -1024 ≤ y ∧ y ≤ 1024) :
    edge (F32.fin x0) (F32.fin y0) (F32.fin x1) (F32.fin y1) (F32.ofInt x) (F32.ofInt y) =
      F32.fin (edgeInt x0 y0 x1 y1 x y) := by
  unfold edge edgeInt
  rw [ofInt_small x (by omega) (by omega), ofInt_small y (by omega) (by omega)]
  have s1 : F32.sub (F32.fin (x : ℚ)) (F32.fin (x0 : ℚ)) = F32.fin ((x - x0 : Int) : ℚ) := by
    rw [sub_fin, ← Int.cast_sub, round_int _ (by omega) (by omega)]
  have s2 : F32.sub (F32.fin (y1 : ℚ)) (F32.fin (y0 : ℚ)) = F32.fin ((y1 - y0 : Int) : ℚ) := by
    rw [sub_fin, ← Int.cast_sub, round_int _ (by omega) (by omega)]
  have s3 : F32.sub (F32.fin (y : ℚ)) (F32.fin (y0 : ℚ)) = F32.fin ((y - y0 : Int) : ℚ) := by
    rw [sub_fin, ← Int.cast_sub, round_int _ (by omega) (by omega)]
  have s4 : F32.sub (F32.fin (x1 : ℚ)) (F32.fin (x0 : ℚ)) = F32.fin ((x1 - x0 : Int) : ℚ) := by
    rw [sub_fin, ← Int.cast_sub, round_int _ (by omega) (by omega)]
  have b1 : -4194304 ≤ (x - x0) * (y1 - y0) ∧ (x - x0) * (y1 - y0) ≤ 4194304 := by
    constructor <;> nlinarith
  have b2 : -4194304 ≤ (y - y0) * (x1 - x0) ∧ (y - y0) * (x1 - x0) ≤ 4194304 := by
    constructor <;> nlinarith
  have m1 : F32.mul (F32.fin ((x - x0 : Int) : ℚ)) (F32.fin ((y1 - y0 : Int) : ℚ)) =
      F32.fin (((x - x0) * (y1 - y0) : Int) : ℚ) := by
    rw [mul_fin, ← Int.cast_mul, round_int _ (by omega) (by omega)]
  have m2 : F32.mul (F32.fin ((y - y0 : Int) : ℚ)) (F32.fin ((x1 - x0 : Int) : ℚ)) =
      F32.fin (((y - y0) * (x1 - x0) : Int) : ℚ) := by
    rw [mul_fin, ← Int.cast_mul, round_int _ (by omega) (by omega)]
  rw [s1, s2, s3, s4, m1, m2, sub_fin, ← Int.cast_sub, round_int _ (by omega) (by omega)]

/-- On integer vertices and pixels of magnitude at most `1024` the coverage test is the
exact one. -/
theorem covers_intTriangle (a0 b0 a1 b1 a2 b2 : Int) (z0 z1 z2 : F32) (x y : Int)
    (h0 : (-1024 ≤ a0 ∧ a0 ≤ 1024) ∧ (-1024 ≤ b0 ∧ b0 ≤ 1024))
    (h1 : (-1024 ≤ a1 ∧ a1 ≤ 1024) ∧ (-1024 ≤ b1 ∧ b1 ≤ 1024))
    (h2 : (-1024 ≤ a2 ∧ a2 ≤ 1024) ∧ (-1024 ≤ b2 ∧ b2 ≤ 1024))
    (hx : -1024 ≤ x ∧ x ≤ 1024) (hy : -1024 ≤ y ∧ y ≤ 1024) :
    covers (intTriangle a0 b0 a1 b1 a2 b2 z0 z1 z2) x y ↔
      (0 ≤ edgeInt a1 b1 a2 b2 x y ∧ 0 ≤ edgeInt a2 b2 a0 b0 x y ∧
        0 ≤ edgeInt a0 b0 a1 b1 x y) := by
  unfold covers intTriangle
  simp only [ge_iff_le]
  rw [edge_int a1 b1 a2 b2 x y h1.1 h1.2 h2.1 h2.2 hx hy,
    edge_int a2 b2 a0 b0 x y h2.1 h2.2 h0.1 h0.2 hx hy,
    edge_int a0 b0 a1 b1 x y h0.1 h0.2 h1.1 h1.2 hx hy,
    fin_le_fin, fin_le_fin, fin_le_fin]
  simp only [Int.cast_nonneg]

/-- The three integer edge values add up to the doubled signed area. -/
theorem edgeInt_sum (a0 b0 a1 b1 a2 b2 x y : Int) :
    edgeInt a1 b1 a2 b2 x y + edgeInt a2 b2 a0 b0 x y + edgeInt a0 b0 a1 b1 x y =
      edgeInt a1 b1 a2 b2 a0 b0 := by
  unfold edgeInt; ring

/-- The three exact edge values add up to the doubled signed area. -/
theorem exactEdge_sum (x0 y0 x1 y1 x2 y2 px py : ℚ) :
    exactEdge x1 y1 x2 y2 px py + exactEdge x2 y2 x0 y0 px py + exactEdge x0 y0 x1 y1 px py =
      exactEdge x1 y1 x2 y2 x0 y0 := by
  unfold exactEdge; ring


/-! ## Tile partition -/

/-- What the inner tile loop produces when started at `tx` with enough fuel. -/
theorem tileRow_spec (W H T ty : Int) (hT : 0 < T) :
    ∀ (fuel : Nat) (tx : Int), (W - tx).toNat < fuel →
      ∃ row, tileRow fuel W H T ty tx = some row ∧
        (∀ t ∈ row, t.startY = ty ∧ t.endY = min (ty + T) H ∧ tx ≤ t.startX ∧
          t.startX < W ∧ t.endX = min (t.startX + T) W) ∧
        row.Pairwise (fun a b => a.startX + T ≤ b.startX) ∧
        (∀ x, tx ≤ x → x < W → ∃ t ∈ row, t.startX ≤ x ∧ x < t.startX + T) := by
  intro fuel
  induction fuel with
  | zero => intro tx h; omega
  | succ n ih =>
    intro tx h
    by_cases hlt : tx < W
    · obtain ⟨rest, hrest, hA, hB, hC⟩ := ih (tx + T) (by omega)
      refine ⟨⟨tx, ty, min (tx + T) W, min (ty + T) H⟩ :: rest, ?_, ?_, ?_, ?_⟩
      · simp [tileRow, hlt, hrest]
      · intro t ht
        rcases List.mem_cons.1 ht with rfl | ht
        · exact ⟨rfl, rfl, le_refl _, hlt, rfl⟩
        · obtain ⟨h1, h2, h3, h4, h5⟩ := hA t ht
          exact ⟨h1, h2, by omega, h4, h5⟩
      · refine List.pairwise_cons.2 ⟨?_, hB⟩
        intro b hb
        exact (hA b hb).2.2.1
      · intro x hx hxW
        by_cases hx2 : x < tx + T
        · exact ⟨_, List.mem_cons_self _ _, hx, hx2⟩
        · obtain ⟨t, ht, h1, h2⟩ := hC x (by omega) hxW
          exact ⟨t, List.mem_cons_of_mem _ ht, h1, h2⟩
    · refine ⟨[], ?_, ?_, ?_, ?_⟩
      · simp [tileRow, hlt]
      · intro t ht; cases ht
      · exact List.Pairwise.nil
      · intro x hx hxW; omega

/-- What the outer tile loop produces when started at `ty` with enough fuel. -/
theorem tileRows_spec (W H T : Int) (hW : 0 ≤ W) (hT : 0 < T) :
    ∀ (fuel : Nat) (ty : Int), (H - ty).toNat < fuel →
      ∃ ts, tileRows fuel W H T ty = some ts ∧
        (∀ t ∈ ts, ty ≤ t.startY ∧ t.startY < H ∧ t.endY = min (t.startY + T) H ∧
          0 ≤ t.startX ∧ t.startX < W ∧ t.endX = min (t.startX + T) W) ∧
        ts.Pairwise (tileBefore T) ∧
        (∀ x y, 0 ≤ x → x < W → ty ≤ y → y < H →
          ∃ t ∈ ts, t.startX ≤ x ∧ x < t.startX + T ∧ t.startY ≤ y ∧ y < t.startY + T) := by
  intro fuel
  induction fuel with
  | zero => intro ty h; omega
  | succ n ih =>
    intro ty h
    by_cases hlt : ty < H
    · obtain ⟨rest, hrest, hA, hB, hC⟩ := ih (ty + T) (by omega)
      obtain ⟨row, hrow, rA, rB, rC⟩ := tileRow_spec W H T ty hT (W.toNat + 1) 0 (by omega)
      refine ⟨row ++ rest, ?_, ?_, ?_, ?_⟩
      · simp [tileRows, hlt, hrest, hrow]
      · intro t ht
        rcases List.mem_append.1 ht with ht | ht
        · obtain ⟨h1, h2, h3, h4, h5⟩ := rA t ht
          exact ⟨by omega, by omega, by rw [h2, h1], h3, h4, h5⟩
        · obtain ⟨h1, h2, h3, h4, h5, h6⟩ := hA t ht
          exact ⟨by omega, h2, h3, h4, h5, h6⟩
      · refine List.pairwise_append.2 ⟨?_, hB, ?_⟩
        · refine rB.imp_of_mem ?_
          intro a b ha hb hab
          exact Or.inr ⟨by rw [(rA a ha).1, (rA b hb).1], hab⟩
        · intro a ha b hb
          have h1 := (rA a ha).1
          have h2 := (hA b hb).1
          exact Or.inl (by omega)
      · intro x y hx hxW hy hyH
        by_cases hy2 : y < ty + T
        · obtain ⟨t, ht, h1, h2⟩ := rC x hx hxW
          have h3 := (rA t ht).1
          exact ⟨t, List.mem_append_left _ ht, h1, h2, by omega, by omega⟩
        · obtain ⟨t, ht, h1⟩ := hC x y hx hxW (by omega) hyH
          exact ⟨t, List.mem_append_right _ ht, h1⟩
    · refine ⟨[], ?_, ?_, ?_, ?_⟩
      · simp [tileRows, hlt]
      · intro t ht; cases ht
      · exact List.Pairwise.nil
      · intro x y _ _ hy hyH; omega

/-- The tile grid exists for a positive tile edge, and its tiles are clipped grid cells listed
in row-major order. -/
theorem tileGrid_spec (W H T : Int) (hW : 0 ≤ W) (hT : 0 < T) :
    ∃ ts, tileGrid W H T = some ts ∧
      (∀ t ∈ ts, 0 ≤ t.startY ∧ t.startY < H ∧ t.endY = min (t.startY + T) H ∧
        0 ≤ t.startX ∧ t.startX < W ∧ t.endX = min (t.startX + T) W) ∧
      ts.Pairwise (tileBefore T) ∧
      (∀ x y, 0 ≤ x → x < W → 0 ≤ y → y < H →
        ∃ t ∈ ts, t.startX ≤ x ∧ x < t.startX + T ∧ t.startY ≤ y ∧ y < t.startY + T) :=
  tileRows_spec W H T hW hT (H.toNat + 1) 0 (by omega)

/-- Among pairwise exclusive candidates of which one satisfies `p`, exactly one does. -/
theorem countP_eq_one_of_pairwise {α : Type} (p : α → Bool) :
    ∀ (l : List α), l.Pairwise (fun a b => ¬ (p a = true ∧ p b = true)) →
      (∃ a ∈ l, p a = true) → l.countP p = 1 := by
  intro l
  induction l with
  | nil => intro _ h; obtain ⟨a, ha, _⟩ := h; cases ha
  | cons a l ih =>
    intro hp hex
    rw [List.pairwise_cons] at hp
    by_cases ha : p a = true
    · have hz : l.countP p = 0 := by
        rw [List.countP_eq_zero]
        intro b hb hpb
        exact hp.1 b hb ⟨ha, hpb⟩
      rw [List.countP_cons_of_pos _ _ ha, hz]
    · rw [List.countP_cons_of_neg _ _ ha]
      apply ih hp.2
      obtain ⟨b, hb, hpb⟩ := hex
      rcases List.mem_cons.1 hb with rfl | hb
      · exact absurd hpb ha
      · exact ⟨b, hb, hpb⟩

/-- The tile grid for a positive tile edge: pairwise disjoint tiles whose union is exactly
the frame rectangle. -/
theorem tileGrid_disjoint_cover (W H T : Int) (hW : 0 ≤ W) (hT : 0 < T) :
    ∃ ts, tileGrid W H T = some ts ∧
      ts.Pairwise Tile.disjoint ∧
      (∀ x y, (∃ t ∈ ts, t.contains x y) ↔ (0 ≤ x ∧ x < W ∧ 0 ≤ y ∧ y < H)) := by
  obtain ⟨ts, hts, hA, hB, hC⟩ := tileGrid_spec W H T hW hT
  refine ⟨ts, hts, ?_, ?_⟩
  · refine hB.imp_of_mem ?_
    intro a b ha hb hab x y hxy
    obtain ⟨a1, a2, a3, a4, a5, a6⟩ := hA a ha
    obtain ⟨b1, b2, b3, b4, b5, b6⟩ := hA b hb
    obtain ⟨⟨c1, c2, c3, c4⟩, d1, d2, d3, d4⟩ := hxy
    rw [a6] at c2; rw [a3] at c4
    have e1 := min_le_left (a.startX + T) W
    have e2 := min_le_left (a.startY + T) H
    rcases hab with h | ⟨h1, h2⟩ <;> omega
  · intro x y
    constructor
    · rintro ⟨t, ht, c1, c2, c3, c4⟩
      obtain ⟨a1, a2, a3, a4, a5, a6⟩ := hA t ht
      rw [a6] at c2; rw [a3] at c4
      have e1 := min_le_right (t.startX + T) W
      have e2 := min_le_right (t.startY + T) H
      omega
    · rintro ⟨hx, hxW, hy, hyH⟩
      obtain ⟨t, ht, c1, c2, c3, c4⟩ := hC x y hx hxW hy hyH
      obtain ⟨a1, a2, a3, a4, a5, a6⟩ := hA t ht
      refine ⟨t, ht, c1, ?_, c3, ?_⟩
      · rw [a6]; exact lt_min c2 hxW
      · rw [a3]; exact lt_min c4 hyH

/-- Claim C1. For every frame width `W >= 0`, height `H >= 0` and tile edge `T > 0` the
nested loops of `drawTriangleMT` terminate with a tile list whose tiles are pairwise
disjoint pixel rectangles, whose union is exactly `[0,W) x [0,H)` (so no tile contains a
pixel outside the frame), and in which every pixel of the frame lies in exactly one tile. -/
theorem tileGrid_partition (W H T : Int) (hW : 0 ≤ W) (_hH : 0 ≤ H) (hT : 0 < T) :
    ∃ ts, tileGrid W H T = some ts ∧
      ts.Pairwise Tile.disjoint ∧
      (∀ x y, (∃ t ∈ ts, t.contains x y) ↔ (0 ≤ x ∧ x < W ∧ 0 ≤ y ∧ y < H)) ∧
      (∀ x y, 0 ≤ x → x < W → 0 ≤ y → y < H →
        ts.countP (fun t => decide (t.contains x y)) = 1) := by
  obtain ⟨ts, hts, hdisj, hunion⟩ := tileGrid_disjoint_cover W H T hW hT
  refine ⟨ts, hts, hdisj, hunion, ?_⟩
  intro x y hx hxW hy hyH
  apply countP_eq_one_of_pairwise
  · refine hdisj.imp ?_
    intro a b hab h
    exact hab x y ⟨of_decide_eq_true h.1, of_decide_eq_true h.2⟩
  · obtain ⟨t, ht, hc⟩ := (hunion x y).2 ⟨hx, hxW, hy, hyH⟩
    exact ⟨t, ht, decide_eq_true hc⟩

/-- Claim C1 at the configured frame: the `800 x 600` frame with `32`-pixel tiles. -/
theorem tileGrid_partition_witness :
    ∃ ts, tileGrid 800 600 32 = some ts ∧
      ts.Pairwise Tile.disjoint ∧
      (∀ x y, (∃ t ∈ ts, t.contains x y) ↔ (0 ≤ x ∧ x < 800 ∧ 0 ≤ y ∧ y < 600)) ∧
      (∀ x y, 0 ≤ x → x < 800 → 0 ≤ y → y < 600 →
        ts.countP (fun t => decide (t.contains x y)) = 1) :=
  tileGrid_partition 800 600 32 (by decide) (by decide) (by decide)

/-! ## The rasterizer loop body -/

theorem texel_isSome (tex : Texture) (hwf : tex.wf) (x y : Int) :
    ∃ c, texel tex x y = some c := by
  obtain ⟨hw, hh, hlen⟩ := hwf
  have h1 := Int.emod_nonneg x (ne_of_gt hw)
  have h2 := Int.emod_lt_of_pos x hw
  have h3 := Int.emod_nonneg y (ne_of_gt hh)
  have h4 := Int.emod_lt_of_pos y hh
  have h5 : (y % tex.h) * tex.w + x % tex.w < tex.w * tex.h := by nlinarith
  have h6 : 0 ≤ (y % tex.h) * tex.w + x % tex.w := by positivity
  have h7 : ((y % tex.h) * tex.w + x % tex.w).toNat < tex.data.length := by
    omega
  exact ⟨tex.data[((y % tex.h) * tex.w + x % tex.w).toNat], by
    unfold texel; exact List.getElem?_eq_getElem h7⟩

/-- One pixel step under the bounds contract. -/
theorem shadePixel_spec (tri : Triangle) (tex : Texture) (hwf : tex.wf) (s : Buffers)
    (x y : Int) (hx : 0 ≤ x) (hy : 0 ≤ y) (hi : 0 ≤ pixelIndex x y)
    (hfb : pixelIndex x y < s.fb.length) (hzb : pixelIndex x y < s.zb.length) :
    ∃ s', shadePixel tri tex s x y = some s' ∧
      s'.fb.length = s.fb.length ∧ s'.zb.length = s.zb.length ∧
      (∀ i : Nat, i ≠ (pixelIndex x y).toNat → s'.fb[i]? = s.fb[i]? ∧ s'.zb[i]? = s.zb[i]?) ∧
      (∀ d c, s.zb[(pixelIndex x y).toNat]? = some d → s.fb[(pixelIndex x y).toNat]? = some c →
        s'.zb[(pixelIndex x y).toNat]? =
          some (if covers tri x y ∧ flatDepth tri < d then flatDepth tri else d) ∧
        s'.fb[(pixelIndex x y).toNat]? =
          (if covers tri x y ∧ flatDepth tri < d then texel tex x y else some c)) := by
  have hfb' : (pixelIndex x y).toNat < s.fb.length := by omega
  have hzb' : (pixelIndex x y).toNat < s.zb.length := by omega
  by_cases hc : covers tri x y
  · have hread : readAt s.zb (pixelIndex x y) = some (s.zb[(pixelIndex x y).toNat]) := by
      simp [readAt, hi, List.getElem?_eq_getElem hzb']
    by_cases hz : flatDepth tri < s.zb[(pixelIndex x y).toNat]
    · obtain ⟨c', hc'⟩ := texel_isSome tex hwf x y
      obtain ⟨hw, hh, hlen⟩ := hwf
      have hmx : cmod x tex.w = some (x % tex.w) := by
        simp [cmod, ne_of_gt hw, Int.tmod_eq_emod hx (le_of_lt hw)]
      have hmy : cmod y tex.h = some (y % tex.h) := by
        simp [cmod, ne_of_gt hh, Int.tmod_eq_emod hy (le_of_lt hh)]
      have h1 := Int.emod_nonneg x (ne_of_gt hw)
      have h3 := Int.emod_nonneg y (ne_of_gt hh)
      have h6 : 0 ≤ (y % tex.h) * tex.w + x % tex.w := by positivity
      have hrd : readAt tex.data (y % tex.h * tex.w + x % tex.w) = some c' := by
        simp only [readAt, h6, if_true]; exact hc'
      refine ⟨⟨s.fb.set (pixelIndex x y).toNat c', s.zb.set (pixelIndex x y).toNat (flatDepth tri)⟩,
        ?_, ?_, ?_, ?_, ?_⟩
      · simp [shadePixel, hc, hread, hz, writeAt, hi, hfb', hzb', hmx, hmy, hrd]
      · simp
      · simp
      · intro i hne
        exact ⟨List.getElem?_set_ne (Ne.symm hne), List.getElem?_set_ne (Ne.symm hne)⟩
      · intro d c hd _
        have hdd : s.zb[(pixelIndex x y).toNat] = d := by
          rw [List.getElem?_eq_getElem hzb'] at hd; exact Option.some.inj hd
        rw [hdd] at hz
        simp [hc, hz, hfb', hzb', hc']
    · refine ⟨s, ?_, rfl, rfl, fun _ _ => ⟨rfl, rfl⟩, ?_⟩
      · simp [shadePixel, hc, hread, hz]
      · intro d c hd hcol
        have hdd : s.zb[(pixelIndex x y).toNat] = d := by
          rw [List.getElem?_eq_getElem hzb'] at hd; exact Option.some.inj hd
        rw [hdd] at hz
        simp [hz, hd, hcol]
  · refine ⟨s, ?_, rfl, rfl, fun _ _ => ⟨rfl, rfl⟩, ?_⟩
    · simp [shadePixel, hc]
    · intro d c hd hcol
      simp [hc, hd, hcol]

/-- Whatever one pixel step returns differs from its input at most at the index of the
pixel. -/
theorem shadePixel_frame (tri : Triangle) (tex : Texture) (s s' : Buffers) (x y : Int)
    (h : shadePixel tri tex s x y = some s') :
    s'.fb.length = s.fb.length ∧ s'.zb.length = s.zb.length ∧
      ∀ i : Nat, (i : Int) ≠ pixelIndex x y → s'.fb[i]? = s.fb[i]? ∧ s'.zb[i]? = s.zb[i]? := by
  unfold shadePixel at h
  by_cases hc : covers tri x y
  · simp only [hc, if_true] at h
    cases hr : readAt s.zb (pixelIndex x y) with
    | none => simp [hr] at h
    | some d =>
      by_cases hz : flatDepth tri < d
      · simp only [hr, Option.bind_eq_bind, Option.some_bind, hz, if_true, writeAt] at h
        by_cases hb1 : 0 ≤ pixelIndex x y ∧ (pixelIndex x y).toNat < s.zb.length
        · by_cases hb2 : 0 ≤ pixelIndex x y ∧ (pixelIndex x y).toNat < s.fb.length
          · cases hmx : cmod x tex.w with
            | none => simp [hmx, hb1] at h
            | some tx =>
              cases hmy : cmod y tex.h with
              | none => simp [hmy, hmx, hb1] at h
              | some ty =>
                cases hrd : readAt tex.data (ty * tex.w + tx) with
                | none => simp [hmy, hmx, hb1, hrd] at h
                | some c =>
                  have hlt : pixelIndex x y < (s.fb.length : Int) := by omega
                  simp [hmy, hmx, hb1, hrd, hlt] at h
                  subst h
                  refine ⟨by simp, by simp, ?_⟩
                  intro i hne
                  have hne' : (pixelIndex x y).toNat ≠ i := by omega
                  exact ⟨List.getElem?_set_ne hne', List.getElem?_set_ne hne'⟩
          · exfalso
            cases hmx : cmod x tex.w with
            | none => simp [hmx, hb1] at h
            | some tx =>
              cases hmy : cmod y tex.h with
              | none => simp [hmy, hmx, hb1] at h
              | some ty =>
                cases hrd : readAt tex.data (ty * tex.w + tx) with
                | none => simp [hmy, hmx, hb1, hrd] at h
                | some c =>
                  have hlt : ¬ pixelIndex x y < (s.fb.length : Int) := by omega
                  simp [hmy, hmx, hb1, hrd, hlt] at h
        · simp [hb1] at h
      · simp [hr, hz] at h
        subst h
        exact ⟨rfl, rfl, fun _ _ => ⟨rfl, rfl⟩⟩
  · simp [hc] at h
    subst h
    exact ⟨rfl, rfl, fun _ _ => ⟨rfl, rfl⟩⟩

theorem shadeAll_nil (tri : Triangle) (tex : Texture) (s : Buffers) :
    shadeAll tri tex [] s = some s := rfl

theorem shadeAll_cons (tri : Triangle) (tex : Texture) (p : Int × Int) (ps : List (Int × Int))
    (s : Buffers) :
    shadeAll tri tex (p :: ps) s = (shadePixel tri tex s p.1 p.2).bind (shadeAll tri tex ps) := by
  simp [shadeAll, List.foldlM_cons]

theorem shadeAll_append (tri : Triangle) (tex : Texture) (ps qs : List (Int × Int))
    (s : Buffers) :
    shadeAll tri tex (ps ++ qs) s = (shadeAll tri tex ps s).bind (shadeAll tri tex qs) := by
  simp [shadeAll, List.foldlM_append]

/-- Whatever a run over a list of pixels returns differs from its input at most at the
indices of these pixels. -/
theorem shadeAll_frame (tri : Triangle) (tex : Texture) :
    ∀ (ps : List (Int × Int)) (s s' : Buffers), shadeAll tri tex ps s = some s' →
      s'.fb.length = s.fb.length ∧ s'.zb.length = s.zb.length ∧
      ∀ i : Nat, (∀ p ∈ ps, (i : Int) ≠ pixelIndex p.1 p.2) →
        s'.fb[i]? = s.fb[i]? ∧ s'.zb[i]? = s.zb[i]? := by
  intro ps
  induction ps with
  | nil =>
    intro s s' h
    rw [shadeAll_nil] at h
    cases h
    exact ⟨rfl, rfl, fun _ _ => ⟨rfl, rfl⟩⟩
  | cons p ps ih =>
    intro s s' h
    rw [shadeAll_cons] at h
    cases h1 : shadePixel tri tex s p.1 p.2 with
    | none => simp [h1] at h
    | some s1 =>
      rw [h1, Option.some_bind] at h
      obtain ⟨a1, a2, a3⟩ := shadePixel_frame tri tex s s1 p.1 p.2 h1
      obtain ⟨b1, b2, b3⟩ := ih s1 s' h
      refine ⟨b1.trans a1, b2.trans a2, ?_⟩
      intro i hi
      have c1 := a3 i (hi p (List.mem_cons_self _ _))
      have c2 := b3 i (fun q hq => hi q (List.mem_cons_of_mem _ hq))
      exact ⟨c2.1.trans c1.1, c2.2.trans c1.2⟩

/-- Inside a frame column range the buffer index determines the pixel. -/
theorem pixelIndex_inj (x y x' y' : Int) (hx : 0 ≤ x) (hxW : x < WIDTH) (hx' : 0 ≤ x')
    (hxW' : x' < WIDTH) (h : pixelIndex x y = pixelIndex x' y') : x = x' ∧ y = y' := by
  unfold pixelIndex WIDTH at *
  omega

/-- The effect of the rasterizer loop body over a duplicate-free list of pixels that all
have a slot in the buffers: it returns, keeps every other index, and leaves each listed
pixel in the state prescribed by coverage and depth test against the initial depth. -/
theorem shadeAll_spec (tri : Triangle) (tex : Texture) (hwf : tex.wf) :
    ∀ (ps : List (Int × Int)) (s : Buffers), ps.Nodup → (∀ p ∈ ps, inBuffers s p.1 p.2) →
      ∃ s', shadeAll tri tex ps s = some s' ∧
        s'.fb.length = s.fb.length ∧ s'.zb.length = s.zb.length ∧
        (∀ i : Nat, (∀ p ∈ ps, (i : Int) ≠ pixelIndex p.1 p.2) →
          s'.fb[i]? = s.fb[i]? ∧ s'.zb[i]? = s.zb[i]?) ∧
        (∀ p ∈ ps, ∀ d c, s.zb[(pixelIndex p.1 p.2).toNat]? = some d →
          s.fb[(pixelIndex p.1 p.2).toNat]? = some c →
          s'.zb[(pixelIndex p.1 p.2).toNat]? =
            some (if covers tri p.1 p.2 ∧ flatDepth tri < d then flatDepth tri else d) ∧
          s'.fb[(pixelIndex p.1 p.2).toNat]? =
            (if covers tri p.1 p.2 ∧ flatDepth tri < d then texel tex p.1 p.2 else some c)) := by
  intro ps
  induction ps with
  | nil =>
    intro s _ _
    exact ⟨s, rfl, rfl, rfl, fun _ _ => ⟨rfl, rfl⟩, fun p hp => by cases hp⟩
  | cons p ps ih =>
    intro s hnd hin
    rw [List.nodup_cons] at hnd
    obtain ⟨hx, hxW, hy, hfb, hzb⟩ := hin p (List.mem_cons_self _ _)
    have hi : 0 ≤ pixelIndex p.1 p.2 := by unfold pixelIndex WIDTH; omega
    obtain ⟨s1, h1, l1, l2, f1, v1⟩ := shadePixel_spec tri tex hwf s p.1 p.2 hx hy hi hfb hzb
    have hin1 : ∀ q ∈ ps, inBuffers s1 q.1 q.2 := by
      intro q hq
      obtain ⟨q1, q2, q3, q4, q5⟩ := hin q (List.mem_cons_of_mem _ hq)
      exact ⟨q1, q2, q3, by rw [l1]; exact q4, by rw [l2]; exact q5⟩
    obtain ⟨s', h2, m1, m2, f2, v2⟩ := ih s1 hnd.2 hin1
    have hne : ∀ q ∈ ps, (pixelIndex q.1 q.2).toNat ≠ (pixelIndex p.1 p.2).toNat := by
      intro q hq heq
      obtain ⟨q1, q2, q3, _, _⟩ := hin q (List.mem_cons_of_mem _ hq)
      have hqi : 0 ≤ pixelIndex q.1 q.2 := by unfold pixelIndex WIDTH; omega
      have : pixelIndex q.1 q.2 = pixelIndex p.1 p.2 := by omega
      obtain ⟨e1, e2⟩ := pixelIndex_inj _ _ _ _ q1 q2 hx hxW this
      exact hnd.1 (by rw [← Prod.ext e1 e2]; exact hq)
    refine ⟨s', ?_, m1.trans l1, m2.trans l2, ?_, ?_⟩
    · rw [shadeAll_cons, h1, Option.some_bind, h2]
    · intro i hi'
      have c1 := f1 i (by
        have := hi' p (List.mem_cons_self _ _)
        omega)
      have c2 := f2 i (fun q hq => hi' q (List.mem_cons_of_mem _ hq))
      exact ⟨c2.1.trans c1.1, c2.2.trans c1.2⟩
    · intro q hq d c hd hcol
      rcases List.mem_cons.1 hq with rfl | hq
      · have c2 := f2 (pixelIndex q.1 q.2).toNat (by
          intro r hr heq
          exact hne r hr (by omega))
        obtain ⟨w1, w2⟩ := v1 d c hd hcol
        exact ⟨c2.2.trans w1, c2.1.trans w2⟩
      · have c1 := f1 (pixelIndex q.1 q.2).toNat (hne q hq)
        exact v2 q hq d c (c1.2.trans hd) (c1.1.trans hcol)

/-- A pixel the triangle does not cover is left alone. -/
theorem shadePixel_of_not_covers (tri : Triangle) (tex : Texture) (s : Buffers) (x y : Int)
    (h : ¬ covers tri x y) : shadePixel tri tex s x y = some s := by
  unfold shadePixel
  rw [if_neg h]
  rfl

/-- The loop body changes nothing on pixels that are not covered. -/
theorem shadeAll_of_not_covers (tri : Triangle) (tex : Texture) :
    ∀ (ps : List (Int × Int)) (s : Buffers), (∀ p ∈ ps, ¬ covers tri p.1 p.2) →
      shadeAll tri tex ps s = some s := by
  intro ps
  induction ps with
  | nil => intro s _; rfl
  | cons p ps ih =>
    intro s h
    rw [shadeAll_cons, shadePixel_of_not_covers tri tex s p.1 p.2 (h p (List.mem_cons_self _ _)),
      Option.some_bind]
    exact ih s (fun q hq => h q (List.mem_cons_of_mem _ hq))

/-- A slot whose stored depth the depth test rejects is not changed by the loop body,
whatever pixel it runs on. -/
theorem shadePixel_keeps_slot (tri : Triangle) (tex : Texture) (s s' : Buffers) (x y : Int)
    (h : shadePixel tri tex s x y = some s') (i : Nat) (d : F32) (hd : s.zb[i]? = some d)
    (hz : ¬ flatDepth tri < d) : s'.zb[i]? = s.zb[i]? ∧ s'.fb[i]? = s.fb[i]? := by
  by_cases hi : (i : Int) = pixelIndex x y
  · by_cases hc : covers tri x y
    · have hr : readAt s.zb (pixelIndex x y) = some d := by
        unfold readAt
        rw [← hi, if_pos (Int.ofNat_nonneg i), Int.toNat_ofNat]
        exact hd
      unfold shadePixel at h
      simp [hc, hr, hz] at h
      subst h
      exact ⟨rfl, rfl⟩
    · rw [shadePixel_of_not_covers tri tex s x y hc] at h
      cases h
      exact ⟨rfl, rfl⟩
  · obtain ⟨_, _, f⟩ := shadePixel_frame tri tex s s' x y h
    exact ⟨(f i hi).2, (f i hi).1⟩

/-- A slot whose stored depth the depth test rejects is not changed by a run of the loop
body over any list of pixels. -/
theorem shadeAll_keeps_slot (tri : Triangle) (tex : Texture) (i : Nat) (d : F32)
    (hz : ¬ flatDepth tri < d) :
    ∀ (ps : List (Int × Int)) (s s' : Buffers), shadeAll tri tex ps s = some s' →
      s.zb[i]? = some d → s'.zb[i]? = s.zb[i]? ∧ s'.fb[i]? = s.fb[i]? := by
  intro ps
  induction ps with
  | nil =>
    intro s s' h _
    rw [shadeAll_nil] at h
    cases h
    exact ⟨rfl, rfl⟩
  | cons p ps ih =>
    intro s s' h hd
    rw [shadeAll_cons] at h
    cases h1 : shadePixel tri tex s p.1 p.2 with
    | none => simp [h1] at h
    | some s1 =>
      rw [h1, Option.some_bind] at h
      obtain ⟨a1, a2⟩ := shadePixel_keeps_slot tri tex s s1 p.1 p.2 h1 i d hd hz
      obtain ⟨b1, b2⟩ := ih s1 s' h (a1.trans hd)
      exact ⟨b1.trans a1, b2.trans a2⟩

/-- The loop body returns on every list of pixels with non-negative coordinates that have
a slot in both buffers. -/
theorem shadeAll_returns (tri : Triangle) (tex : Texture) (hwf : tex.wf) :
    ∀ (ps : List (Int × Int)) (s : Buffers),
      (∀ p ∈ ps, 0 ≤ p.1 ∧ 0 ≤ p.2 ∧ pixelIndex p.1 p.2 < s.fb.length ∧
        pixelIndex p.1 p.2 < s.zb.length) →
      ∃ s', shadeAll tri tex ps s = some s' := by
  intro ps
  induction ps with
  | nil => intro s _; exact ⟨s, rfl⟩
  | cons p ps ih =>
    intro s h
    obtain ⟨hx, hy, hfb, hzb⟩ := h p (List.mem_cons_self _ _)
    have hi : 0 ≤ pixelIndex p.1 p.2 := by unfold pixelIndex WIDTH; nlinarith
    obtain ⟨s1, h1, l1, l2, _, _⟩ := shadePixel_spec tri tex hwf s p.1 p.2 hx hy hi hfb hzb
    obtain ⟨s', h2⟩ := ih s1 (fun q hq => by
      obtain ⟨q1, q2, q3, q4⟩ := h q (List.mem_cons_of_mem _ hq)
      exact ⟨q1, q2, by rw [l1]; exact q3, by rw [l2]; exact q4⟩)
    exact ⟨s', by rw [shadeAll_cons, h1, Option.some_bind, h2]⟩

/-! ## Tiles as pixel lists -/

theorem mem_intRange (a b i : Int) : i ∈ intRange a b ↔ a ≤ i ∧ i < b := by
  unfold intRange
  rw [List.mem_map]
  constructor
  · rintro ⟨k, hk, rfl⟩
    rw [List.mem_range] at hk
    omega
  · rintro ⟨h1, h2⟩
    refine ⟨(i - a).toNat, ?_, ?_⟩
    · rw [List.mem_range]; omega
    · omega

theorem nodup_intRange (a b : Int) : (intRange a b).Nodup := by
  unfold intRange
  refine List.Nodup.map ?_ (List.nodup_range _)
  intro k1 k2 h
  simp only at h
  omega

theorem mem_pixelsOf (t : Tile) (p : Int × Int) : p ∈ pixelsOf t ↔ t.contains p.1 p.2 := by
  unfold pixelsOf Tile.contains
  rw [List.mem_flatMap]
  constructor
  · rintro ⟨y, hy, hp⟩
    rw [List.mem_map] at hp
    obtain ⟨x, hx, rfl⟩ := hp
    rw [mem_intRange] at hy hx
    exact ⟨hx.1, hx.2, hy.1, hy.2⟩
  · rintro ⟨h1, h2, h3, h4⟩
    refine ⟨p.2, (mem_intRange _ _ _).2 ⟨h3, h4⟩, ?_⟩
    rw [List.mem_map]
    exact ⟨p.1, (mem_intRange _ _ _).2 ⟨h1, h2⟩, rfl⟩

theorem nodup_pixelsOf (t : Tile) : (pixelsOf t).Nodup := by
  unfold pixelsOf
  rw [List.nodup_flatMap]
  refine ⟨?_, ?_⟩
  · intro y _
    refine List.Nodup.map ?_ (nodup_intRange _ _)
    intro x1 x2 h
    exact (Prod.mk.inj h).1
  · refine (nodup_intRange t.startY t.endY).imp ?_
    intro y1 y2 hne
    rw [Function.onFun, List.disjoint_left]
    intro p h1 h2
    rw [List.mem_map] at h1 h2
    obtain ⟨x1, _, rfl⟩ := h1
    obtain ⟨x2, _, e⟩ := h2
    exact hne (Prod.mk.inj e).2.symm

theorem intRange_snoc (a b : Int) (h : a ≤ b) : intRange a (b + 1) = intRange a b ++ [b] := by
  unfold intRange
  have e : (b + 1 - a).toNat = (b - a).toNat + 1 := by omega
  rw [e, List.range_succ, List.map_append, List.map_singleton]
  congr 2
  omega

/-- The visiting order of the tile `(0,0,801,2)`, one column wider than the frame: the
first row up to column `799`, pixel `(800,0)`, then the second row. -/
theorem pixelsOf_wide :
    pixelsOf ⟨0, 0, 801, 2⟩ =
      (intRange 0 800).map (fun x => (x, (0 : Int))) ++
        ((800, 0) :: (intRange 0 801).map (fun x => (x, (1 : Int)))) := by
  have e2 : intRange 0 2 = [0, 1] := by decide
  have e801 : intRange 0 801 = intRange 0 800 ++ [800] := intRange_snoc 0 800 (by decide)
  unfold pixelsOf
  show (intRange 0 2).flatMap (fun y => (intRange 0 801).map (fun x => (x, y))) = _
  rw [e2, List.flatMap_cons, List.flatMap_cons, List.flatMap_nil, List.append_nil]
  nth_rewrite 1 [e801]
  rw [List.map_append, List.map_singleton, List.append_assoc]
  rfl

/-- The two loops of `rasterTile` visit the pixels of `pixelsOf` one after the other. -/
theorem rasterTile_eq_shadeAll (t : Tile) (tri : Triangle) (tex : Texture) (s : Buffers) :
    rasterTile t tri tex s = shadeAll tri tex (pixelsOf t) s := by
  unfold rasterTile pixelsOf
  generalize intRange t.startY t.endY = ys
  induction ys generalizing s with
  | nil => rfl
  | cons y ys ih =>
    rw [List.foldlM_cons, List.flatMap_cons, shadeAll_append]
    have hrow : rasterRow t tri tex s y =
        shadeAll tri tex ((intRange t.startX t.endX).map (fun x => (x, y))) s := by
      unfold rasterRow shadeAll
      rw [List.foldlM_map]
    rw [← hrow]
    cases rasterRow t tri tex s y with
    | none => rfl
    | some s1 => exact ih s1

/-- A sequence of `rasterTile` calls visits the pixels of the tiles one tile after the
other. -/
theorem runTiles_eq_shadeAll (ts : List Tile) (tri : Triangle) (tex : Texture) (s : Buffers) :
    runTiles ts tri tex s = shadeAll tri tex (ts.flatMap pixelsOf) s := by
  unfold runTiles
  induction ts generalizing s with
  | nil => rfl
  | cons t ts ih =>
    rw [List.foldlM_cons, List.flatMap_cons, shadeAll_append, rasterTile_eq_shadeAll]
    cases shadeAll tri tex (pixelsOf t) s with
    | none => rfl
    | some s1 => exact ih s1

/-- The pixels of pairwise disjoint tiles are all different. -/
theorem nodup_flatMap_pixelsOf (ts : List Tile) (h : ts.Pairwise Tile.disjoint) :
    (ts.flatMap pixelsOf).Nodup := by
  rw [List.nodup_flatMap]
  refine ⟨fun t _ => nodup_pixelsOf t, ?_⟩
  refine h.imp ?_
  intro a b hab
  rw [Function.onFun, List.disjoint_left]
  intro p h1 h2
  exact hab p.1 p.2 ⟨(mem_pixelsOf a p).1 h1, (mem_pixelsOf b p).1 h2⟩

/-! ## One tile -/

theorem inBuffers_of_inFrame (t : Tile) (s : Buffers) (h : t.inFrame s) (x y : Int)
    (hc : t.contains x y) : inBuffers s x y := by
  obtain ⟨h1, h2, h3, h4, h5⟩ := h
  obtain ⟨c1, c2, c3, c4⟩ := hc
  unfold inBuffers pixelIndex
  unfold WIDTH at *
  refine ⟨by omega, by omega, by omega, by omega, by omega⟩

/-- The effect of `rasterTile` on a tile inside the frame. -/
theorem rasterTile_spec (t : Tile) (tri : Triangle) (tex : Texture) (s : Buffers)
    (hwf : tex.wf) (hfit : t.inFrame s) :
    ∃ s', rasterTile t tri tex s = some s' ∧
      s'.fb.length = s.fb.length ∧ s'.zb.length = s.zb.length ∧
      (∀ i : Nat, ¬ t.touches i → s'.fb[i]? = s.fb[i]? ∧ s'.zb[i]? = s.zb[i]?) ∧
      (∀ x y, t.contains x y → ∀ d c, s.zb[(pixelIndex x y).toNat]? = some d →
        s.fb[(pixelIndex x y).toNat]? = some c →
        s'.zb[(pixelIndex x y).toNat]? =
          some (if covers tri x y ∧ flatDepth tri < d then flatDepth tri else d) ∧
        s'.fb[(pixelIndex x y).toNat]? =
          (if covers tri x y ∧ flatDepth tri < d then texel tex x y else some c)) := by
  obtain ⟨s', h, l1, l2, f, v⟩ := shadeAll_spec tri tex hwf (pixelsOf t) s (nodup_pixelsOf t)
    (fun p hp => inBuffers_of_inFrame t s hfit p.1 p.2 ((mem_pixelsOf t p).1 hp))
  refine ⟨s', by rw [rasterTile_eq_shadeAll]; exact h, l1, l2, ?_, ?_⟩
  · intro i hi
    apply f
    intro p hp heq
    exact hi ⟨p.1, p.2, (mem_pixelsOf t p).1 hp, heq.symm⟩
  · intro x y hc
    exact v (x, y) ((mem_pixelsOf t (x, y)).2 hc)

/-- Every pixel with a slot in the buffers has a stored depth and a stored colour. -/
theorem inBuffers_get (s : Buffers) (x y : Int) (h : inBuffers s x y) :
    ∃ d c, s.zb[(pixelIndex x y).toNat]? = some d ∧ s.fb[(pixelIndex x y).toNat]? = some c := by
  obtain ⟨h1, h2, h3, h4, h5⟩ := h
  have hi : 0 ≤ pixelIndex x y := by unfold pixelIndex WIDTH; omega
  have a : (pixelIndex x y).toNat < s.zb.length := by omega
  have b : (pixelIndex x y).toNat < s.fb.length := by omega
  exact ⟨s.zb[(pixelIndex x y).toNat], s.fb[(pixelIndex x y).toNat],
    List.getElem?_eq_getElem a, List.getElem?_eq_getElem b⟩

/-- Claim C2, as stated, fails for a tile wider than the frame: on the tile
`(0,0,801,2)` the pixels `(800,0)` and `(0,1)` share buffer index `800`; the triangle
`(800,-2),(800,0),(802,0)` covers `(800,0)` but not `(0,1)`, and after `rasterTile` the
depth and colour stored for the uncovered pixel `(0,1)` have changed. -/
theorem rasterTile_wide_tile_aliases :
    Tile.contains ⟨0, 0, 801, 2⟩ 0 1 ∧
    ¬ covers (intTriangle 800 (-2) 800 0 802 0 (F32.fin (1 / 2)) (F32.fin (1 / 2))
      (F32.fin (1 / 2))) 0 1 ∧
    (pixelIndex 0 1).toNat = 800 ∧
    (List.replicate 1601 SENTINEL)[800]? = some SENTINEL ∧
    (List.replicate 1601 0)[800]? = some 0 ∧
    (rasterTile ⟨0, 0, 801, 2⟩
      (intTriangle 800 (-2) 800 0 802 0 (F32.fin (1 / 2)) (F32.fin (1 / 2)) (F32.fin (1 / 2)))
      ⟨1, 1, [7]⟩ ⟨List.replicate 1601 0, List.replicate 1601 SENTINEL⟩).map
        (fun s => (s.zb[800]?, s.fb[800]?)) = some (some (F32.fin (1 / 2)), some 7) := by
  have hcov : ∀ x y : Int, (0 ≤ x ∧ x ≤ 800) → (0 ≤ y ∧ y ≤ 1) →
      (covers (intTriangle 800 (-2) 800 0 802 0 (F32.fin (1 / 2)) (F32.fin (1 / 2))
        (F32.fin (1 / 2))) x y ↔ (x = 800 ∧ y = 0)) := by
    intro x y hx hy
    rw [covers_intTriangle 800 (-2) 800 0 802 0 _ _ _ x y (by decide) (by decide) (by decide)
      (by omega) (by omega)]
    unfold edgeInt
    constructor
    · intro h; omega
    · rintro ⟨rfl, rfl⟩; decide
  have hz0 : (List.replicate 1601 SENTINEL)[800]? = some SENTINEL := by
    rw [List.getElem?_replicate]; rfl
  have hc0 : (List.replicate 1601 (0 : Nat))[800]? = some 0 := by
    rw [List.getElem?_replicate]; rfl
  refine ⟨by decide, fun h => ?_, by decide, hz0, hc0, ?_⟩
  · have := (hcov 0 1 (by decide) (by decide)).1 h
    omega
  · rw [rasterTile_eq_shadeAll, pixelsOf_wide, shadeAll_append,
      shadeAll_of_not_covers _ _ _ _ (by
        intro p hp
        rw [List.mem_map] at hp
        obtain ⟨x, hx, rfl⟩ := hp
        rw [mem_intRange] at hx
        intro h
        have := (hcov x 0 (by omega) (by decide)).1 h
        omega),
      Option.some_bind, shadeAll_cons]
    obtain ⟨s1, h1, _, _, _, v⟩ := shadePixel_spec
      (intTriangle 800 (-2) 800 0 802 0 (F32.fin (1 / 2)) (F32.fin (1 / 2)) (F32.fin (1 / 2)))
      ⟨1, 1, [7]⟩ ⟨by decide, by decide, rfl⟩
      ⟨List.replicate 1601 0, List.replicate 1601 SENTINEL⟩ 800 0 (by decide) (by decide)
      (by decide)
      (by show pixelIndex 800 0 < ((List.replicate 1601 0).length : Int)
          rw [List.length_replicate]; decide)
      (by show pixelIndex 800 0 < ((List.replicate 1601 SENTINEL).length : Int)
          rw [List.length_replicate]; decide)
    have hidx : (pixelIndex 800 0).toNat = 800 := by decide
    rw [hidx] at v
    obtain ⟨v1, v2⟩ := v SENTINEL 0 hz0 hc0
    have hz : flatDepth (intTriangle 800 (-2) 800 0 802 0 (F32.fin (1 / 2)) (F32.fin (1 / 2))
        (F32.fin (1 / 2))) = F32.fin (1 / 2) := by decide!
    have hlt : F32.fin (1 / 2) < SENTINEL := by decide!
    rw [hz, if_pos ⟨(hcov 800 0 (by decide) (by decide)).2 ⟨rfl, rfl⟩, hlt⟩] at v1 v2
    rw [h1, Option.some_bind,
      shadeAll_of_not_covers _ _ _ _ (by
        intro p hp
        rw [List.mem_map] at hp
        obtain ⟨x, hx, rfl⟩ := hp
        rw [mem_intRange] at hx
        intro h
        have := (hcov x 1 (by omega) (by decide)).1 h
        omega),
      Option.map_some']
    rw [v1, v2]
    rfl

/-- Claim C2 (amended). For every tile inside the frame (`0 <= startX`, `endX <= WIDTH`,
`0 <= startY`, `endY*WIDTH` within both buffers), every triangle and every well-formed
texture, `rasterTile` returns and leaves each pixel `(x, y)` of the tile in this state:
if the three edge values, computed in binary32 arithmetic, are `>= 0` and the binary32
flat depth `(z0+z1+z2)/3` is below the old depth, the depth is the flat depth and the
colour is the texel `tex.data[(y mod h)*w + (x mod w)]`; otherwise depth and colour are
the old ones. -/
theorem rasterTile_pixel_state (t : Tile) (tri : Triangle) (tex : Texture) (s : Buffers)
    (hwf : tex.wf) (hfit : t.inFrame s) :
    ∃ s', rasterTile t tri tex s = some s' ∧
      ∀ x y, t.contains x y →
        ∃ d c, s.zb[(pixelIndex x y).toNat]? = some d ∧
          s.fb[(pixelIndex x y).toNat]? = some c ∧
          s'.zb[(pixelIndex x y).toNat]? =
            some (if edge tri.x1 tri.y1 tri.x2 tri.y2 (F32.ofInt x) (F32.ofInt y) ≥ F32.fin 0 ∧
                    edge tri.x2 tri.y2 tri.x0 tri.y0 (F32.ofInt x) (F32.ofInt y) ≥ F32.fin 0 ∧
                    edge tri.x0 tri.y0 tri.x1 tri.y1 (F32.ofInt x) (F32.ofInt y) ≥ F32.fin 0 ∧
                    F32.divThree (F32.add (F32.add tri.z0 tri.z1) tri.z2) < d
                  then F32.divThree (F32.add (F32.add tri.z0 tri.z1) tri.z2) else d) ∧
          s'.fb[(pixelIndex x y).toNat]? =
            (if edge tri.x1 tri.y1 tri.x2 tri.y2 (F32.ofInt x) (F32.ofInt y) ≥ F32.fin 0 ∧
                edge tri.x2 tri.y2 tri.x0 tri.y0 (F32.ofInt x) (F32.ofInt y) ≥ F32.fin 0 ∧
                edge tri.x0 tri.y0 tri.x1 tri.y1 (F32.ofInt x) (F32.ofInt y) ≥ F32.fin 0 ∧
                F32.divThree (F32.add (F32.add tri.z0 tri.z1) tri.z2) < d
              then tex.data[((y % tex.h) * tex.w + x % tex.w).toNat]? else some c) := by
  obtain ⟨s', h, _, _, _, v⟩ := rasterTile_spec t tri tex s hwf hfit
  refine ⟨s', h, ?_⟩
  intro x y hc
  obtain ⟨d, c, hd, hcol⟩ := inBuffers_get s x y (inBuffers_of_inFrame t s hfit x y hc)
  obtain ⟨v1, v2⟩ := v x y hc d c hd hcol
  refine ⟨d, c, hd, hcol, ?_, ?_⟩
  · rw [v1]; simp only [covers, flatDepth, and_assoc]
  · rw [v2]; simp only [covers, flatDepth, and_assoc, texel]

/-- Claim C2 (amended) on a two-pixel tile of the first row with the fixed triangle. -/
theorem rasterTile_pixel_state_witness :
    ∃ s', rasterTile ⟨0, 0, 2, 1⟩ fixedTriangle ⟨1, 1, [7]⟩
        ⟨List.replicate 800 0, List.replicate 800 SENTINEL⟩ = some s' ∧
      ∀ x y, Tile.contains ⟨0, 0, 2, 1⟩ x y →
        ∃ d c, (List.replicate 800 SENTINEL)[(pixelIndex x y).toNat]? = some d ∧
          (List.replicate 800 0)[(pixelIndex x y).toNat]? = some c ∧
          s'.zb[(pixelIndex x y).toNat]? =
            some (if edge fixedTriangle.x1 fixedTriangle.y1 fixedTriangle.x2 fixedTriangle.y2
                      (F32.ofInt x) (F32.ofInt y) ≥ F32.fin 0 ∧
                    edge fixedTriangle.x2 fixedTriangle.y2 fixedTriangle.x0 fixedTriangle.y0
                      (F32.ofInt x) (F32.ofInt y) ≥ F32.fin 0 ∧
                    edge fixedTriangle.x0 fixedTriangle.y0 fixedTriangle.x1 fixedTriangle.y1
                      (F32.ofInt x) (F32.ofInt y) ≥ F32.fin 0 ∧
                    F32.divThree (F32.add (F32.add fixedTriangle.z0 fixedTriangle.z1)
                      fixedTriangle.z2) < d
                  then F32.divThree (F32.add (F32.add fixedTriangle.z0 fixedTriangle.z1)
                      fixedTriangle.z2) else d) ∧
          s'.fb[(pixelIndex x y).toNat]? =
            (if edge fixedTriangle.x1 fixedTriangle.y1 fixedTriangle.x2 fixedTriangle.y2
                  (F32.ofInt x) (F32.ofInt y) ≥ F32.fin 0 ∧
                edge fixedTriangle.x2 fixedTriangle.y2 fixedTriangle.x0 fixedTriangle.y0
                  (F32.ofInt x) (F32.ofInt y) ≥ F32.fin 0 ∧
                edge fixedTriangle.x0 fixedTriangle.y0 fixedTriangle.x1 fixedTriangle.y1
                  (F32.ofInt x) (F32.ofInt y) ≥ F32.fin 0 ∧
                F32.divThree (F32.add (F32.add fixedTriangle.z0 fixedTriangle.z1)
                  fixedTriangle.z2) < d
              then [7][((y % 1) * 1 + x % 1).toNat]? else some c) :=
  rasterTile_pixel_state ⟨0, 0, 2, 1⟩ fixedTriangle ⟨1, 1, [7]⟩
    ⟨List.replicate 800 0, List.replicate 800 SENTINEL⟩
    ⟨by decide, by decide, rfl⟩
    ⟨by decide, by decide, by decide,
      by show (1 : Int) * 800 ≤ ((List.replicate 800 0).length : Int)
         rw [List.length_replicate]; decide,
      by show (1 : Int) * 800 ≤ ((List.replicate 800 SENTINEL).length : Int)
         rw [List.length_replicate]; decide⟩

/-- Two tiles inside the frame columns that share no pixel share no buffer index. -/
theorem touches_disjoint (a b : Tile) (ha : 0 ≤ a.startX) (ha' : a.endX ≤ WIDTH)
    (hb : 0 ≤ b.startX) (hb' : b.endX ≤ WIDTH) (hab : a.disjoint b) (i : Int) :
    ¬ (a.touches i ∧ b.touches i) := by
  rintro ⟨⟨x, y, hc, rfl⟩, x', y', hc', he⟩
  obtain ⟨e1, e2⟩ := pixelIndex_inj x' y' x y (by have := hc'.1; omega)
    (by have := hc'.2.1; omega) (by have := hc.1; omega) (by have := hc.2.1; omega) he
  subst e1 e2
  exact hab x' y' ⟨hc, hc'⟩

/-- The tile grid of the configured frame: pairwise disjoint tiles that cover exactly the
frame and lie inside it. -/
theorem frameGrid_spec :
    ∃ ts, tileGrid WIDTH HEIGHT TILE_SIZE = some ts ∧ ts.Pairwise Tile.disjoint ∧
      (∀ x y, (∃ t ∈ ts, t.contains x y) ↔ (0 ≤ x ∧ x < WIDTH ∧ 0 ≤ y ∧ y < HEIGHT)) ∧
      (∀ t ∈ ts, 0 ≤ t.startX ∧ t.endX ≤ WIDTH ∧ 0 ≤ t.startY ∧ t.endY ≤ HEIGHT) := by
  obtain ⟨ts, h, hA, _, _⟩ := tileGrid_spec WIDTH HEIGHT TILE_SIZE (by decide) (by decide)
  obtain ⟨ts', h', hd, hu⟩ :=
    tileGrid_disjoint_cover WIDTH HEIGHT TILE_SIZE (by decide) (by decide)
  rw [h] at h'
  cases h'
  refine ⟨ts, h, hd, hu, ?_⟩
  intro t ht
  obtain ⟨a1, a2, a3, a4, a5, a6⟩ := hA t ht
  refine ⟨a4, ?_, a1, ?_⟩
  · rw [a6]; exact min_le_right _ _
  · rw [a3]; exact min_le_right _ _

/-- Claim C3. `rasterTile` writes only inside its own tile: for a tile with
`0 <= startX <= endX <= WIDTH` and `0 <= startY`, whatever the call returns has the same
lengths and the same colour and depth at every index that is not `y*WIDTH+x` for a pixel
`(x, y)` of the tile; the call does return when the tile lies inside both buffers and the
texture is well formed; and the index sets of any two tiles of the frame partition are
disjoint. -/
theorem rasterTile_writes_only_tile (t : Tile) (tri : Triangle) (tex : Texture) (s : Buffers)
    (_h1 : 0 ≤ t.startX) (_h2 : t.startX ≤ t.endX) (_h3 : t.endX ≤ WIDTH)
    (_h4 : 0 ≤ t.startY) :
    (∀ s', rasterTile t tri tex s = some s' →
      s'.fb.length = s.fb.length ∧ s'.zb.length = s.zb.length ∧
      ∀ i : Nat, ¬ t.touches i → s'.fb[i]? = s.fb[i]? ∧ s'.zb[i]? = s.zb[i]?) ∧
    (tex.wf → t.endY * WIDTH ≤ s.fb.length → t.endY * WIDTH ≤ s.zb.length →
      ∃ s', rasterTile t tri tex s = some s') ∧
    (∃ ts, tileGrid WIDTH HEIGHT TILE_SIZE = some ts ∧
      ts.Pairwise (fun a b => ∀ i : Int, ¬ (a.touches i ∧ b.touches i))) := by
  refine ⟨?_, ?_, ?_⟩
  · intro s' h
    rw [rasterTile_eq_shadeAll] at h
    obtain ⟨l1, l2, f⟩ := shadeAll_frame tri tex (pixelsOf t) s s' h
    refine ⟨l1, l2, ?_⟩
    intro i hi
    apply f
    intro p hp heq
    exact hi ⟨p.1, p.2, (mem_pixelsOf t p).1 hp, heq.symm⟩
  · intro hwf hf hz
    obtain ⟨s', h, _⟩ := rasterTile_spec t tri tex s hwf ⟨_h1, _h3, _h4, hf, hz⟩
    exact ⟨s', h⟩
  · obtain ⟨ts, h, hd, _, hin⟩ := frameGrid_spec
    refine ⟨ts, h, hd.imp_of_mem ?_⟩
    intro a b ha hb hab i
    exact touches_disjoint a b (hin a ha).1 (hin a ha).2.1 (hin b hb).1 (hin b hb).2.1 hab i

/-- Claim C3 on the first tile of the frame partition with the fixed triangle. -/
theorem rasterTile_writes_only_tile_witness :
    (0 : Int) ≤ 0 ∧ (0 : Int) ≤ 32 ∧ (32 : Int) ≤ WIDTH ∧
    ((∀ s', rasterTile ⟨0, 0, 32, 32⟩ fixedTriangle checkerTexture
        (clearBuffers initialBuffers) = some s' →
      s'.fb.length = (clearBuffers initialBuffers).fb.length ∧
      s'.zb.length = (clearBuffers initialBuffers).zb.length ∧
      ∀ i : Nat, ¬ Tile.touches ⟨0, 0, 32, 32⟩ i →
        s'.fb[i]? = (clearBuffers initialBuffers).fb[i]? ∧
        s'.zb[i]? = (clearBuffers initialBuffers).zb[i]?) ∧
    (checkerTexture.wf → (32 : Int) * WIDTH ≤ (clearBuffers initialBuffers).fb.length →
      (32 : Int) * WIDTH ≤ (clearBuffers initialBuffers).zb.length →
      ∃ s', rasterTile ⟨0, 0, 32, 32⟩ fixedTriangle checkerTexture
        (clearBuffers initialBuffers) = some s') ∧
    (∃ ts, tileGrid WIDTH HEIGHT TILE_SIZE = some ts ∧
      ts.Pairwise (fun a b => ∀ i : Int, ¬ (a.touches i ∧ b.touches i)))) :=
  ⟨by decide, by decide, by decide,
    rasterTile_writes_only_tile ⟨0, 0, 32, 32⟩ fixedTriangle checkerTexture
      (clearBuffers initialBuffers) (by decide) (by decide) (by decide) (by decide)⟩

/-! ## Whole frames -/

/-- The effect of a sequence of `rasterTile` calls over pairwise disjoint tiles inside the
frame. -/
theorem runTiles_spec (ts : List Tile) (tri : Triangle) (tex : Texture) (s : Buffers)
    (hwf : tex.wf) (hd : ts.Pairwise Tile.disjoint) (hfit : ∀ t ∈ ts, t.inFrame s) :
    ∃ s', runTiles ts tri tex s = some s' ∧
      s'.fb.length = s.fb.length ∧ s'.zb.length = s.zb.length ∧
      (∀ i : Nat, (∀ t ∈ ts, ¬ t.touches i) → s'.fb[i]? = s.fb[i]? ∧ s'.zb[i]? = s.zb[i]?) ∧
      (∀ t ∈ ts, ∀ x y, t.contains x y → ∀ d c, s.zb[(pixelIndex x y).toNat]? = some d →
        s.fb[(pixelIndex x y).toNat]? = some c →
        s'.zb[(pixelIndex x y).toNat]? =
          some (if covers tri x y ∧ flatDepth tri < d then flatDepth tri else d) ∧
        s'.fb[(pixelIndex x y).toNat]? =
          (if covers tri x y ∧ flatDepth tri < d then texel tex x y else some c)) := by
  obtain ⟨s', h, l1, l2, f, v⟩ := shadeAll_spec tri tex hwf (ts.flatMap pixelsOf) s
    (nodup_flatMap_pixelsOf ts hd)
    (fun p hp => by
      obtain ⟨t, ht, hpt⟩ := List.mem_flatMap.1 hp
      exact inBuffers_of_inFrame t s (hfit t ht) p.1 p.2 ((mem_pixelsOf t p).1 hpt))
  refine ⟨s', by rw [runTiles_eq_shadeAll]; exact h, l1, l2, ?_, ?_⟩
  · intro i hi
    apply f
    intro p hp heq
    obtain ⟨t, ht, hpt⟩ := List.mem_flatMap.1 hp
    exact hi t ht ⟨p.1, p.2, (mem_pixelsOf t p).1 hpt, heq.symm⟩
  · intro t ht x y hc
    exact v (x, y) (List.mem_flatMap.2 ⟨t, ht, (mem_pixelsOf t (x, y)).2 hc⟩)

/-- A tile inside the frame lies inside frame-sized buffers. -/
theorem inFrame_of_bounds (t : Tile) (s : Buffers) (hs : s.frameSized)
    (h : 0 ≤ t.startX ∧ t.endX ≤ WIDTH ∧ 0 ≤ t.startY ∧ t.endY ≤ HEIGHT) : t.inFrame s := by
  obtain ⟨h1, h2, h3, h4⟩ := h
  obtain ⟨s1, s2⟩ := hs
  unfold Tile.inFrame
  unfold WIDTH HEIGHT at *
  refine ⟨h1, h2, h3, by omega, by omega⟩

/-- Tiles that are pairwise disjoint, lie inside the frame and cover it produce the frame
result, in whatever order they are listed. -/
theorem runTiles_frameResult (ts : List Tile) (tri : Triangle) (tex : Texture) (s : Buffers)
    (hwf : tex.wf) (hs : s.frameSized) (hd : ts.Pairwise Tile.disjoint)
    (hin : ∀ t ∈ ts, 0 ≤ t.startX ∧ t.endX ≤ WIDTH ∧ 0 ≤ t.startY ∧ t.endY ≤ HEIGHT)
    (hcov : ∀ x y, 0 ≤ x → x < WIDTH → 0 ≤ y → y < HEIGHT → ∃ t ∈ ts, t.contains x y) :
    ∃ s', runTiles ts tri tex s = some s' ∧ FrameResult tri tex s s' := by
  obtain ⟨s', h, l1, l2, _, v⟩ := runTiles_spec ts tri tex s hwf hd
    (fun t ht => inFrame_of_bounds t s hs (hin t ht))
  refine ⟨s', h, l1, l2, ?_⟩
  intro x y hx hxW hy hyH
  obtain ⟨t, ht, hc⟩ := hcov x y hx hxW hy hyH
  exact v t ht x y hc

/-- Every index of a frame-sized buffer is the index of a frame pixel. -/
theorem index_is_pixel (n : Nat) (hn : (n : Int) < WIDTH * HEIGHT) :
    ∃ x y, 0 ≤ x ∧ x < WIDTH ∧ 0 ≤ y ∧ y < HEIGHT ∧ (pixelIndex x y).toNat = n := by
  simp only [WIDTH, HEIGHT, pixelIndex] at hn ⊢
  exact ⟨(n : Int) % 800, (n : Int) / 800, by omega, by omega, by omega, by omega, by omega⟩

/-- The frame result is unique. -/
theorem frameResult_unique (tri : Triangle) (tex : Texture) (s s1 s2 : Buffers)
    (hs : s.frameSized) (h1 : FrameResult tri tex s s1) (h2 : FrameResult tri tex s s2) :
    s1 = s2 := by
  obtain ⟨a1, a2, a3⟩ := h1
  obtain ⟨b1, b2, b3⟩ := h2
  obtain ⟨hf, hz⟩ := hs
  have key : ∀ n : Nat, s1.fb[n]? = s2.fb[n]? ∧ s1.zb[n]? = s2.zb[n]? := by
    intro n
    by_cases hn : (n : Int) < WIDTH * HEIGHT
    · obtain ⟨x, y, hx, hxW, hy, hyH, rfl⟩ := index_is_pixel n hn
      have hd : (pixelIndex x y).toNat < s.zb.length := by omega
      have hc : (pixelIndex x y).toNat < s.fb.length := by omega
      obtain ⟨p1, p2⟩ := a3 x y hx hxW hy hyH _ _ (List.getElem?_eq_getElem hd)
        (List.getElem?_eq_getElem hc)
      obtain ⟨q1, q2⟩ := b3 x y hx hxW hy hyH _ _ (List.getElem?_eq_getElem hd)
        (List.getElem?_eq_getElem hc)
      exact ⟨p2.trans q2.symm, p1.trans q1.symm⟩
    · constructor
      · rw [List.getElem?_eq_none (by omega), List.getElem?_eq_none (by omega)]
      · rw [List.getElem?_eq_none (by omega), List.getElem?_eq_none (by omega)]
  have e1 : s1.fb = s2.fb := List.ext_getElem? (fun n => (key n).1)
  have e2 : s1.zb = s2.zb := List.ext_getElem? (fun n => (key n).2)
  cases s1; cases s2; simp only at e1 e2; rw [e1, e2]

/-- The tiled draw of `drawTriangleMT`, for any triangle, returns the frame result on
frame-sized buffers. -/
theorem drawTriangleWith_frameResult (tri : Triangle) (tex : Texture) (s : Buffers)
    (hwf : tex.wf) (hs : s.frameSized) :
    ∃ s', drawTriangleWith tri tex s = some s' ∧ FrameResult tri tex s s' := by
  obtain ⟨ts, h, hd, hu, hin⟩ := frameGrid_spec
  obtain ⟨s', hr, hres⟩ := runTiles_frameResult ts tri tex s hwf hs hd hin
    (fun x y hx hxW hy hyH => (hu x y).2 ⟨hx, hxW, hy, hyH⟩)
  exact ⟨s', by unfold drawTriangleWith; rw [h]; exact hr, hres⟩

/-- Claim C4. On frame-sized buffers and for every triangle and well-formed texture, the
tile list of `drawTriangleMT` (`W=800`, `H=600`, `T=32`) exists, the single call
`rasterTile(0,0,WIDTH,HEIGHT)` returns buffers `s'`, and running `rasterTile` sequentially
over any permutation of the tile list returns the same `s'`. -/
theorem tiled_frame_order_independent (tri : Triangle) (tex : Texture) (s : Buffers)
    (hwf : tex.wf) (hs : s.frameSized) :
    ∃ ts s', tileGrid 800 600 32 = some ts ∧
      rasterTile ⟨0, 0, WIDTH, HEIGHT⟩ tri tex s = some s' ∧
      ∀ ts', ts'.Perm ts → runTiles ts' tri tex s = some s' := by
  obtain ⟨ts, h, hd, hu, hin⟩ := frameGrid_spec
  have hwhole : ∃ s', runTiles [⟨0, 0, WIDTH, HEIGHT⟩] tri tex s = some s' ∧
      FrameResult tri tex s s' := by
    apply runTiles_frameResult _ tri tex s hwf hs (List.pairwise_singleton _ _)
    · intro t ht
      rw [List.mem_singleton] at ht
      subst ht
      exact ⟨le_refl _, le_refl _, le_refl _, le_refl _⟩
    · intro x y hx hxW hy hyH
      exact ⟨_, List.mem_singleton_self _, hx, hxW, hy, hyH⟩
  obtain ⟨s', hr, hres⟩ := hwhole
  refine ⟨ts, s', h, ?_, ?_⟩
  · have : runTiles [⟨0, 0, WIDTH, HEIGHT⟩] tri tex s =
        rasterTile ⟨0, 0, WIDTH, HEIGHT⟩ tri tex s := by
      unfold runTiles
      rw [List.foldlM_cons]
      cases rasterTile ⟨0, 0, WIDTH, HEIGHT⟩ tri tex s <;> rfl
    rw [← this]; exact hr
  · intro ts' hp
    have hd' : ts'.Pairwise Tile.disjoint :=
      (hp.pairwise_iff (fun {a b} hab x y hxy => hab x y ⟨hxy.2, hxy.1⟩)).2 hd
    obtain ⟨s'', hr', hres'⟩ := runTiles_frameResult ts' tri tex s hwf hs hd'
      (fun t ht => hin t (hp.mem_iff.1 ht))
      (fun x y hx hxW hy hyH => by
        obtain ⟨t, ht, hc⟩ := (hu x y).2 ⟨hx, hxW, hy, hyH⟩
        exact ⟨t, hp.mem_iff.2 ht, hc⟩)
    rw [hr', frameResult_unique tri tex s s'' s' hs hres' hres]

/-! ## The checker texture and the cleared buffers -/

/-- The inner loop of `checkerTexture` on row `y`, run for `x < m`. -/
theorem checkerRow_spec (y : Nat) : ∀ (m : Nat) (d : List Nat),
    ((List.range m).foldl (fun d x => d.set (y * 64 + x) (checkerTexel x y)) d).length
        = d.length ∧
    ∀ i : Nat, ((List.range m).foldl (fun d x => d.set (y * 64 + x) (checkerTexel x y)) d)[i]? =
      if y * 64 ≤ i ∧ i < y * 64 + m ∧ i < d.length then some (checkerTexel (i - y * 64) y)
      else d[i]? := by
  intro m
  induction m with
  | zero =>
    intro d
    refine ⟨rfl, fun i => ?_⟩
    rw [if_neg (by omega)]
    rfl
  | succ m ih =>
    intro d
    rw [List.range_succ, List.foldl_append]
    obtain ⟨l, v⟩ := ih d
    refine ⟨by simp [l], fun i => ?_⟩
    simp only [List.foldl_cons, List.foldl_nil]
    rw [List.getElem?_set, l, v i]
    by_cases h1 : y * 64 + m = i
    · subst h1
      by_cases h2 : y * 64 + m < d.length
      · rw [if_pos rfl, if_pos h2, if_pos ⟨by omega, by omega, h2⟩]
        congr 2
        omega
      · rw [if_pos rfl, if_neg h2, if_neg (by omega)]
        exact (List.getElem?_eq_none (by omega)).symm
    · rw [if_neg h1]
      by_cases h3 : y * 64 ≤ i ∧ i < y * 64 + m ∧ i < d.length
      · rw [if_pos h3, if_pos ⟨h3.1, by omega, h3.2.2⟩]
      · rw [if_neg h3, if_neg (by omega)]

/-- The outer loop of `checkerTexture`, run for `y < n`. -/
theorem checkerRows_spec : ∀ (n : Nat) (d : List Nat),
    ((List.range n).foldl (fun d y =>
        (List.range 64).foldl (fun d x => d.set (y * 64 + x) (checkerTexel x y)) d) d).length
        = d.length ∧
    ∀ i : Nat, ((List.range n).foldl (fun d y =>
        (List.range 64).foldl (fun d x => d.set (y * 64 + x) (checkerTexel x y)) d) d)[i]? =
      if i < n * 64 ∧ i < d.length then some (checkerTexel (i % 64) (i / 64)) else d[i]? := by
  intro n
  induction n with
  | zero =>
    intro d
    refine ⟨rfl, fun i => ?_⟩
    rw [if_neg (by omega)]
    rfl
  | succ n ih =>
    intro d
    rw [show List.range (n + 1) = List.range n ++ [n] from List.range_succ _, List.foldl_append]
    obtain ⟨l, v⟩ := ih d
    simp only [List.foldl_cons, List.foldl_nil]
    obtain ⟨l', v'⟩ := checkerRow_spec n 64 ((List.range n).foldl (fun d y =>
        (List.range 64).foldl (fun d x => d.set (y * 64 + x) (checkerTexel x y)) d) d)
    refine ⟨l'.trans l, fun i => ?_⟩
    rw [v' i, l, v i]
    by_cases h1 : n * 64 ≤ i ∧ i < n * 64 + 64 ∧ i < d.length
    · rw [if_pos h1, if_pos ⟨by omega, h1.2.2⟩]
      have e1 : i - n * 64 = i % 64 := by omega
      have e2 : n = i / 64 := by omega
      rw [e1, ← e2]
    · rw [if_neg h1]
      by_cases h2 : i < n * 64 ∧ i < d.length
      · rw [if_pos h2, if_pos ⟨by omega, h2.2⟩]
      · rw [if_neg h2, if_neg (by omega)]

/-- The texel stored by `checkerTexture` at index `i`. -/
theorem checkerTexture_data (i : Nat) :
    checkerTexture.data[i]? =
      if i < 4096 then some (checkerTexel (i % 64) (i / 64)) else none := by
  have h := (checkerRows_spec 64 (List.replicate (64 * 64) 0)).2 i
  rw [List.length_replicate] at h
  unfold checkerTexture
  dsimp only
  rw [h]
  by_cases hi : i < 4096
  · rw [if_pos ⟨by omega, by omega⟩, if_pos hi]
  · rw [if_neg (by omega), if_neg hi]
    exact List.getElem?_eq_none (by rw [List.length_replicate]; omega)

theorem checkerTexture_wf : checkerTexture.wf := by
  refine ⟨by decide, by decide, ?_⟩
  have h := (checkerRows_spec 64 (List.replicate (64 * 64) 0)).1
  rw [List.length_replicate] at h
  unfold checkerTexture
  dsimp only
  rw [h]
  rfl

/-- Sampling the checker texture at a pixel. -/
theorem texel_checkerTexture (x y : Int) :
    texel checkerTexture x y = some (checkerTexel (x % 64).toNat (y % 64).toNat) := by
  unfold texel
  show checkerTexture.data[((y % 64) * 64 + x % 64).toNat]? = _
  rw [checkerTexture_data]
  have e1 : ((y % 64) * 64 + x % 64).toNat % 64 = (x % 64).toNat := by omega
  have e2 : ((y % 64) * 64 + x % 64).toNat / 64 = (y % 64).toNat := by omega
  rw [if_pos (by omega), e1, e2]

theorem clearBuffers_frameSized (s : Buffers) (hs : s.frameSized) :
    (clearBuffers s).frameSized := by
  unfold clearBuffers Buffers.frameSized
  simp only [List.length_replicate]
  exact hs

theorem initialBuffers_frameSized : initialBuffers.frameSized := by
  unfold initialBuffers Buffers.frameSized
  simp only [List.length_replicate]
  exact ⟨by decide, by decide⟩

/-- After `clearBuffers` every slot holds colour `0` and the depth sentinel. -/
theorem clearBuffers_get (s : Buffers) (i : Nat) :
    (clearBuffers s).fb[i]? = (if i < s.fb.length then some 0 else none) ∧
    (clearBuffers s).zb[i]? = (if i < s.zb.length then some SENTINEL else none) := by
  unfold clearBuffers
  exact ⟨List.getElem?_replicate, List.getElem?_replicate⟩

/-- Claim C4 for the fixed triangle and the checker texture on freshly cleared buffers. -/
theorem tiled_frame_order_independent_witness :
    checkerTexture.wf ∧ (clearBuffers initialBuffers).frameSized ∧
    ∃ ts s', tileGrid 800 600 32 = some ts ∧
      rasterTile ⟨0, 0, WIDTH, HEIGHT⟩ fixedTriangle checkerTexture
        (clearBuffers initialBuffers) = some s' ∧
      ∀ ts', ts'.Perm ts →
        runTiles ts' fixedTriangle checkerTexture (clearBuffers initialBuffers) = some s' :=
  ⟨checkerTexture_wf, clearBuffers_frameSized _ initialBuffers_frameSized,
    tiled_frame_order_independent fixedTriangle checkerTexture (clearBuffers initialBuffers)
      checkerTexture_wf (clearBuffers_frameSized _ initialBuffers_frameSized)⟩

/-! ## Triple-buffer rotation -/

theorem rolesAfter_succ (n : Nat) : rolesAfter (n + 1) = endFrame (rolesAfter n) := by
  unfold rolesAfter
  exact Function.iterate_succ_apply' endFrame n Roles.initial

/-- The rotation runs through three role assignments. -/
theorem rolesAfter_cases (n : Nat) :
    rolesAfter n =
        ⟨Framebuffer.framebuffer1, Framebuffer.framebuffer2, Framebuffer.framebuffer3⟩ ∨
    rolesAfter n =
        ⟨Framebuffer.framebuffer3, Framebuffer.framebuffer1, Framebuffer.framebuffer2⟩ ∨
    rolesAfter n =
        ⟨Framebuffer.framebuffer2, Framebuffer.framebuffer3, Framebuffer.framebuffer1⟩ := by
  induction n with
  | zero => exact Or.inl rfl
  | succ n ih =>
    rw [rolesAfter_succ]
    rcases ih with h | h | h <;> rw [h]
    · exact Or.inr (Or.inl rfl)
    · exact Or.inr (Or.inr rfl)
    · exact Or.inl rfl

/-- Claim C5. One `endFrame` transition is the cyclic role shift: new Display = old Write,
new Write = old Settled, new Settled = old Display; hence for every `N >= 1`, after `N`
calls from the initial assignment Display is the buffer that was Write immediately before
the `N`-th call. -/
theorem endFrame_cyclic_shift (r : Roles) (N : Nat) (hN : 1 ≤ N) :
    (endFrame r).displayFrame = r.nextFrame ∧
    (endFrame r).nextFrame = r.currentFrame ∧
    (endFrame r).currentFrame = r.displayFrame ∧
    (rolesAfter N).displayFrame = (rolesAfter (N - 1)).nextFrame := by
  refine ⟨rfl, rfl, rfl, ?_⟩
  obtain ⟨n, rfl⟩ : ∃ n, N = n + 1 := ⟨N - 1, by omega⟩
  rw [rolesAfter_succ, Nat.add_sub_cancel]
  rfl

/-- Claim C5 at the first frame. -/
theorem endFrame_cyclic_shift_witness :
    1 ≤ 1 ∧
    (endFrame Roles.initial).displayFrame = Roles.initial.nextFrame ∧
    (endFrame Roles.initial).nextFrame = Roles.initial.currentFrame ∧
    (endFrame Roles.initial).currentFrame = Roles.initial.displayFrame ∧
    (rolesAfter 1).displayFrame = (rolesAfter (1 - 1)).nextFrame :=
  ⟨le_refl 1, endFrame_cyclic_shift Roles.initial 1 (le_refl 1)⟩

/-- Claim C6, as stated, fails already for `N = 2`: the Write buffer after two calls of
`endFrame` is `framebuffer3`, the buffer that was Display after zero calls. -/
theorem write_reuses_display_after_two :
    2 ≤ 2 ∧ (rolesAfter 2).nextFrame = Framebuffer.framebuffer3 ∧
    (rolesAfter (2 - 2)).displayFrame = Framebuffer.framebuffer3 ∧
    ¬ ((rolesAfter 2).nextFrame ≠ (rolesAfter (2 - 1)).displayFrame ∧
       (rolesAfter 2).nextFrame ≠ (rolesAfter (2 - 2)).displayFrame) := by
  decide

/-- Claim C6 (amended). For every `N >= 2` the Write buffer after `N` calls of `endFrame`
is not the buffer that was Display after `N-1` calls (nor the Display after `N` calls); it
is exactly the buffer that was Display after `N-2` calls. -/
theorem write_not_previous_display (N : Nat) (hN : 2 ≤ N) :
    (rolesAfter N).nextFrame ≠ (rolesAfter (N - 1)).displayFrame ∧
    (rolesAfter N).nextFrame ≠ (rolesAfter N).displayFrame ∧
    (rolesAfter N).nextFrame = (rolesAfter (N - 2)).displayFrame := by
  obtain ⟨n, rfl⟩ : ∃ n, N = n + 2 := ⟨N - 2, by omega⟩
  have e1 : n + 2 - 1 = n + 1 := by omega
  have e2 : n + 2 - 2 = n := by omega
  rw [e1, e2, rolesAfter_succ (n + 1), rolesAfter_succ n]
  rcases rolesAfter_cases n with h | h | h <;> rw [h] <;> decide

/-- Claim C6 (amended) at `N = 2`. -/
theorem write_not_previous_display_witness :
    2 ≤ 2 ∧
    (rolesAfter 2).nextFrame ≠ (rolesAfter (2 - 1)).displayFrame ∧
    (rolesAfter 2).nextFrame ≠ (rolesAfter 2).displayFrame ∧
    (rolesAfter 2).nextFrame = (rolesAfter (2 - 2)).displayFrame :=
  ⟨le_refl 2, write_not_previous_display 2 (le_refl 2)⟩

/-- Claim C7. In every state reachable from the initial assignment by `endFrame`
transitions, Write, Settled and Display are three pairwise distinct buffers and together
are a permutation of `framebuffer1`, `framebuffer2`, `framebuffer3`. -/
theorem roles_never_alias (N : Nat) :
    (rolesAfter N).nextFrame ≠ (rolesAfter N).currentFrame ∧
    (rolesAfter N).currentFrame ≠ (rolesAfter N).displayFrame ∧
    (rolesAfter N).nextFrame ≠ (rolesAfter N).displayFrame ∧
    [(rolesAfter N).nextFrame, (rolesAfter N).currentFrame, (rolesAfter N).displayFrame].Perm
      [Framebuffer.framebuffer1, Framebuffer.framebuffer2, Framebuffer.framebuffer3] := by
  rcases rolesAfter_cases N with h | h | h <;> rw [h] <;> decide

/-! ## Depth after a frame -/

/-- Frame-sized buffers have a slot for every frame pixel. -/
theorem frameSized_get (s : Buffers) (hs : s.frameSized) (x y : Int) (hx : 0 ≤ x)
    (hxW : x < WIDTH) (hy : 0 ≤ y) (hyH : y < HEIGHT) :
    ∃ d c, s.zb[(pixelIndex x y).toNat]? = some d ∧ s.fb[(pixelIndex x y).toNat]? = some c := by
  apply inBuffers_get
  obtain ⟨s1, s2⟩ := hs
  unfold inBuffers pixelIndex
  unfold WIDTH HEIGHT at *
  refine ⟨hx, hxW, hy, by omega, by omega⟩

theorem frameResult_frameSized (tri : Triangle) (tex : Texture) (s s' : Buffers)
    (hs : s.frameSized) (h : FrameResult tri tex s s') : s'.frameSized := by
  unfold Buffers.frameSized
  rw [h.1, h.2.1]
  exact hs

theorem drawTriangles_cons (tri : Triangle) (tris : List Triangle) (tex : Texture)
    (s : Buffers) :
    drawTriangles (tri :: tris) tex s =
      (drawTriangleWith tri tex s).bind (drawTriangles tris tex) := by
  simp [drawTriangles, List.foldlM_cons]

theorem f32_min_cases (d a : F32) :
    (F32.min d a = d ∧ ¬ a < d) ∨ (F32.min d a = a ∧ a < d) := by
  unfold F32.min
  by_cases h : a < d
  · rw [if_pos h]; exact Or.inr ⟨rfl, h⟩
  · rw [if_neg h]; exact Or.inl ⟨rfl, h⟩

/-- Folding `F32.min` over a list never raises the start value. -/
theorem foldl_min_le : ∀ (ds : List F32) (d : F32),
    ds.foldl F32.min d = d ∨ ds.foldl F32.min d < d := by
  intro ds
  induction ds with
  | nil => intro d; exact Or.inl rfl
  | cons a ds ih =>
    intro d
    rw [List.foldl_cons]
    rcases f32_min_cases d a with ⟨e, _⟩ | ⟨e, h⟩
    · rw [e]; exact ih d
    · rw [e]
      rcases ih a with h1 | h1
      · rw [h1]; exact Or.inr h
      · exact Or.inr (f32_lt_chain h1 h)

/-- Folding `F32.min` over a list picks a member of the list or the start value, and
neither a member nor the start value is below the result. -/
theorem foldl_min_least : ∀ (ds : List F32) (d : F32),
    ds.foldl F32.min d ∈ d :: ds ∧ ∀ z ∈ d :: ds, ¬ z < ds.foldl F32.min d := by
  intro ds
  induction ds with
  | nil =>
    intro d
    refine ⟨List.mem_singleton.2 rfl, ?_⟩
    intro z hz
    rw [List.mem_singleton] at hz
    subst hz
    exact f32_lt_self z
  | cons a ds ih =>
    intro d
    obtain ⟨m, l⟩ := ih (F32.min d a)
    have hle := foldl_min_le ds (F32.min d a)
    rw [List.foldl_cons]
    refine ⟨?_, ?_⟩
    · rcases List.mem_cons.1 m with h | h
      · rcases f32_min_cases d a with ⟨e, _⟩ | ⟨e, _⟩
        · rw [h, e]; exact List.mem_cons_self _ _
        · rw [h, e]; exact List.mem_cons_of_mem _ (List.mem_cons_self _ _)
      · exact List.mem_cons_of_mem _ (List.mem_cons_of_mem _ h)
    · intro z hz hlt
      rcases List.mem_cons.1 hz with rfl | hz
      · rcases f32_min_cases z a with ⟨e, _⟩ | ⟨e, h⟩
        · rw [e] at hle hlt
          rcases hle with h1 | h1
          · rw [h1] at hlt; exact f32_lt_self _ hlt
          · exact f32_lt_self _ (f32_lt_chain hlt h1)
        · rw [e] at hle hlt
          rcases hle with h1 | h1
          · rw [h1] at hlt; exact f32_lt_self _ (f32_lt_chain hlt h)
          · exact f32_lt_self _ (f32_lt_chain hlt (f32_lt_chain h1 h))
      · rcases List.mem_cons.1 hz with rfl | hz
        · rcases f32_min_cases d z with ⟨e, h⟩ | ⟨e, _⟩
          · rw [e] at hle hlt
            rcases hle with h1 | h1
            · rw [h1] at hlt; exact h hlt
            · exact h (f32_lt_chain hlt h1)
          · rw [e] at hle hlt
            rcases hle with h1 | h1
            · rw [h1] at hlt; exact f32_lt_self _ hlt
            · exact f32_lt_self _ (f32_lt_chain hlt h1)
        · exact l z (List.mem_cons_of_mem _ hz) hlt

/-- Drawing a list of triangles lowers each stored depth to the minimum of its old value
and the flat depths of the covering triangles. -/
theorem drawTriangles_depth (tex : Texture) (hwf : tex.wf) :
    ∀ (tris : List Triangle) (s : Buffers), s.frameSized →
      ∃ s', drawTriangles tris tex s = some s' ∧ s'.frameSized ∧
        ∀ x y, 0 ≤ x → x < WIDTH → 0 ≤ y → y < HEIGHT →
          ∀ d, s.zb[(pixelIndex x y).toNat]? = some d →
            s'.zb[(pixelIndex x y).toNat]? =
              some ((coveringDepths tris x y).foldl F32.min d) := by
  intro tris
  induction tris with
  | nil =>
    intro s hs
    exact ⟨s, rfl, hs, fun x y _ _ _ _ d hd => hd⟩
  | cons tri tris ih =>
    intro s hs
    obtain ⟨s1, h1, r1⟩ := drawTriangleWith_frameResult tri tex s hwf hs
    obtain ⟨s', h2, hs', v⟩ := ih s1 (frameResult_frameSized tri tex s s1 hs r1)
    refine ⟨s', by rw [drawTriangles_cons, h1, Option.some_bind, h2], hs', ?_⟩
    intro x y hx hxW hy hyH d hd
    obtain ⟨d0, c0, hd0, hc0⟩ := frameSized_get s hs x y hx hxW hy hyH
    rw [hd] at hd0
    cases hd0
    have w1 := (r1.2.2 x y hx hxW hy hyH d c0 hd hc0).1
    rw [v x y hx hxW hy hyH _ w1]
    congr 1
    unfold coveringDepths
    by_cases hc : covers tri x y
    · rw [List.filter_cons_of_pos (by simpa using hc), List.map_cons, List.foldl_cons]
      congr 1
      unfold F32.min
      by_cases hz : flatDepth tri < d
      · rw [if_pos ⟨hc, hz⟩, if_pos hz]
      · rw [if_neg (fun h => hz h.2), if_neg hz]
    · rw [List.filter_cons_of_neg (by simpa using hc), if_neg (fun h => hc h.1)]

/-- Claim C8, as stated, fails for a triangle beyond the sentinel: the degenerate triangle
at `(0,0)` with flat depth `2e9` covers pixel `(0,0)`, so the promised depth is `2e9`, but
after the frame the depth entry of the pixel is still the sentinel `1e9`. -/
theorem far_triangle_keeps_sentinel :
    specDepth [intTriangle 0 0 0 0 0 0 (F32.fin 2000000000) (F32.fin 2000000000)
      (F32.fin 2000000000)] 0 0 = F32.fin 2000000000 ∧
    ∃ s', drawTriangles [intTriangle 0 0 0 0 0 0 (F32.fin 2000000000) (F32.fin 2000000000)
        (F32.fin 2000000000)] checkerTexture (clearBuffers initialBuffers) = some s' ∧
      s'.zb[(pixelIndex 0 0).toNat]? = some (F32.fin 1000000000) := by
  have hcov : coveringDepths [intTriangle 0 0 0 0 0 0 (F32.fin 2000000000)
      (F32.fin 2000000000) (F32.fin 2000000000)] 0 0 = [F32.fin 2000000000] := by
    decide!
  refine ⟨?_, ?_⟩
  · unfold specDepth
    rw [hcov]
    rfl
  · obtain ⟨s', h, _, v⟩ := drawTriangles_depth checkerTexture checkerTexture_wf
      [intTriangle 0 0 0 0 0 0 (F32.fin 2000000000) (F32.fin 2000000000)
        (F32.fin 2000000000)] (clearBuffers initialBuffers)
      (clearBuffers_frameSized _ initialBuffers_frameSized)
    refine ⟨s', h, ?_⟩
    have h0 : (clearBuffers initialBuffers).zb[(pixelIndex 0 0).toNat]? = some SENTINEL := by
      rw [(clearBuffers_get initialBuffers _).2, if_pos]
      show (pixelIndex 0 0).toNat < (List.replicate 480000 (F32.fin 0)).length
      rw [List.length_replicate]
      decide
    rw [v 0 0 (by decide) (by decide) (by decide) (by decide) SENTINEL h0, hcov]
    congr 1

/-- Claim C8 (amended). For every list of triangles rasterized over the whole tile partition
into frame-sized buffers freshly cleared by `clearBuffers`, the frame is produced and every
pixel's final depth entry is the minimum, in the binary32 order, of the sentinel `1e9` and
the binary32 flat depths `(z0+z1+z2)/3` of all triangles of the list that cover that pixel:
it is the sentinel or one of these flat depths, it is at most the sentinel (so it is not
NaN), and neither the sentinel nor any of these flat depths is below it; it equals the
sentinel if no triangle of the list covers the pixel. -/
theorem depth_is_min_with_sentinel (tris : List Triangle) (tex : Texture) (s : Buffers)
    (hwf : tex.wf) (hs : s.frameSized) :
    ∃ s', drawTriangles tris tex (clearBuffers s) = some s' ∧
      ∀ x y, 0 ≤ x → x < WIDTH → 0 ≤ y → y < HEIGHT →
        s'.zb[(pixelIndex x y).toNat]? = some (minDepth tris x y) ∧
        minDepth tris x y ∈ SENTINEL :: coveringDepths tris x y ∧
        minDepth tris x y ≤ SENTINEL ∧
        (∀ z ∈ SENTINEL :: coveringDepths tris x y, ¬ z < minDepth tris x y) ∧
        ((∀ tri ∈ tris, ¬ covers tri x y) →
          s'.zb[(pixelIndex x y).toNat]? = some SENTINEL) := by
  obtain ⟨s', h, _, v⟩ := drawTriangles_depth tex hwf tris (clearBuffers s)
    (clearBuffers_frameSized s hs)
  refine ⟨s', h, ?_⟩
  intro x y hx hxW hy hyH
  have h0 : (clearBuffers s).zb[(pixelIndex x y).toNat]? = some SENTINEL := by
    obtain ⟨d, c, hd, _⟩ := frameSized_get (clearBuffers s) (clearBuffers_frameSized s hs)
      x y hx hxW hy hyH
    have := (clearBuffers_get s (pixelIndex x y).toNat).2
    rw [this] at hd ⊢
    by_cases hlt : (pixelIndex x y).toNat < s.zb.length
    · rw [if_pos hlt]
    · rw [if_neg hlt] at hd; cases hd
  have hv := v x y hx hxW hy hyH SENTINEL h0
  obtain ⟨m, l⟩ := foldl_min_least (coveringDepths tris x y) SENTINEL
  have hle : minDepth tris x y ≤ SENTINEL := by
    unfold minDepth
    rcases foldl_min_le (coveringDepths tris x y) SENTINEL with e | e
    · rw [e]; exact (fin_le_fin _ _).2 (le_refl _)
    · exact f32_le_of_lt e
  refine ⟨hv, m, hle, l, ?_⟩
  intro hnone
  rw [hv]
  have : coveringDepths tris x y = [] := by
    unfold coveringDepths
    rw [List.map_eq_nil_iff, List.filter_eq_nil_iff]
    intro tri ht
    simpa using hnone tri ht
  rw [this]
  rfl

/-- Claim C8 (amended) for the fixed triangle drawn once into cleared start-up buffers. -/
theorem depth_is_min_with_sentinel_witness :
    checkerTexture.wf ∧ initialBuffers.frameSized ∧
    ∃ s', drawTriangles [fixedTriangle] checkerTexture (clearBuffers initialBuffers) = some s' ∧
      ∀ x y, 0 ≤ x → x < WIDTH → 0 ≤ y → y < HEIGHT →
        s'.zb[(pixelIndex x y).toNat]? = some (minDepth [fixedTriangle] x y) ∧
        minDepth [fixedTriangle] x y ∈ SENTINEL :: coveringDepths [fixedTriangle] x y ∧
        minDepth [fixedTriangle] x y ≤ SENTINEL ∧
        (∀ z ∈ SENTINEL :: coveringDepths [fixedTriangle] x y,
          ¬ z < minDepth [fixedTriangle] x y) ∧
        ((∀ tri ∈ [fixedTriangle], ¬ covers tri x y) →
          s'.zb[(pixelIndex x y).toNat]? = some SENTINEL) :=
  ⟨checkerTexture_wf, initialBuffers_frameSized,
    depth_is_min_with_sentinel [fixedTriangle] checkerTexture initialBuffers
      checkerTexture_wf initialBuffers_frameSized⟩

/-! ## The fixed scenario -/

/-- The fixed triangle has small integer vertices. -/
theorem fixedTriangle_eq :
    fixedTriangle = intTriangle 400 100 200 500 600 500 (F32.fin (1 / 2)) (F32.fin (1 / 2))
      (F32.fin (1 / 2)) := by
  simp [fixedTriangle, intTriangle]

/-- Coverage by the fixed triangle, computed in binary32 arithmetic, is on the frame the
intersection of three integer half-planes. -/
theorem covers_fixedTriangle (x y : Int) (hx : 0 ≤ x ∧ x < 800) (hy : 0 ≤ y ∧ y < 600) :
    covers fixedTriangle x y ↔
      (400 * (500 - y) ≥ 0 ∧ -400 * (x - 600) + 200 * (y - 500) ≥ 0 ∧
        400 * (x - 400) + 200 * (y - 100) ≥ 0) := by
  rw [fixedTriangle_eq, covers_intTriangle 400 100 200 500 600 500 _ _ _ x y (by decide)
    (by decide) (by decide) (by omega) (by omega)]
  have e0 : edgeInt 200 500 600 500 x y = 400 * (500 - y) := by unfold edgeInt; ring
  have e1 : edgeInt 600 500 400 100 x y = -400 * (x - 600) + 200 * (y - 500) := by
    unfold edgeInt; ring
  have e2 : edgeInt 400 100 200 500 x y = 400 * (x - 400) + 200 * (y - 100) := by
    unfold edgeInt; ring
  rw [e0, e1, e2]

theorem flatDepth_fixedTriangle : flatDepth fixedTriangle = F32.fin (1 / 2) := by
  decide!

/-- The checker value at the wrapped texture coordinate of a pixel. -/
theorem checkerTexel_wrap (x y : Int) :
    checkerTexel (x % 64).toNat (y % 64).toNat =
      if ((x % 64) / 8 + (y % 64) / 8) % 2 = 1 then 0xFFFFFFFF else 0xFF000000 := by
  unfold checkerTexel
  by_cases h : ((x % 64) / 8 + (y % 64) / 8) % 2 = 1
  · rw [if_pos h, if_pos (by omega)]
  · rw [if_neg h, if_neg (by omega)]

/-- Claim C9. After `clearBuffers` and `drawTriangleMT` with the fixed triangle
`(400,100,0.5),(200,500,0.5),(600,500,0.5)` and `checkerTexture` on the `800 x 600` frame,
for every pixel: the coverage test holds iff the pixel lies in the intersection of the three
edge half-planes (boundary included); every such pixel has depth `0.5` and the checker
colour at `(x mod 64, y mod 64)`; every other pixel has colour `0` and depth `1e9`. -/
theorem fixed_scenario_frame (s : Buffers) (hs : s.frameSized) :
    ∃ s', drawTriangleMT checkerTexture (clearBuffers s) = some s' ∧
      ∀ x y : Int, 0 ≤ x → x < 800 → 0 ≤ y → y < 600 →
        (covers fixedTriangle x y ↔
          (400 * (500 - y) ≥ 0 ∧ -400 * (x - 600) + 200 * (y - 500) ≥ 0 ∧
            400 * (x - 400) + 200 * (y - 100) ≥ 0)) ∧
        ((400 * (500 - y) ≥ 0 ∧ -400 * (x - 600) + 200 * (y - 500) ≥ 0 ∧
            400 * (x - 400) + 200 * (y - 100) ≥ 0) →
          s'.zb[(y * 800 + x).toNat]? = some (F32.fin (1 / 2)) ∧
          s'.fb[(y * 800 + x).toNat]? =
            some (if ((x % 64) / 8 + (y % 64) / 8) % 2 = 1 then 0xFFFFFFFF else 0xFF000000)) ∧
        (¬ (400 * (500 - y) ≥ 0 ∧ -400 * (x - 600) + 200 * (y - 500) ≥ 0 ∧
            400 * (x - 400) + 200 * (y - 100) ≥ 0) →
          s'.zb[(y * 800 + x).toNat]? = some (F32.fin 1000000000) ∧
          s'.fb[(y * 800 + x).toNat]? = some 0x00000000) := by
  obtain ⟨s', h, _, _, v⟩ := drawTriangleWith_frameResult fixedTriangle checkerTexture
    (clearBuffers s) checkerTexture_wf (clearBuffers_frameSized s hs)
  refine ⟨s', h, ?_⟩
  intro x y hx hxW hy hyH
  have hidx : (y * 800 + x).toNat = (pixelIndex x y).toNat := rfl
  have hlt : (pixelIndex x y).toNat < s.zb.length ∧ (pixelIndex x y).toNat < s.fb.length := by
    obtain ⟨s1, s2⟩ := hs
    unfold pixelIndex
    unfold WIDTH HEIGHT at *
    constructor <;> omega
  have hz : (clearBuffers s).zb[(pixelIndex x y).toNat]? = some SENTINEL := by
    rw [(clearBuffers_get s _).2, if_pos hlt.1]
  have hc : (clearBuffers s).fb[(pixelIndex x y).toNat]? = some 0 := by
    rw [(clearBuffers_get s _).1, if_pos hlt.2]
  obtain ⟨v1, v2⟩ := v x y hx hxW hy hyH SENTINEL 0 hz hc
  rw [hidx]
  have hcf := covers_fixedTriangle x y ⟨hx, hxW⟩ ⟨hy, hyH⟩
  refine ⟨hcf, ?_, ?_⟩
  · intro hH
    have hcov := hcf.2 hH
    have hlt' : flatDepth fixedTriangle < SENTINEL := by
      rw [flatDepth_fixedTriangle]; decide!
    rw [if_pos ⟨hcov, hlt'⟩] at v1 v2
    rw [v1, v2, flatDepth_fixedTriangle, texel_checkerTexture, checkerTexel_wrap]
    exact ⟨rfl, rfl⟩
  · intro hH
    have hcov : ¬ covers fixedTriangle x y := fun h => hH (hcf.1 h)
    rw [if_neg (fun h => hcov h.1)] at v1 v2
    rw [v1, v2]
    exact ⟨rfl, rfl⟩

/-- Claim C9 on the start-up buffers. -/
theorem fixed_scenario_frame_witness :
    initialBuffers.frameSized ∧
    ∃ s', drawTriangleMT checkerTexture (clearBuffers initialBuffers) = some s' ∧
      ∀ x y : Int, 0 ≤ x → x < 800 → 0 ≤ y → y < 600 →
        (covers fixedTriangle x y ↔
          (400 * (500 - y) ≥ 0 ∧ -400 * (x - 600) + 200 * (y - 500) ≥ 0 ∧
            400 * (x - 400) + 200 * (y - 100) ≥ 0)) ∧
        ((400 * (500 - y) ≥ 0 ∧ -400 * (x - 600) + 200 * (y - 500) ≥ 0 ∧
            400 * (x - 400) + 200 * (y - 100) ≥ 0) →
          s'.zb[(y * 800 + x).toNat]? = some (F32.fin (1 / 2)) ∧
          s'.fb[(y * 800 + x).toNat]? =
            some (if ((x % 64) / 8 + (y % 64) / 8) % 2 = 1 then 0xFFFFFFFF else 0xFF000000)) ∧
        (¬ (400 * (500 - y) ≥ 0 ∧ -400 * (x - 600) + 200 * (y - 500) ≥ 0 ∧
            400 * (x - 400) + 200 * (y - 100) ≥ 0) →
          s'.zb[(y * 800 + x).toNat]? = some (F32.fin 1000000000) ∧
          s'.fb[(y * 800 + x).toNat]? = some 0x00000000) :=
  ⟨initialBuffers_frameSized, fixed_scenario_frame initialBuffers initialBuffers_frameSized⟩

/-! ## No leakage between frames -/

/-- The result of `clearBuffers` depends on the lengths only. -/
theorem clearBuffers_eq_of_length (s1 s2 : Buffers) (hf : s1.fb.length = s2.fb.length)
    (hz : s1.zb.length = s2.zb.length) : clearBuffers s1 = clearBuffers s2 := by
  unfold clearBuffers
  rw [hf, hz]

theorem clearBuffers_eq_of_frameSized (s1 s2 : Buffers) (h1 : s1.frameSized)
    (h2 : s2.frameSized) : clearBuffers s1 = clearBuffers s2 := by
  obtain ⟨a1, a2⟩ := h1
  obtain ⟨b1, b2⟩ := h2
  exact clearBuffers_eq_of_length s1 s2 (by omega) (by omega)

/-- One frame on frame-sized buffers: it is produced, is frame-sized again, and every
covered pixel nearer than the sentinel holds the triangle's flat depth and texel. -/
theorem renderFrame_spec (tri : Triangle) (tex : Texture) (s : Buffers) (hwf : tex.wf)
    (hs : s.frameSized) :
    ∃ o, renderFrame tri tex s = some o ∧ o.frameSized ∧
      ∀ x y, 0 ≤ x → x < WIDTH → 0 ≤ y → y < HEIGHT → covers tri x y →
        flatDepth tri < SENTINEL →
        o.zb[(pixelIndex x y).toNat]? = some (flatDepth tri) ∧
        o.fb[(pixelIndex x y).toNat]? = texel tex x y := by
  have hcs := clearBuffers_frameSized s hs
  obtain ⟨o, h, r⟩ := drawTriangleWith_frameResult tri tex (clearBuffers s) hwf hcs
  refine ⟨o, h, frameResult_frameSized tri tex _ o hcs r, ?_⟩
  intro x y hx hxW hy hyH hc hz
  obtain ⟨d, c, hd, hcol⟩ := frameSized_get (clearBuffers s) hcs x y hx hxW hy hyH
  have hd' : d = SENTINEL := by
    have := (clearBuffers_get s (pixelIndex x y).toNat).2
    rw [this] at hd
    by_cases hlt : (pixelIndex x y).toNat < s.zb.length
    · rw [if_pos hlt] at hd; exact (Option.some.inj hd).symm
    · rw [if_neg hlt] at hd; cases hd
  subst hd'
  obtain ⟨v1, v2⟩ := r.2.2 x y hx hxW hy hyH SENTINEL c hd hcol
  rw [if_pos ⟨hc, hz⟩] at v1 v2
  exact ⟨v1, v2⟩

/-- Claim C10. A frame does not depend on what the buffers held before: for any two
frame-sized prior contents, `clearBuffers` followed by rasterization of the same triangle
with the same texture produces the same buffers, and produces them; the clear step resets
every depth entry to the sentinel and every colour to `0`; after any earlier frame, whatever
its triangle and whatever colour buffer is the next write target, the next frame's triangle
is drawn at every pixel it covers (when nearer than the sentinel); and rendering the same
triangle again into the output of its own frame reproduces that output. -/
theorem frame_independent_of_history (tri : Triangle) (tex : Texture) (s1 s2 : Buffers)
    (hwf : tex.wf) (h1 : s1.frameSized) (h2 : s2.frameSized) :
    renderFrame tri tex s1 = renderFrame tri tex s2 ∧
    (∃ o, renderFrame tri tex s1 = some o) ∧
    (∀ i : Nat, (i : Int) < WIDTH * HEIGHT →
      (clearBuffers s1).zb[i]? = some SENTINEL ∧ (clearBuffers s1).fb[i]? = some 0) ∧
    (∀ (triA : Triangle) (sA : Buffers) (fb : List Nat), renderFrame triA tex s1 = some sA →
      (fb.length : Int) = WIDTH * HEIGHT →
      ∃ sB, renderFrame tri tex ⟨fb, sA.zb⟩ = some sB ∧
        ∀ x y, 0 ≤ x → x < WIDTH → 0 ≤ y → y < HEIGHT → covers tri x y →
          flatDepth tri < SENTINEL →
          sB.zb[(pixelIndex x y).toNat]? = some (flatDepth tri) ∧
          sB.fb[(pixelIndex x y).toNat]? = texel tex x y) ∧
    (∀ o, renderFrame tri tex s1 = some o → renderFrame tri tex o = some o) := by
  obtain ⟨o, ho, hos, _⟩ := renderFrame_spec tri tex s1 hwf h1
  refine ⟨?_, ⟨o, ho⟩, ?_, ?_, ?_⟩
  · unfold renderFrame
    rw [clearBuffers_eq_of_frameSized s1 s2 h1 h2]
  · intro i hi
    obtain ⟨a1, a2⟩ := h1
    obtain ⟨c1, c2⟩ := clearBuffers_get s1 i
    rw [c1, c2, if_pos (by omega), if_pos (by omega)]
    exact ⟨rfl, rfl⟩
  · intro triA sA fb hA hfb
    obtain ⟨oA, hoA, hAs, _⟩ := renderFrame_spec triA tex s1 hwf h1
    rw [hoA] at hA
    have e : oA = sA := Option.some.inj hA
    rw [e] at hAs
    obtain ⟨sB, hB, _, v⟩ := renderFrame_spec tri tex ⟨fb, sA.zb⟩ hwf ⟨hfb, hAs.2⟩
    exact ⟨sB, hB, v⟩
  · intro o' ho'
    rw [ho] at ho'
    cases ho'
    rw [← ho]
    unfold renderFrame
    rw [clearBuffers_eq_of_frameSized o s1 hos h1]

/-- Claim C10 for the fixed triangle, starting from the start-up buffers and from the
cleared start-up buffers. -/
theorem frame_independent_of_history_witness :
    checkerTexture.wf ∧ initialBuffers.frameSized ∧ (clearBuffers initialBuffers).frameSized ∧
    (renderFrame fixedTriangle checkerTexture initialBuffers =
        renderFrame fixedTriangle checkerTexture (clearBuffers initialBuffers) ∧
    (∃ o, renderFrame fixedTriangle checkerTexture initialBuffers = some o) ∧
    (∀ i : Nat, (i : Int) < WIDTH * HEIGHT →
      (clearBuffers initialBuffers).zb[i]? = some SENTINEL ∧
      (clearBuffers initialBuffers).fb[i]? = some 0) ∧
    (∀ (triA : Triangle) (sA : Buffers) (fb : List Nat),
      renderFrame triA checkerTexture initialBuffers = some sA →
      (fb.length : Int) = WIDTH * HEIGHT →
      ∃ sB, renderFrame fixedTriangle checkerTexture ⟨fb, sA.zb⟩ = some sB ∧
        ∀ x y, 0 ≤ x → x < WIDTH → 0 ≤ y → y < HEIGHT → covers fixedTriangle x y →
          flatDepth fixedTriangle < SENTINEL →
          sB.zb[(pixelIndex x y).toNat]? = some (flatDepth fixedTriangle) ∧
          sB.fb[(pixelIndex x y).toNat]? = texel checkerTexture x y) ∧
    (∀ o, renderFrame fixedTriangle checkerTexture initialBuffers = some o →
      renderFrame fixedTriangle checkerTexture o = some o)) :=
  ⟨checkerTexture_wf, initialBuffers_frameSized,
    clearBuffers_frameSized _ initialBuffers_frameSized,
    frame_independent_of_history fixedTriangle checkerTexture initialBuffers
      (clearBuffers initialBuffers) checkerTexture_wf initialBuffers_frameSized
      (clearBuffers_frameSized _ initialBuffers_frameSized)⟩

/-! ## Winding, degenerate triangles and bounds -/

/-- On small integer vertices the three binary32 edge values are the exact ones at every
pixel of magnitude at most `1024`. -/
theorem edgesExactAt_intTriangle (a0 b0 a1 b1 a2 b2 : Int) (z0 z1 z2 : F32) (x y : Int)
    (h0 : (-1024 ≤ a0 ∧ a0 ≤ 1024) ∧ (-1024 ≤ b0 ∧ b0 ≤ 1024))
    (h1 : (-1024 ≤ a1 ∧ a1 ≤ 1024) ∧ (-1024 ≤ b1 ∧ b1 ≤ 1024))
    (h2 : (-1024 ≤ a2 ∧ a2 ≤ 1024) ∧ (-1024 ≤ b2 ∧ b2 ≤ 1024))
    (hx : -1024 ≤ x ∧ x ≤ 1024) (hy : -1024 ≤ y ∧ y ≤ 1024) :
    edgesExactAt (intTriangle a0 b0 a1 b1 a2 b2 z0 z1 z2) x y := by
  have e : ∀ p q r s : Int,
      ((edgeInt p q r s x y : Int) : ℚ) = exactEdge (p : ℚ) (q : ℚ) (r : ℚ) (s : ℚ) x y := by
    intro p q r s
    unfold edgeInt exactEdge
    push_cast
    ring
  unfold edgesExactAt intTriangle
  simp only [F32.toRat]
  rw [edge_int a1 b1 a2 b2 x y h1.1 h1.2 h2.1 h2.2 hx hy,
    edge_int a2 b2 a0 b0 x y h2.1 h2.2 h0.1 h0.2 hx hy,
    edge_int a0 b0 a1 b1 x y h0.1 h0.2 h1.1 h1.2 hx hy, e, e, e]
  exact ⟨rfl, rfl, rfl⟩

/-- A triangle of negative doubled signed area covers no pixel at which its three binary32
edge values are the exact ones. -/
theorem not_covers_of_exact (tri : Triangle) (h : tri.area2 < 0) (x y : Int)
    (he : edgesExactAt tri x y) : ¬ covers tri x y := by
  obtain ⟨e0, e1, e2⟩ := he
  intro hc
  unfold covers at hc
  simp only [ge_iff_le] at hc
  rw [e0, e1, e2, fin_le_fin, fin_le_fin, fin_le_fin] at hc
  have hsum := exactEdge_sum tri.x0.toRat tri.y0.toRat tri.x1.toRat tri.y1.toRat
    tri.x2.toRat tri.y2.toRat x y
  unfold Triangle.area2 at h
  linarith [hc.1, hc.2.1, hc.2.2]

set_option maxRecDepth 100000 in
/-- Claim C11, as stated, fails in binary32 arithmetic: the triangle `(0,0)`, `(6,18)`,
`(-0.6f,-1.8f)`, whose third vertex has the binary32 coordinates `-5033165/8388608` and
`-7549747/4194304`, has the negative doubled signed area `-3/4194304` over exact
arithmetic, but the three edge values that `rasterTile` computes at pixel `(0,0)` are `0`,
the pixel passes the coverage test, and `rasterTile` on the tile `(0,0,1,1)` writes its
depth and its colour. -/
theorem opposite_winding_rounding_covers :
    F32.round (-3 / 5) = F32.fin (-5033165 / 8388608) ∧
    F32.round (-9 / 5) = F32.fin (-7549747 / 4194304) ∧
    Triangle.area2 ⟨F32.fin 0, F32.fin 0, F32.fin (1 / 2), F32.fin 6, F32.fin 18,
      F32.fin (1 / 2), F32.fin (-5033165 / 8388608), F32.fin (-7549747 / 4194304),
      F32.fin (1 / 2)⟩ = -3 / 4194304 ∧
    Triangle.area2 ⟨F32.fin 0, F32.fin 0, F32.fin (1 / 2), F32.fin 6, F32.fin 18,
      F32.fin (1 / 2), F32.fin (-5033165 / 8388608), F32.fin (-7549747 / 4194304),
      F32.fin (1 / 2)⟩ < 0 ∧
    edge (F32.fin 6) (F32.fin 18) (F32.fin (-5033165 / 8388608))
      (F32.fin (-7549747 / 4194304)) (F32.ofInt 0) (F32.ofInt 0) = F32.fin 0 ∧
    edge (F32.fin (-5033165 / 8388608)) (F32.fin (-7549747 / 4194304)) (F32.fin 0)
      (F32.fin 0) (F32.ofInt 0) (F32.ofInt 0) = F32.fin 0 ∧
    edge (F32.fin 0) (F32.fin 0) (F32.fin 6) (F32.fin 18) (F32.ofInt 0) (F32.ofInt 0) =
      F32.fin 0 ∧
    covers ⟨F32.fin 0, F32.fin 0, F32.fin (1 / 2), F32.fin 6, F32.fin 18,
      F32.fin (1 / 2), F32.fin (-5033165 / 8388608), F32.fin (-7549747 / 4194304),
      F32.fin (1 / 2)⟩ 0 0 ∧
    rasterTile ⟨0, 0, 1, 1⟩ ⟨F32.fin 0, F32.fin 0, F32.fin (1 / 2), F32.fin 6, F32.fin 18,
      F32.fin (1 / 2), F32.fin (-5033165 / 8388608), F32.fin (-7549747 / 4194304),
      F32.fin (1 / 2)⟩ ⟨1, 1, [7]⟩ ⟨[0], [SENTINEL]⟩ = some ⟨[7], [F32.fin (1 / 2)]⟩ := by
  refine ⟨by decide!, by decide!, by decide!, by decide!, by decide!, by decide!, by decide!,
    by decide!, by decide!⟩

/-- Claim C11 (amended). A triangle whose doubled signed area `edge(v1,v2,v0)` is negative
over exact arithmetic covers no pixel at which the three binary32 edge values computed by
`rasterTile` are the exact ones, and `rasterTile` over a tile of such pixels returns the
colour and depth buffers unchanged. The edge values are exact when the vertex coordinates
are integers of magnitude at most `1024` and the pixel coordinates have magnitude at most
`1024`; so for such a triangle `rasterTile` leaves both buffers unchanged on every tile
inside the `800 x 600` frame. -/
theorem exact_opposite_winding_uncovered (tri : Triangle) (h : tri.area2 < 0)
    (t : Tile) (tex : Texture) (s : Buffers) :
    (∀ x y : Int, edgesExactAt tri x y → ¬ covers tri x y) ∧
    ((∀ x y : Int, t.contains x y → edgesExactAt tri x y) →
      rasterTile t tri tex s = some s) ∧
    (∀ (a0 b0 a1 b1 a2 b2 : Int) (z0 z1 z2 : F32),
      tri = intTriangle a0 b0 a1 b1 a2 b2 z0 z1 z2 →
      (-1024 ≤ a0 ∧ a0 ≤ 1024) ∧ (-1024 ≤ b0 ∧ b0 ≤ 1024) →
      (-1024 ≤ a1 ∧ a1 ≤ 1024) ∧ (-1024 ≤ b1 ∧ b1 ≤ 1024) →
      (-1024 ≤ a2 ∧ a2 ≤ 1024) ∧ (-1024 ≤ b2 ∧ b2 ≤ 1024) →
      (∀ x y : Int, -1024 ≤ x ∧ x ≤ 1024 → -1024 ≤ y ∧ y ≤ 1024 →
        edgesExactAt tri x y ∧ ¬ covers tri x y) ∧
      (0 ≤ t.startX ∧ t.endX ≤ WIDTH ∧ 0 ≤ t.startY ∧ t.endY ≤ HEIGHT →
        rasterTile t tri tex s = some s)) := by
  have key : (∀ x y : Int, t.contains x y → edgesExactAt tri x y) →
      rasterTile t tri tex s = some s := by
    intro hex
    rw [rasterTile_eq_shadeAll]
    exact shadeAll_of_not_covers tri tex _ s (fun p hp =>
      not_covers_of_exact tri h p.1 p.2 (hex p.1 p.2 ((mem_pixelsOf t p).1 hp)))
  refine ⟨fun x y he => not_covers_of_exact tri h x y he, key, ?_⟩
  intro a0 b0 a1 b1 a2 b2 z0 z1 z2 htri h0 h1 h2
  have hex : ∀ x y : Int, -1024 ≤ x ∧ x ≤ 1024 → -1024 ≤ y ∧ y ≤ 1024 →
      edgesExactAt tri x y := by
    intro x y hx hy
    rw [htri]
    exact edgesExactAt_intTriangle a0 b0 a1 b1 a2 b2 z0 z1 z2 x y h0 h1 h2 hx hy
  refine ⟨fun x y hx hy => ⟨hex x y hx hy, not_covers_of_exact tri h x y (hex x y hx hy)⟩, ?_⟩
  rintro ⟨t1, t2, t3, t4⟩
  apply key
  intro x y hc
  obtain ⟨c1, c2, c3, c4⟩ := hc
  unfold WIDTH HEIGHT at *
  exact hex x y ⟨by omega, by omega⟩ ⟨by omega, by omega⟩

/-- Claim C11 (amended) for the fixed triangle with two vertices exchanged, on a tile of
the frame partition. -/
theorem exact_opposite_winding_uncovered_witness :
    Triangle.area2 (intTriangle 400 100 600 500 200 500 (F32.fin (1 / 2)) (F32.fin (1 / 2))
      (F32.fin (1 / 2))) < 0 ∧
    (∀ x y : Int, -1024 ≤ x ∧ x ≤ 1024 → -1024 ≤ y ∧ y ≤ 1024 →
      edgesExactAt (intTriangle 400 100 600 500 200 500 (F32.fin (1 / 2)) (F32.fin (1 / 2))
        (F32.fin (1 / 2))) x y ∧
      ¬ covers (intTriangle 400 100 600 500 200 500 (F32.fin (1 / 2)) (F32.fin (1 / 2))
        (F32.fin (1 / 2))) x y) ∧
    rasterTile ⟨384, 288, 416, 320⟩
      (intTriangle 400 100 600 500 200 500 (F32.fin (1 / 2)) (F32.fin (1 / 2))
        (F32.fin (1 / 2)))
      checkerTexture (clearBuffers initialBuffers) = some (clearBuffers initialBuffers) :=
  ⟨by decide!,
    ((exact_opposite_winding_uncovered
      (intTriangle 400 100 600 500 200 500 (F32.fin (1 / 2)) (F32.fin (1 / 2))
        (F32.fin (1 / 2)))
      (by decide!) ⟨384, 288, 416, 320⟩ checkerTexture (clearBuffers initialBuffers)).2.2
      400 100 600 500 200 500 (F32.fin (1 / 2)) (F32.fin (1 / 2)) (F32.fin (1 / 2)) rfl
      (by decide) (by decide) (by decide)).1,
    ((exact_opposite_winding_uncovered
      (intTriangle 400 100 600 500 200 500 (F32.fin (1 / 2)) (F32.fin (1 / 2))
        (F32.fin (1 / 2)))
      (by decide!) ⟨384, 288, 416, 320⟩ checkerTexture (clearBuffers initialBuffers)).2.2
      400 100 600 500 200 500 (F32.fin (1 / 2)) (F32.fin (1 / 2)) (F32.fin (1 / 2)) rfl
      (by decide) (by decide) (by decide)).2 (by decide)⟩

/-- The edge value of a finite point edge is `0` at every pixel whose coordinates convert
exactly. -/
theorem edge_point (a b : ℚ) (ha : |a| ≤ F32.maxFinite) (hb : |b| ≤ F32.maxFinite)
    (x y : Int) (hx : -16777216 < x ∧ x < 16777216) (hy : -16777216 < y ∧ y < 16777216) :
    edge (F32.fin a) (F32.fin b) (F32.fin a) (F32.fin b) (F32.ofInt x) (F32.ofInt y) =
      F32.fin 0 := by
  have hfin : ∀ (n : Int) (c : ℚ), (-16777216 < n ∧ n < 16777216) → |c| ≤ F32.maxFinite →
      ∃ r, F32.round ((n : ℚ) - c) = F32.fin r := by
    intro n c hn hc
    apply round_finite
    have h1 : |(n : ℚ)| < 16777216 := by
      rw [abs_lt]
      constructor
      · exact_mod_cast hn.1
      · exact_mod_cast hn.2
    have h2 := abs_sub (n : ℚ) c
    unfold F32.maxFinite at hc
    have h3 : (16777216 : ℚ) + (2 ^ 128 - 2 ^ 104) < 2 ^ 128 - 2 ^ 103 := by norm_num
    linarith
  unfold edge
  rw [ofInt_small x hx.1 hx.2, ofInt_small y hy.1 hy.2, sub_fin, sub_fin, sub_fin, sub_fin,
    sub_self, sub_self, round_zero]
  obtain ⟨r1, e1⟩ := hfin x a hx ha
  obtain ⟨r2, e2⟩ := hfin y b hy hb
  rw [e1, e2, mul_fin, mul_fin, mul_zero, mul_zero, round_zero, sub_fin, sub_self, round_zero]

set_option maxRecDepth 100000 in
/-- Claim C20, as stated, fails in two ways. With the three vertices coincident at
infinite coordinates the edge values are NaN, pixel `(0,0)` fails the coverage test, and
`rasterTile` on the tile `(0,0,1,1)` leaves the pixel alone although its stored depth
`1e9` is larger than the flat depth `0.5`. And on the tile `(0,0,801,2)`, one column wider
than the frame, the point triangle at `(5,5)` of depth `0.5` with a `1 x 2` texture
leaves for pixel `(0,1)`, whose stored depth `1e9` is larger, the colour `10` of pixel
`(800,0)`, which shares its buffer index `800`, and not its own texel `12`. -/
theorem degenerate_triangle_not_always_drawn :
    (edge F32.pinf F32.pinf F32.pinf F32.pinf (F32.ofInt 0) (F32.ofInt 0) = F32.nan ∧
      ¬ covers ⟨F32.pinf, F32.pinf, F32.fin (1 / 2), F32.pinf, F32.pinf, F32.fin (1 / 2),
        F32.pinf, F32.pinf, F32.fin (1 / 2)⟩ 0 0 ∧
      flatDepth ⟨F32.pinf, F32.pinf, F32.fin (1 / 2), F32.pinf, F32.pinf, F32.fin (1 / 2),
        F32.pinf, F32.pinf, F32.fin (1 / 2)⟩ < SENTINEL ∧
      rasterTile ⟨0, 0, 1, 1⟩ ⟨F32.pinf, F32.pinf, F32.fin (1 / 2), F32.pinf, F32.pinf,
        F32.fin (1 / 2), F32.pinf, F32.pinf, F32.fin (1 / 2)⟩ ⟨1, 1, [7]⟩ ⟨[0], [SENTINEL]⟩ =
        some ⟨[0], [SENTINEL]⟩) ∧
    (Tile.contains ⟨0, 0, 801, 2⟩ 0 1 ∧
      (pixelIndex 0 1).toNat = 800 ∧
      (List.replicate 1601 SENTINEL)[800]? = some SENTINEL ∧
      flatDepth (intTriangle 5 5 5 5 5 5 (F32.fin (1 / 2)) (F32.fin (1 / 2))
        (F32.fin (1 / 2))) < SENTINEL ∧
      texel ⟨1, 2, [10, 12]⟩ 0 1 = some 12 ∧
      (rasterTile ⟨0, 0, 801, 2⟩
        (intTriangle 5 5 5 5 5 5 (F32.fin (1 / 2)) (F32.fin (1 / 2)) (F32.fin (1 / 2)))
        ⟨1, 2, [10, 12]⟩ ⟨List.replicate 1601 0, List.replicate 1601 SENTINEL⟩).map
          (fun s => (s.zb[800]?, s.fb[800]?)) = some (some (F32.fin (1 / 2)), some 10)) := by
  have hz0 : (List.replicate 1601 SENTINEL)[800]? = some SENTINEL := by
    rw [List.getElem?_replicate]; rfl
  have hc0 : (List.replicate 1601 (0 : Nat))[800]? = some 0 := by
    rw [List.getElem?_replicate]; rfl
  have hz : flatDepth (intTriangle 5 5 5 5 5 5 (F32.fin (1 / 2)) (F32.fin (1 / 2))
      (F32.fin (1 / 2))) = F32.fin (1 / 2) := by decide!
  have hlt : F32.fin (1 / 2) < SENTINEL := by decide!
  refine ⟨⟨by decide!, by decide!, by decide!, by decide!⟩,
    by decide, by decide, hz0, by rw [hz]; exact hlt, by decide, ?_⟩
  have hwf : Texture.wf ⟨1, 2, [10, 12]⟩ := ⟨by decide, by decide, rfl⟩
  obtain ⟨s', hs'⟩ := shadeAll_returns
    (intTriangle 5 5 5 5 5 5 (F32.fin (1 / 2)) (F32.fin (1 / 2)) (F32.fin (1 / 2)))
    ⟨1, 2, [10, 12]⟩ hwf (pixelsOf ⟨0, 0, 801, 2⟩)
    ⟨List.replicate 1601 0, List.replicate 1601 SENTINEL⟩ (by
      intro p hp
      obtain ⟨c1, c2, c3, c4⟩ := (mem_pixelsOf _ p).1 hp
      simp only [List.length_replicate]
      unfold pixelIndex WIDTH
      simp only at c1 c2 c3 c4
      refine ⟨c1, c3, ?_, ?_⟩ <;> push_cast <;> omega)
  rw [rasterTile_eq_shadeAll, hs', Option.map_some']
  rw [pixelsOf_wide, shadeAll_append] at hs'
  cases hA : shadeAll (intTriangle 5 5 5 5 5 5 (F32.fin (1 / 2)) (F32.fin (1 / 2))
      (F32.fin (1 / 2))) ⟨1, 2, [10, 12]⟩ ((intRange 0 800).map (fun x => (x, (0 : Int))))
      ⟨List.replicate 1601 0, List.replicate 1601 SENTINEL⟩ with
  | none => rw [hA] at hs'; cases hs'
  | some s1 =>
    rw [hA, Option.some_bind, shadeAll_cons] at hs'
    obtain ⟨l1, l2, f⟩ := shadeAll_frame _ _ _ _ s1 hA
    obtain ⟨f1, f2⟩ := f 800 (by
      intro p hp
      rw [List.mem_map] at hp
      obtain ⟨x, hx, rfl⟩ := hp
      rw [mem_intRange] at hx
      unfold pixelIndex WIDTH
      simp only
      omega)
    simp only at l1 l2 f1 f2
    rw [hc0] at f1
    rw [hz0] at f2
    obtain ⟨s2, h2, _, _, _, v⟩ := shadePixel_spec
      (intTriangle 5 5 5 5 5 5 (F32.fin (1 / 2)) (F32.fin (1 / 2)) (F32.fin (1 / 2)))
      ⟨1, 2, [10, 12]⟩ hwf s1 800 0 (by decide) (by decide) (by decide)
      (by rw [l1, List.length_replicate]; decide) (by rw [l2, List.length_replicate]; decide)
    have hidx : (pixelIndex 800 0).toNat = 800 := by decide
    rw [hidx] at v
    obtain ⟨v1, v2⟩ := v SENTINEL 0 f2 f1
    have hcov : covers (intTriangle 5 5 5 5 5 5 (F32.fin (1 / 2)) (F32.fin (1 / 2))
        (F32.fin (1 / 2))) 800 0 := by
      rw [covers_intTriangle 5 5 5 5 5 5 _ _ _ 800 0 (by decide) (by decide) (by decide)
        (by decide) (by decide)]
      decide
    rw [hz, if_pos ⟨hcov, hlt⟩] at v1 v2
    rw [show ((800 : Int), (0 : Int)).1 = 800 from rfl,
      show ((800 : Int), (0 : Int)).2 = 0 from rfl, h2, Option.some_bind] at hs'
    obtain ⟨k1, k2⟩ := shadeAll_keeps_slot _ ⟨1, 2, [10, 12]⟩ 800 (F32.fin (1 / 2))
      (by rw [hz]; exact f32_lt_self _) _ s2 s' hs' v1
    rw [k1, k2, v1, v2]
    rfl

/-- Claim C20 (amended). A degenerate triangle is not rejected when its vertex is finite and
the tile lies inside the frame: when the three vertices coincide at finite binary32
coordinates, all three binary32 edge values are `0` and the coverage test passes at every
pixel whose coordinates are below `2^24` in magnitude, and `rasterTile` on a tile inside
the `800 x 600` frame, with a well-formed texture and frame-sized buffers, writes the
binary32 flat depth `(z0+z1+z2)/3` and the texel to every pixel of the tile whose stored
depth is larger and leaves the others as they were; the position of the vertex plays no
role. -/
theorem finite_degenerate_triangle_covers_all (tri : Triangle) (t : Tile) (tex : Texture)
    (s : Buffers) (hx1 : tri.x0 = tri.x1) (hx2 : tri.x1 = tri.x2) (hy1 : tri.y0 = tri.y1)
    (hy2 : tri.y1 = tri.y2) (a b : ℚ) (hxa : tri.x0 = F32.fin a) (hyb : tri.y0 = F32.fin b)
    (ha : |a| ≤ F32.maxFinite) (hb : |b| ≤ F32.maxFinite)
    (hwf : tex.wf) (hs : s.frameSized)
    (hin : 0 ≤ t.startX ∧ t.endX ≤ WIDTH ∧ 0 ≤ t.startY ∧ t.endY ≤ HEIGHT) :
    (∀ x y : Int, -16777216 < x ∧ x < 16777216 → -16777216 < y ∧ y < 16777216 →
      edge tri.x1 tri.y1 tri.x2 tri.y2 (F32.ofInt x) (F32.ofInt y) = F32.fin 0 ∧
      edge tri.x2 tri.y2 tri.x0 tri.y0 (F32.ofInt x) (F32.ofInt y) = F32.fin 0 ∧
      edge tri.x0 tri.y0 tri.x1 tri.y1 (F32.ofInt x) (F32.ofInt y) = F32.fin 0 ∧
      covers tri x y) ∧
    ∃ s', rasterTile t tri tex s = some s' ∧
      ∀ x y, t.contains x y →
        ∃ d c, s.zb[(pixelIndex x y).toNat]? = some d ∧
          s.fb[(pixelIndex x y).toNat]? = some c ∧
          s'.zb[(pixelIndex x y).toNat]? =
            some (if F32.divThree (F32.add (F32.add tri.z0 tri.z1) tri.z2) < d
              then F32.divThree (F32.add (F32.add tri.z0 tri.z1) tri.z2) else d) ∧
          s'.fb[(pixelIndex x y).toNat]? =
            (if F32.divThree (F32.add (F32.add tri.z0 tri.z1) tri.z2) < d
              then tex.data[((y % tex.h) * tex.w + x % tex.w).toNat]? else some c) := by
  have he : ∀ x y : Int, -16777216 < x ∧ x < 16777216 → -16777216 < y ∧ y < 16777216 →
      edge tri.x1 tri.y1 tri.x2 tri.y2 (F32.ofInt x) (F32.ofInt y) = F32.fin 0 ∧
      edge tri.x2 tri.y2 tri.x0 tri.y0 (F32.ofInt x) (F32.ofInt y) = F32.fin 0 ∧
      edge tri.x0 tri.y0 tri.x1 tri.y1 (F32.ofInt x) (F32.ofInt y) = F32.fin 0 ∧
      covers tri x y := by
    intro x y hx hy
    have e := edge_point a b ha hb x y hx hy
    have e1 : tri.x1 = F32.fin a := by rw [← hx1]; exact hxa
    have e2 : tri.x2 = F32.fin a := by rw [← hx2]; exact e1
    have e3 : tri.y1 = F32.fin b := by rw [← hy1]; exact hyb
    have e4 : tri.y2 = F32.fin b := by rw [← hy2]; exact e3
    have hz : F32.fin 0 ≥ F32.fin 0 := (fin_le_fin 0 0).2 (le_refl 0)
    unfold covers
    rw [hxa, hyb, e1, e2, e3, e4, e]
    exact ⟨rfl, rfl, rfl, hz, hz, hz⟩
  refine ⟨he, ?_⟩
  have hfit := inFrame_of_bounds t s hs hin
  obtain ⟨s', h, _, _, _, v⟩ := rasterTile_spec t tri tex s hwf hfit
  refine ⟨s', h, ?_⟩
  intro x y hcont
  obtain ⟨d, c, hd, hcol⟩ := inBuffers_get s x y (inBuffers_of_inFrame t s hfit x y hcont)
  obtain ⟨v1, v2⟩ := v x y hcont d c hd hcol
  have hc : covers tri x y := by
    obtain ⟨c1, c2, c3, c4⟩ := hcont
    obtain ⟨t1, t2, t3, t4⟩ := hin
    unfold WIDTH HEIGHT at *
    exact (he x y ⟨by omega, by omega⟩ ⟨by omega, by omega⟩).2.2.2
  refine ⟨d, c, hd, hcol, ?_, ?_⟩
  · rw [v1]; simp only [hc, true_and, flatDepth]
  · rw [v2]; simp only [hc, true_and, flatDepth, texel]

/-- Claim C20 (amended) for a point triangle far outside the first tile of the frame
partition. -/
theorem finite_degenerate_triangle_covers_all_witness :
    |(700 : ℚ)| ≤ F32.maxFinite ∧ |(500 : ℚ)| ≤ F32.maxFinite ∧
    checkerTexture.wf ∧ (clearBuffers initialBuffers).frameSized ∧
    ((∀ x y : Int, -16777216 < x ∧ x < 16777216 → -16777216 < y ∧ y < 16777216 →
      edge (F32.fin 700) (F32.fin 500) (F32.fin 700) (F32.fin 500) (F32.ofInt x)
        (F32.ofInt y) = F32.fin 0 ∧
      edge (F32.fin 700) (F32.fin 500) (F32.fin 700) (F32.fin 500) (F32.ofInt x)
        (F32.ofInt y) = F32.fin 0 ∧
      edge (F32.fin 700) (F32.fin 500) (F32.fin 700) (F32.fin 500) (F32.ofInt x)
        (F32.ofInt y) = F32.fin 0 ∧
      covers ⟨F32.fin 700, F32.fin 500, F32.fin (1 / 2), F32.fin 700, F32.fin 500,
        F32.fin (1 / 2), F32.fin 700, F32.fin 500, F32.fin (1 / 2)⟩ x y) ∧
    ∃ s', rasterTile ⟨0, 0, 32, 32⟩ ⟨F32.fin 700, F32.fin 500, F32.fin (1 / 2), F32.fin 700,
        F32.fin 500, F32.fin (1 / 2), F32.fin 700, F32.fin 500, F32.fin (1 / 2)⟩
        checkerTexture (clearBuffers initialBuffers) = some s' ∧
      ∀ x y, Tile.contains ⟨0, 0, 32, 32⟩ x y →
        ∃ d c, (clearBuffers initialBuffers).zb[(pixelIndex x y).toNat]? = some d ∧
          (clearBuffers initialBuffers).fb[(pixelIndex x y).toNat]? = some c ∧
          s'.zb[(pixelIndex x y).toNat]? =
            some (if F32.divThree (F32.add (F32.add (F32.fin (1 / 2)) (F32.fin (1 / 2)))
                (F32.fin (1 / 2))) < d
              then F32.divThree (F32.add (F32.add (F32.fin (1 / 2)) (F32.fin (1 / 2)))
                (F32.fin (1 / 2))) else d) ∧
          s'.fb[(pixelIndex x y).toNat]? =
            (if F32.divThree (F32.add (F32.add (F32.fin (1 / 2)) (F32.fin (1 / 2)))
                (F32.fin (1 / 2))) < d
              then checkerTexture.data[((y % checkerTexture.h) * checkerTexture.w +
                x % checkerTexture.w).toNat]? else some c)) :=
  ⟨by norm_num [F32.maxFinite], by norm_num [F32.maxFinite], checkerTexture_wf,
    clearBuffers_frameSized _ initialBuffers_frameSized,
    finite_degenerate_triangle_covers_all
      ⟨F32.fin 700, F32.fin 500, F32.fin (1 / 2), F32.fin 700, F32.fin 500, F32.fin (1 / 2),
        F32.fin 700, F32.fin 500, F32.fin (1 / 2)⟩
      ⟨0, 0, 32, 32⟩ checkerTexture (clearBuffers initialBuffers) rfl rfl rfl rfl 700 500
      rfl rfl (by norm_num [F32.maxFinite]) (by norm_num [F32.maxFinite])
      checkerTexture_wf (clearBuffers_frameSized _ initialBuffers_frameSized)
      ⟨by decide, by decide, by decide, by decide⟩⟩

/-- Claim C12. Core rasterization never fails within buffer bounds: for every tile of the
partition of the `800 x 600` frame with `T = 32`, every triangle, every well-formed
texture and frame-sized buffers, each pixel of the tile has a buffer index
`0 <= y*WIDTH+x < WIDTH*HEIGHT` and a texture index `0 <= (y mod h)*w + (x mod w) < w*h`
(the C++ remainders being these residues), the loop body returns on every such pixel, and
`rasterTile` returns frame-sized buffers: the out-of-bounds branch is never taken. -/
theorem rasterTile_never_fails (tri : Triangle) (tex : Texture) (s : Buffers)
    (hwf : tex.wf) (hs : s.frameSized) :
    ∃ ts, tileGrid 800 600 32 = some ts ∧
      ∀ t ∈ ts,
        (∃ s', rasterTile t tri tex s = some s' ∧ s'.frameSized) ∧
        ∀ x y, t.contains x y →
          0 ≤ pixelIndex x y ∧ pixelIndex x y < WIDTH * HEIGHT ∧
          cmod x tex.w = some (x % tex.w) ∧ cmod y tex.h = some (y % tex.h) ∧
          0 ≤ (y % tex.h) * tex.w + x % tex.w ∧
          (y % tex.h) * tex.w + x % tex.w < tex.w * tex.h ∧
          (readAt s.zb (pixelIndex x y)).isSome ∧
          (readAt tex.data ((y % tex.h) * tex.w + x % tex.w)).isSome ∧
          (∀ c, (writeAt s.fb (pixelIndex x y) c).isSome) ∧
          (∀ d, (writeAt s.zb (pixelIndex x y) d).isSome) ∧
          ∃ s1, shadePixel tri tex s x y = some s1 := by
  obtain ⟨ts, h, _, _, hin⟩ := frameGrid_spec
  refine ⟨ts, h, ?_⟩
  intro t ht
  have hfit := inFrame_of_bounds t s hs (hin t ht)
  obtain ⟨s', hr, l1, l2, _, _⟩ := rasterTile_spec t tri tex s hwf hfit
  refine ⟨⟨s', hr, ?_⟩, ?_⟩
  · unfold Buffers.frameSized
    rw [l1, l2]
    exact hs
  · intro x y hc
    obtain ⟨b1, b2, b3, b4, b5⟩ := inBuffers_of_inFrame t s hfit x y hc
    have hi : 0 ≤ pixelIndex x y := by unfold pixelIndex WIDTH; omega
    obtain ⟨s1, hs1, _⟩ := shadePixel_spec tri tex hwf s x y b1 b3 hi b4 b5
    obtain ⟨hw, hh, hlen⟩ := hwf
    have m1 := Int.emod_nonneg x (ne_of_gt hw)
    have m2 := Int.emod_lt_of_pos x hw
    have m3 := Int.emod_nonneg y (ne_of_gt hh)
    have m4 := Int.emod_lt_of_pos y hh
    have m5 : (y % tex.h) * tex.w + x % tex.w < tex.w * tex.h := by nlinarith
    have m6 : 0 ≤ (y % tex.h) * tex.w + x % tex.w := by positivity
    have hzl : (pixelIndex x y).toNat < s.zb.length := by omega
    have hfl : (pixelIndex x y).toNat < s.fb.length := by omega
    have htl : ((y % tex.h) * tex.w + x % tex.w).toNat < tex.data.length := by omega
    refine ⟨hi, ?_, ?_, ?_, m6, m5, ?_, ?_, ?_, ?_, ⟨s1, hs1⟩⟩
    · have := hs.1; omega
    · simp [cmod, ne_of_gt hw, Int.tmod_eq_emod b1 (le_of_lt hw)]
    · simp [cmod, ne_of_gt hh, Int.tmod_eq_emod b3 (le_of_lt hh)]
    · simp only [readAt, hi, if_true, List.getElem?_eq_getElem hzl, Option.isSome_some]
    · simp only [readAt, m6, if_true, List.getElem?_eq_getElem htl, Option.isSome_some]
    · intro c
      simp only [writeAt, hi, hfl, and_self, if_true, Option.isSome_some]
    · intro d
      simp only [writeAt, hi, hzl, and_self, if_true, Option.isSome_some]

/-- Claim C12 for the fixed triangle and the checker texture on cleared buffers. -/
theorem rasterTile_never_fails_witness :
    checkerTexture.wf ∧ (clearBuffers initialBuffers).frameSized ∧
    ∃ ts, tileGrid 800 600 32 = some ts ∧
      ∀ t ∈ ts,
        (∃ s', rasterTile t fixedTriangle checkerTexture (clearBuffers initialBuffers)
            = some s' ∧ s'.frameSized) ∧
        ∀ x y, t.contains x y →
          0 ≤ pixelIndex x y ∧ pixelIndex x y < WIDTH * HEIGHT ∧
          cmod x checkerTexture.w = some (x % checkerTexture.w) ∧
          cmod y checkerTexture.h = some (y % checkerTexture.h) ∧
          0 ≤ (y % checkerTexture.h) * checkerTexture.w + x % checkerTexture.w ∧
          (y % checkerTexture.h) * checkerTexture.w + x % checkerTexture.w
            < checkerTexture.w * checkerTexture.h ∧
          (readAt (clearBuffers initialBuffers).zb (pixelIndex x y)).isSome ∧
          (readAt checkerTexture.data
            ((y % checkerTexture.h) * checkerTexture.w + x % checkerTexture.w)).isSome ∧
          (∀ c, (writeAt (clearBuffers initialBuffers).fb (pixelIndex x y) c).isSome) ∧
          (∀ d, (writeAt (clearBuffers initialBuffers).zb (pixelIndex x y) d).isSome) ∧
          ∃ s1, shadePixel fixedTriangle checkerTexture (clearBuffers initialBuffers) x y
            = some s1 :=
  ⟨checkerTexture_wf, clearBuffers_frameSized _ initialBuffers_frameSized,
    rasterTile_never_fails fixedTriangle checkerTexture (clearBuffers initialBuffers)
      checkerTexture_wf (clearBuffers_frameSized _ initialBuffers_frameSized)⟩

/-! ## The tile list in closed form -/

/-- A stride index is below `ceil(a/T)` exactly when the stride start is below `a`. -/
theorem lt_tileCount (a T : Int) (ha : 0 ≤ a) (hT : 0 < T) (k : Nat) :
    k < tileCount a T ↔ (k : Int) * T < a := by
  unfold tileCount
  have hq : 0 ≤ (a + T - 1) / T := Int.ediv_nonneg (by omega) (le_of_lt hT)
  have h1 : (k : Int) + 1 ≤ (a + T - 1) / T ↔ ((k : Int) + 1) * T ≤ a + T - 1 :=
    Int.le_ediv_iff_mul_le hT
  have h2 : ((k : Int) + 1) * T = (k : Int) * T + T := by ring
  rw [h2] at h1
  constructor
  · intro h
    have := h1.1 (by omega)
    omega
  · intro h
    have := h1.2 (by omega)
    omega

theorem tileCount_le (a T : Int) (ha : 0 ≤ a) (hT : 0 < T) : tileCount a T ≤ a.toNat := by
  by_contra hlt
  have h := (lt_tileCount a T ha hT a.toNat).1 (by omega)
  have e : (a.toNat : Int) = a := Int.toNat_of_nonneg ha
  rw [e] at h
  nlinarith

/-- The inner tile loop from stride `k` on lists the remaining strides of the row. -/
theorem tileRow_eq (W H T ty : Int) (hW : 0 ≤ W) (hT : 0 < T) :
    ∀ (m k fuel : Nat), k + m = tileCount W T → m < fuel →
      tileRow fuel W H T ty (k * T) = some ((List.range' k m).map (fun (i : Nat) =>
        (⟨i * T, ty, min (i * T + T) W, min (ty + T) H⟩ : Tile))) := by
  intro m
  induction m with
  | zero =>
    intro k fuel hk hf
    obtain ⟨f, rfl⟩ : ∃ f, fuel = f + 1 := ⟨fuel - 1, by omega⟩
    have hge : ¬ (k : Int) * T < W := fun h =>
      absurd ((lt_tileCount W T hW hT k).2 h) (by omega)
    simp [tileRow, hge]
  | succ m ih =>
    intro k fuel hk hf
    obtain ⟨f, rfl⟩ : ∃ f, fuel = f + 1 := ⟨fuel - 1, by omega⟩
    have hlt : (k : Int) * T < W := (lt_tileCount W T hW hT k).1 (by omega)
    have hnext : (k : Int) * T + T = ((k + 1 : Nat) : Int) * T := by push_cast; ring
    have := ih (k + 1) f (by omega) (by omega)
    rw [← hnext] at this
    simp only [tileRow, hlt, if_true, this, Option.map_some', List.range'_succ, List.map_cons]

/-- The outer tile loop from stride `k` on lists the remaining rows. -/
theorem tileRows_eq (W H T : Int) (hW : 0 ≤ W) (hH : 0 ≤ H) (hT : 0 < T) :
    ∀ (m k fuel : Nat), k + m = tileCount H T → m < fuel →
      tileRows fuel W H T (k * T) = some ((List.range' k m).flatMap (fun (j : Nat) =>
        (List.range (tileCount W T)).map (fun (i : Nat) =>
          (⟨i * T, j * T, min (i * T + T) W, min (j * T + T) H⟩ : Tile)))) := by
  intro m
  induction m with
  | zero =>
    intro k fuel hk hf
    obtain ⟨f, rfl⟩ : ∃ f, fuel = f + 1 := ⟨fuel - 1, by omega⟩
    have hge : ¬ (k : Int) * T < H := fun h =>
      absurd ((lt_tileCount H T hH hT k).2 h) (by omega)
    simp [tileRows, hge]
  | succ m ih =>
    intro k fuel hk hf
    obtain ⟨f, rfl⟩ : ∃ f, fuel = f + 1 := ⟨fuel - 1, by omega⟩
    have hlt : (k : Int) * T < H := (lt_tileCount H T hH hT k).1 (by omega)
    have hnext : (k : Int) * T + T = ((k + 1 : Nat) : Int) * T := by push_cast; ring
    have hrest := ih (k + 1) f (by omega) (by omega)
    rw [← hnext] at hrest
    have hrow := tileRow_eq W H T ((k : Int) * T) hW hT (tileCount W T) 0 (W.toNat + 1)
      (by omega) (by have := tileCount_le W T hW hT; omega)
    have h0 : ((0 : Nat) : Int) * T = 0 := by simp
    rw [h0, ← List.range_eq_range'] at hrow
    simp only [tileRows, hlt, if_true, hrow, hrest, Option.map_some', List.range'_succ,
      List.flatMap_cons]

/-- The loops of `drawTriangleMT` produce the tile list of the specification. -/
theorem tileGrid_eq_specTiles (W H T : Int) (hW : 0 ≤ W) (hH : 0 ≤ H) (hT : 0 < T) :
    tileGrid W H T = some (specTiles W H T) := by
  have h := tileRows_eq W H T hW hH hT (tileCount H T) 0 (H.toNat + 1) (by omega)
    (by have := tileCount_le H T hH hT; omega)
  have h0 : ((0 : Nat) : Int) * T = 0 := by simp
  rw [h0, ← List.range_eq_range'] at h
  exact h

theorem length_specTiles (W H T : Int) :
    (specTiles W H T).length = tileCount W T * tileCount H T := by
  unfold specTiles
  generalize tileCount H T = n
  induction n with
  | zero => simp
  | succ n ih =>
    rw [List.range_succ, List.flatMap_append, List.length_append, ih]
    simp [Nat.mul_succ]

theorem mem_specTiles (W H T : Int) (t : Tile) :
    t ∈ specTiles W H T ↔ ∃ i j : Nat, i < tileCount W T ∧ j < tileCount H T ∧
      t = ⟨i * T, j * T, min (i * T + T) W, min (j * T + T) H⟩ := by
  unfold specTiles
  rw [List.mem_flatMap]
  constructor
  · rintro ⟨j, hj, ht⟩
    rw [List.mem_map] at ht
    obtain ⟨i, hi, rfl⟩ := ht
    exact ⟨i, j, List.mem_range.1 hi, List.mem_range.1 hj, rfl⟩
  · rintro ⟨i, j, hi, hj, rfl⟩
    exact ⟨j, List.mem_range.2 hj, List.mem_map.2 ⟨i, List.mem_range.2 hi, rfl⟩⟩

/-- The stride count is the rounded-up quotient. -/
theorem tileCount_eq_ceil (a T : Int) (ha : 0 ≤ a) (hT : 0 < T) :
    (tileCount a T : Int) = ⌈(a : ℚ) / (T : ℚ)⌉ := by
  unfold tileCount
  have hq : 0 ≤ (a + T - 1) / T := Int.ediv_nonneg (by omega) (le_of_lt hT)
  rw [Int.toNat_of_nonneg hq]
  symm
  rw [Int.ceil_eq_iff]
  have hTq : (0 : ℚ) < (T : ℚ) := by exact_mod_cast hT
  have h1 : (a + T - 1) / T * T ≤ a + T - 1 := Int.ediv_mul_le _ (ne_of_gt hT)
  have h2 : a + T - 1 < ((a + T - 1) / T + 1) * T := Int.lt_ediv_add_one_mul_self _ hT
  have h1' : (a + T - 1) / T * T - T < a := by omega
  have h2' : a ≤ (a + T - 1) / T * T := by
    have : ((a + T - 1) / T + 1) * T = (a + T - 1) / T * T + T := by ring
    omega
  constructor
  · rw [lt_div_iff₀ hTq]
    have : ((((a + T - 1) / T * T - T : Int)) : ℚ) < (a : ℚ) := by exact_mod_cast h1'
    push_cast at this
    linarith
  · rw [div_le_iff₀ hTq]
    exact_mod_cast h2'

/-- Claim C14. For every `W >= 0`, `H >= 0` and `T > 0` the tiles generated by
`drawTriangleMT` are exactly the list of `(x, y, min(x+T,W), min(y+T,H))` for
`y = 0,T,2T,... < H` (outer) and `x = 0,T,2T,... < W` (inner), in that order; the list has
`ceil(W/T)*ceil(H/T)` entries and is empty when `W = 0` or `H = 0`; for `800 x 600` with
`T = 32` it has `25*19 = 475` entries and `drawTriangleMT` runs `rasterTile` once per
entry. -/
theorem tile_sequence_exact (W H T : Int) (hW : 0 ≤ W) (hH : 0 ≤ H) (hT : 0 < T) :
    tileGrid W H T = some (specTiles W H T) ∧
    (specTiles W H T).length = tileCount W T * tileCount H T ∧
    (tileCount W T : Int) = ⌈(W : ℚ) / (T : ℚ)⌉ ∧
    (tileCount H T : Int) = ⌈(H : ℚ) / (T : ℚ)⌉ ∧
    (W = 0 ∨ H = 0 → tileGrid W H T = some []) ∧
    tileCount 800 32 = 25 ∧ tileCount 600 32 = 19 ∧
    (specTiles 800 600 32).length = 475 ∧
    ∀ (tri : Triangle) (tex : Texture) (s : Buffers),
      drawTriangleWith tri tex s = runTiles (specTiles 800 600 32) tri tex s := by
  have hgrid := tileGrid_eq_specTiles W H T hW hH hT
  have h25 : tileCount 800 32 = 25 := by decide
  have h19 : tileCount 600 32 = 19 := by decide
  refine ⟨hgrid, length_specTiles W H T, tileCount_eq_ceil W T hW hT,
    tileCount_eq_ceil H T hH hT, ?_, h25, h19, ?_, ?_⟩
  · intro h0
    rw [hgrid]
    congr 1
    apply List.length_eq_zero.1
    rw [length_specTiles]
    rcases h0 with h | h
    · have : tileCount W T = 0 := by
        by_contra hne
        have := (lt_tileCount W T hW hT 0).1 (by omega)
        simp at this
        omega
      rw [this, Nat.zero_mul]
    · have : tileCount H T = 0 := by
        by_contra hne
        have := (lt_tileCount H T hH hT 0).1 (by omega)
        simp at this
        omega
      rw [this, Nat.mul_zero]
  · rw [length_specTiles, h25, h19]
  · intro tri tex s
    unfold drawTriangleWith
    have : tileGrid WIDTH HEIGHT TILE_SIZE = some (specTiles 800 600 32) :=
      tileGrid_eq_specTiles 800 600 32 (by decide) (by decide) (by decide)
    rw [this]

/-- Claim C14 at the configured frame. -/
theorem tile_sequence_exact_witness :
    tileGrid 800 600 32 = some (specTiles 800 600 32) ∧
    (specTiles 800 600 32).length = tileCount 800 32 * tileCount 600 32 ∧
    (tileCount 800 32 : Int) = ⌈((800 : Int) : ℚ) / ((32 : Int) : ℚ)⌉ ∧
    (tileCount 600 32 : Int) = ⌈((600 : Int) : ℚ) / ((32 : Int) : ℚ)⌉ ∧
    ((800 : Int) = 0 ∨ (600 : Int) = 0 → tileGrid 800 600 32 = some []) ∧
    tileCount 800 32 = 25 ∧ tileCount 600 32 = 19 ∧
    (specTiles 800 600 32).length = 475 ∧
    ∀ (tri : Triangle) (tex : Texture) (s : Buffers),
      drawTriangleWith tri tex s = runTiles (specTiles 800 600 32) tri tex s :=
  tile_sequence_exact 800 600 32 (by decide) (by decide) (by decide)

/-- Claim C15. Edge tiles are clipped, not overflowed: for every `W, H >= 0` and `T > 0`
every generated tile satisfies `0 <= startX < endX <= W`, `0 <= startY < endY <= H`,
`endX - startX <= T` and `endY - startY <= T`. For `800 x 600` with `T = 32` the last
column starts at `768` and its tiles end at `800`, the last row starts at `576` and its
tiles end at `600`, and the tile `(768,576,800,600)` is generated. -/
theorem tiles_clipped (W H T : Int) (hW : 0 ≤ W) (_hH : 0 ≤ H) (hT : 0 < T) :
    (∃ ts, tileGrid W H T = some ts ∧
      ∀ t ∈ ts, 0 ≤ t.startX ∧ t.startX < t.endX ∧ t.endX ≤ W ∧
        0 ≤ t.startY ∧ t.startY < t.endY ∧ t.endY ≤ H ∧
        t.endX - t.startX ≤ T ∧ t.endY - t.startY ≤ T) ∧
    (∃ ts, tileGrid 800 600 32 = some ts ∧
      (⟨768, 576, 800, 600⟩ : Tile) ∈ ts ∧
      ∀ t ∈ ts, t.startX ≤ 768 ∧ t.startY ≤ 576 ∧ t.endX ≤ 800 ∧ t.endY ≤ 600 ∧
        (t.startX = 768 → t.endX = 800) ∧ (t.startY = 576 → t.endY = 600)) := by
  constructor
  · obtain ⟨ts, h, hA, _, _⟩ := tileGrid_spec W H T hW hT
    refine ⟨ts, h, ?_⟩
    intro t ht
    obtain ⟨a1, a2, a3, a4, a5, a6⟩ := hA t ht
    rw [a6, a3]
    have e1 := min_le_left (t.startX + T) W
    have e2 := min_le_right (t.startX + T) W
    have e3 := min_le_left (t.startY + T) H
    have e4 := min_le_right (t.startY + T) H
    have e5 : t.startX < min (t.startX + T) W := lt_min (by omega) a5
    have e6 : t.startY < min (t.startY + T) H := lt_min (by omega) a2
    refine ⟨a4, e5, e2, a1, e6, e4, by omega, by omega⟩
  · refine ⟨specTiles 800 600 32,
      tileGrid_eq_specTiles 800 600 32 (by decide) (by decide) (by decide), ?_, ?_⟩
    · rw [mem_specTiles]
      exact ⟨24, 18, by decide, by decide, by decide⟩
    · intro t ht
      rw [mem_specTiles] at ht
      obtain ⟨i, j, hi, hj, rfl⟩ := ht
      have h25 : tileCount 800 32 = 25 := by decide
      have h19 : tileCount 600 32 = 19 := by decide
      rw [h25] at hi
      rw [h19] at hj
      have e2 := min_le_right ((i : Int) * 32 + 32) 800
      have e4 := min_le_right ((j : Int) * 32 + 32) 600
      refine ⟨by show (i : Int) * 32 ≤ 768; omega, by show (j : Int) * 32 ≤ 576; omega,
        e2, e4, ?_, ?_⟩
      · intro h
        have h' : (i : Int) * 32 = 768 := h
        show min ((i : Int) * 32 + 32) 800 = 800
        rw [h']; decide
      · intro h
        have h' : (j : Int) * 32 = 576 := h
        show min ((j : Int) * 32 + 32) 600 = 600
        rw [h']; decide

/-- Claim C15 at the configured frame. -/
theorem tiles_clipped_witness :
    (∃ ts, tileGrid 800 600 32 = some ts ∧
      ∀ t ∈ ts, 0 ≤ t.startX ∧ t.startX < t.endX ∧ t.endX ≤ 800 ∧
        0 ≤ t.startY ∧ t.startY < t.endY ∧ t.endY ≤ 600 ∧
        t.endX - t.startX ≤ 32 ∧ t.endY - t.startY ≤ 32) ∧
    (∃ ts, tileGrid 800 600 32 = some ts ∧
      (⟨768, 576, 800, 600⟩ : Tile) ∈ ts ∧
      ∀ t ∈ ts, t.startX ≤ 768 ∧ t.startY ≤ 576 ∧ t.endX ≤ 800 ∧ t.endY ≤ 600 ∧
        (t.startX = 768 → t.endX = 800) ∧ (t.startY = 576 → t.endY = 600)) :=
  tiles_clipped 800 600 32 (by decide) (by decide) (by decide)

/-! ## Colour follows depth -/

/-- One `rasterTile` call on a tile inside the frame keeps the buffers frame-sized and
consistent. -/
theorem rasterTile_consistent (t : Tile) (tri : Triangle) (tex : Texture) (s : Buffers)
    (hwf : tex.wf) (hs : s.frameSized) (hcon : Consistent tex s)
    (hin : 0 ≤ t.startX ∧ t.endX ≤ WIDTH ∧ 0 ≤ t.startY ∧ t.endY ≤ HEIGHT) :
    ∃ s', rasterTile t tri tex s = some s' ∧ s'.frameSized ∧ Consistent tex s' := by
  have hfit := inFrame_of_bounds t s hs hin
  obtain ⟨s', h, l1, l2, f, v⟩ := rasterTile_spec t tri tex s hwf hfit
  refine ⟨s', h, ?_, ?_⟩
  · unfold Buffers.frameSized
    rw [l1, l2]
    exact hs
  · intro x y hx hxW hy hyH
    have hi : 0 ≤ pixelIndex x y := by unfold pixelIndex WIDTH; omega
    by_cases hc : t.contains x y
    · obtain ⟨d, c, hd, hcol⟩ := frameSized_get s hs x y hx hxW hy hyH
      obtain ⟨v1, v2⟩ := v x y hc d c hd hcol
      by_cases hp : covers tri x y ∧ flatDepth tri < d
      · rw [if_pos hp] at v1 v2
        refine Or.inr ⟨flatDepth tri, v1, ?_, v2⟩
        rcases hcon x y hx hxW hy hyH with ⟨h1, _⟩ | ⟨d', h1, h2, _⟩
        · rw [hd] at h1
          cases h1
          exact hp.2
        · rw [hd] at h1
          cases h1
          exact f32_lt_chain hp.2 h2
      · rw [if_neg hp] at v1 v2
        rcases hcon x y hx hxW hy hyH with ⟨h1, h2⟩ | ⟨d', h1, h2, h3⟩
        · exact Or.inl ⟨by rw [v1, ← hd, h1], by rw [v2, ← hcol, h2]⟩
        · exact Or.inr ⟨d', by rw [v1, ← hd, h1], h2, by rw [v2, ← hcol, h3]⟩
    · have hnt : ¬ t.touches ((pixelIndex x y).toNat : Nat) := by
        rintro ⟨x', y', hc', he⟩
        have he' : pixelIndex x' y' = pixelIndex x y := by omega
        obtain ⟨e1, e2⟩ := pixelIndex_inj x' y' x y (by have := hc'.1; omega)
          (by have := hc'.2.1; omega) hx hxW he'
        subst e1 e2
        exact hc hc'
      obtain ⟨f1, f2⟩ := f _ hnt
      rcases hcon x y hx hxW hy hyH with ⟨h1, h2⟩ | ⟨d', h1, h2, h3⟩
      · exact Or.inl ⟨f2.trans h1, f1.trans h2⟩
      · exact Or.inr ⟨d', f2.trans h1, h2, f1.trans h3⟩

/-- Freshly cleared frame-sized buffers are consistent. -/
theorem clearBuffers_consistent (tex : Texture) (s : Buffers) (hs : s.frameSized) :
    Consistent tex (clearBuffers s) := by
  intro x y hx hxW hy hyH
  left
  obtain ⟨c1, c2⟩ := clearBuffers_get s (pixelIndex x y).toNat
  obtain ⟨s1, s2⟩ := hs
  have hlt : (pixelIndex x y).toNat < s.zb.length ∧ (pixelIndex x y).toNat < s.fb.length := by
    unfold pixelIndex
    unfold WIDTH HEIGHT at *
    constructor <;> omega
  rw [c1, c2, if_pos hlt.1, if_pos hlt.2]
  exact ⟨rfl, rfl⟩

theorem runCalls_consistent (tex : Texture) (hwf : tex.wf) :
    ∀ (calls : List (Tile × Triangle)) (s : Buffers), s.frameSized → Consistent tex s →
      (∀ c ∈ calls, 0 ≤ c.1.startX ∧ c.1.endX ≤ WIDTH ∧ 0 ≤ c.1.startY ∧ c.1.endY ≤ HEIGHT) →
      ∃ s', runCalls calls tex s = some s' ∧ s'.frameSized ∧ Consistent tex s' := by
  intro calls
  induction calls with
  | nil => intro s hs hcon _; exact ⟨s, rfl, hs, hcon⟩
  | cons c calls ih =>
    intro s hs hcon hin
    obtain ⟨s1, h1, hs1, hcon1⟩ := rasterTile_consistent c.1 c.2 tex s hwf hs hcon
      (hin c (List.mem_cons_self _ _))
    obtain ⟨s', h2, hs', hcon'⟩ := ih s1 hs1 hcon1
      (fun c' hc' => hin c' (List.mem_cons_of_mem _ hc'))
    refine ⟨s', ?_, hs', hcon'⟩
    unfold runCalls at h2 ⊢
    rw [List.foldlM_cons, h1]
    exact h2

/-- Claim C16. Colour and depth stay consistent: in every state reached from
`clearBuffers` by any sequence of `rasterTile` calls (any tiles within the frame, any
triangles, one fixed well-formed texture) every frame pixel has either depth `1e9` and
colour `0`, or a depth below `1e9` and the colour
`tex.data[(y mod tex.h)*tex.w + (x mod tex.w)]`; and every such sequence does return. -/
theorem colour_depth_consistent (calls : List (Tile × Triangle)) (tex : Texture) (s : Buffers)
    (hwf : tex.wf) (hs : s.frameSized)
    (hin : ∀ c ∈ calls,
      0 ≤ c.1.startX ∧ c.1.endX ≤ WIDTH ∧ 0 ≤ c.1.startY ∧ c.1.endY ≤ HEIGHT) :
    ∃ s', runCalls calls tex (clearBuffers s) = some s' ∧
      ∀ x y : Int, 0 ≤ x → x < WIDTH → 0 ≤ y → y < HEIGHT →
        (s'.zb[(y * WIDTH + x).toNat]? = some (F32.fin 1000000000) ∧
          s'.fb[(y * WIDTH + x).toNat]? = some 0x00000000) ∨
        (∃ d, s'.zb[(y * WIDTH + x).toNat]? = some d ∧ d < F32.fin 1000000000 ∧
          s'.fb[(y * WIDTH + x).toNat]? =
            tex.data[((y % tex.h) * tex.w + x % tex.w).toNat]?) := by
  obtain ⟨s', h, _, hcon⟩ := runCalls_consistent tex hwf calls (clearBuffers s)
    (clearBuffers_frameSized s hs) (clearBuffers_consistent tex s hs) hin
  exact ⟨s', h, fun x y hx hxW hy hyH => hcon x y hx hxW hy hyH⟩

/-- Claim C16 for two overlapping tiles drawn with two different triangles. -/
theorem colour_depth_consistent_witness :
    checkerTexture.wf ∧ initialBuffers.frameSized ∧
    ∃ s', runCalls [(⟨384, 288, 416, 320⟩, fixedTriangle),
        (⟨0, 0, 800, 600⟩, intTriangle 0 0 0 0 0 0 (F32.fin (1 / 4)) (F32.fin (1 / 4))
          (F32.fin (1 / 4)))] checkerTexture
        (clearBuffers initialBuffers) = some s' ∧
      ∀ x y : Int, 0 ≤ x → x < WIDTH → 0 ≤ y → y < HEIGHT →
        (s'.zb[(y * WIDTH + x).toNat]? = some (F32.fin 1000000000) ∧
          s'.fb[(y * WIDTH + x).toNat]? = some 0x00000000) ∨
        (∃ d, s'.zb[(y * WIDTH + x).toNat]? = some d ∧ d < F32.fin 1000000000 ∧
          s'.fb[(y * WIDTH + x).toNat]? =
            checkerTexture.data[((y % checkerTexture.h) * checkerTexture.w +
              x % checkerTexture.w).toNat]?) :=
  ⟨checkerTexture_wf, initialBuffers_frameSized,
    colour_depth_consistent _ checkerTexture initialBuffers checkerTexture_wf
      initialBuffers_frameSized (by
        intro c hc
        simp only [List.mem_cons, List.mem_singleton, List.not_mem_nil, or_false] at hc
        rcases hc with rfl | rfl <;> decide)⟩

/-! ## Idempotence -/

/-- After the loop body has run on a covered pixel, the depth stored for it is not above the
flat depth. -/
theorem shadePixel_settles (tri : Triangle) (tex : Texture) (s s' : Buffers) (x y : Int)
    (h : shadePixel tri tex s x y = some s') (hc : covers tri x y) :
    ∃ d, readAt s'.zb (pixelIndex x y) = some d ∧ ¬ flatDepth tri < d := by
  unfold shadePixel at h
  simp only [hc, if_true] at h
  cases hr : readAt s.zb (pixelIndex x y) with
  | none => simp [hr] at h
  | some d =>
    by_cases hz : flatDepth tri < d
    · simp only [hr, Option.bind_eq_bind, Option.some_bind, hz, if_true, writeAt] at h
      by_cases hb1 : 0 ≤ pixelIndex x y ∧ (pixelIndex x y).toNat < s.zb.length
      · cases hmx : cmod x tex.w with
        | none => simp [hmx, hb1] at h
        | some tx =>
          cases hmy : cmod y tex.h with
          | none => simp [hmy, hmx, hb1] at h
          | some ty =>
            cases hrd : readAt tex.data (ty * tex.w + tx) with
            | none => simp [hmy, hmx, hb1, hrd] at h
            | some c =>
              by_cases hlt : pixelIndex x y < (s.fb.length : Int)
              · simp [hmy, hmx, hb1, hrd, hlt] at h
                subst h
                refine ⟨flatDepth tri, ?_, f32_lt_self _⟩
                simp only [readAt, hb1.1, if_true]
                rw [List.getElem?_set, if_pos rfl, if_pos hb1.2]
              · simp [hmy, hmx, hb1, hrd, hlt] at h
      · simp [hb1] at h
    · simp [hr, hz] at h
      subst h
      exact ⟨d, hr, hz⟩

/-- The loop body never raises a stored depth that is not above the flat depth above it. -/
theorem shadePixel_keeps_settled (tri : Triangle) (tex : Texture) (s s' : Buffers)
    (x y : Int) (h : shadePixel tri tex s x y = some s') (i : Int) (d : F32)
    (hd : readAt s.zb i = some d) (hle : ¬ flatDepth tri < d) :
    ∃ d', readAt s'.zb i = some d' ∧ ¬ flatDepth tri < d' := by
  by_cases hc : covers tri x y
  · by_cases hi : i = pixelIndex x y
    · subst hi
      exact shadePixel_settles tri tex s s' x y h hc
    · have hi0 : 0 ≤ i := by
        by_contra hneg
        simp [readAt, hneg] at hd
      obtain ⟨_, _, f⟩ := shadePixel_frame tri tex s s' x y h
      have := (f i.toNat (by omega)).2
      refine ⟨d, ?_, hle⟩
      simp only [readAt, hi0, if_true] at hd ⊢
      rw [this]
      exact hd
  · unfold shadePixel at h
    simp [hc] at h
    subst h
    exact ⟨d, hd, hle⟩

/-- After a run over a list of pixels every covered pixel of the list stores a depth that
is not above the flat depth. -/
theorem shadeAll_settles (tri : Triangle) (tex : Texture) :
    ∀ (ps : List (Int × Int)) (s s' : Buffers), shadeAll tri tex ps s = some s' →
      (∀ (i : Int) (d : F32), readAt s.zb i = some d → ¬ flatDepth tri < d →
        ∃ d', readAt s'.zb i = some d' ∧ ¬ flatDepth tri < d') ∧
      ∀ p ∈ ps, covers tri p.1 p.2 →
        ∃ d, readAt s'.zb (pixelIndex p.1 p.2) = some d ∧ ¬ flatDepth tri < d := by
  intro ps
  induction ps with
  | nil =>
    intro s s' h
    rw [shadeAll_nil] at h
    cases h
    exact ⟨fun i d hd hle => ⟨d, hd, hle⟩, fun p hp => by cases hp⟩
  | cons p ps ih =>
    intro s s' h
    rw [shadeAll_cons] at h
    cases h1 : shadePixel tri tex s p.1 p.2 with
    | none => simp [h1] at h
    | some s1 =>
      rw [h1, Option.some_bind] at h
      obtain ⟨k1, k2⟩ := ih s1 s' h
      refine ⟨?_, ?_⟩
      · intro i d hd hle
        obtain ⟨d1, hd1, hle1⟩ := shadePixel_keeps_settled tri tex s s1 p.1 p.2 h1 i d hd hle
        exact k1 i d1 hd1 hle1
      · intro q hq hc
        rcases List.mem_cons.1 hq with rfl | hq
        · obtain ⟨d1, hd1, hle1⟩ := shadePixel_settles tri tex s s1 q.1 q.2 h1 hc
          exact k1 _ d1 hd1 hle1
        · exact k2 q hq hc

/-- A run over pixels whose covered members all store a depth not above the flat depth
changes nothing. -/
theorem shadeAll_of_settled (tri : Triangle) (tex : Texture) (s : Buffers) :
    ∀ (ps : List (Int × Int)),
      (∀ p ∈ ps, covers tri p.1 p.2 →
        ∃ d, readAt s.zb (pixelIndex p.1 p.2) = some d ∧ ¬ flatDepth tri < d) →
      shadeAll tri tex ps s = some s := by
  intro ps
  induction ps with
  | nil => intro _; rfl
  | cons p ps ih =>
    intro h
    have h1 : shadePixel tri tex s p.1 p.2 = some s := by
      unfold shadePixel
      by_cases hc : covers tri p.1 p.2
      · obtain ⟨d, hd, hle⟩ := h p (List.mem_cons_self _ _) hc
        simp [hc, hd, hle]
      · simp [hc]
    rw [shadeAll_cons, h1, Option.some_bind]
    exact ih (fun q hq => h q (List.mem_cons_of_mem _ hq))

/-- Claim C19. The call `rasterTile` is idempotent without an intervening clear: for every
tile, triangle, texture and buffers, `rasterTile` applied to its own result gives that
result again; whatever buffers the first call returns, the second call returns them
unchanged, because every covered pixel of the tile then stores a depth that the strict
test `z < depth` rejects (equal depth included); and the first call does return on a tile
inside the frame. -/
theorem rasterTile_idempotent (t : Tile) (tri : Triangle) (tex : Texture) (s : Buffers) :
    (rasterTile t tri tex s).bind (rasterTile t tri tex) = rasterTile t tri tex s ∧
    (∀ s', rasterTile t tri tex s = some s' →
      rasterTile t tri tex s' = some s' ∧
      ∀ x y, t.contains x y → covers tri x y →
        ∃ d, readAt s'.zb (pixelIndex x y) = some d ∧ ¬ flatDepth tri < d) ∧
    (tex.wf → t.inFrame s → ∃ s', rasterTile t tri tex s = some s') := by
  have key : ∀ s', rasterTile t tri tex s = some s' →
      rasterTile t tri tex s' = some s' ∧
      ∀ x y, t.contains x y → covers tri x y →
        ∃ d, readAt s'.zb (pixelIndex x y) = some d ∧ ¬ flatDepth tri < d := by
    intro s' h
    rw [rasterTile_eq_shadeAll] at h
    obtain ⟨_, k⟩ := shadeAll_settles tri tex (pixelsOf t) s s' h
    refine ⟨?_, ?_⟩
    · rw [rasterTile_eq_shadeAll]
      exact shadeAll_of_settled tri tex s' (pixelsOf t) k
    · intro x y hc hcov
      obtain ⟨d, hd, hle⟩ := k (x, y) ((mem_pixelsOf t (x, y)).2 hc) hcov
      exact ⟨d, hd, hle⟩
  refine ⟨?_, key, ?_⟩
  · cases h : rasterTile t tri tex s with
    | none => rfl
    | some s' => rw [Option.some_bind]; exact (key s' h).1
  · intro hwf hfit
    obtain ⟨s', h, _⟩ := rasterTile_spec t tri tex s hwf hfit
    exact ⟨s', h⟩

set_option maxRecDepth 100000 in
/-- Claim C19 on a two-pixel tile: a point triangle of depth `1/2` drawn twice. -/
theorem rasterTile_idempotent_witness :
    rasterTile ⟨0, 0, 2, 1⟩
      (intTriangle 5 5 5 5 5 5 (F32.fin (1 / 2)) (F32.fin (1 / 2)) (F32.fin (1 / 2)))
      ⟨1, 1, [7]⟩ ⟨[0, 0], [SENTINEL, SENTINEL]⟩ =
        some ⟨[7, 7], [F32.fin (1 / 2), F32.fin (1 / 2)]⟩ ∧
    rasterTile ⟨0, 0, 2, 1⟩
      (intTriangle 5 5 5 5 5 5 (F32.fin (1 / 2)) (F32.fin (1 / 2)) (F32.fin (1 / 2)))
      ⟨1, 1, [7]⟩ ⟨[7, 7], [F32.fin (1 / 2), F32.fin (1 / 2)]⟩ =
        some ⟨[7, 7], [F32.fin (1 / 2), F32.fin (1 / 2)]⟩ :=
  ⟨by decide!,
    ((rasterTile_idempotent ⟨0, 0, 2, 1⟩
      (intTriangle 5 5 5 5 5 5 (F32.fin (1 / 2)) (F32.fin (1 / 2)) (F32.fin (1 / 2)))
      ⟨1, 1, [7]⟩ ⟨[0, 0], [SENTINEL, SENTINEL]⟩).2.1
      ⟨[7, 7], [F32.fin (1 / 2), F32.fin (1 / 2)]⟩ (by decide!)).1⟩

/-! ## The rendering loops -/

theorem loopRoles_succ (body : Roles → Iteration) (n : Nat) :
    loopRoles body (n + 1) = (body (loopRoles body n)).roles := by
  unfold loopRoles
  exact Function.iterate_succ_apply' _ n Roles.initial

/-- The native loops rotate the roles by `endFrame` once per iteration. -/
theorem loopRoles_runNativeMode (n : Nat) : loopRoles runNativeMode n = rolesAfter n := by
  induction n with
  | zero => rfl
  | succ n ih => rw [loopRoles_succ, rolesAfter_succ, ih]; rfl

theorem loopRoles_runNativeMandatoryCPU_GPU (n : Nat) :
    loopRoles runNativeMandatoryCPU_GPU n = rolesAfter n := by
  induction n with
  | zero => rfl
  | succ n ih => rw [loopRoles_succ, rolesAfter_succ, ih]; rfl

/-- The server loop alternates between two role assignments and never moves
`displayFrame`. -/
theorem loopRoles_runServerMode (n : Nat) :
    loopRoles runServerMode n =
        ⟨Framebuffer.framebuffer1, Framebuffer.framebuffer2, Framebuffer.framebuffer3⟩ ∨
    loopRoles runServerMode n =
        ⟨Framebuffer.framebuffer2, Framebuffer.framebuffer1, Framebuffer.framebuffer3⟩ := by
  induction n with
  | zero => exact Or.inl rfl
  | succ n ih =>
    rw [loopRoles_succ]
    rcases ih with h | h <;> rw [h]
    · exact Or.inr rfl
    · exact Or.inl rfl

/-- Claim C13, as stated, fails in the first iteration of `runServerMode`: the network
send takes `framebuffer2` as its input while `nextFrame` (the Write role) points to
`framebuffer2` and `displayFrame` points to `framebuffer3`. -/
theorem server_send_reads_write_buffer :
    (runServerMode Roles.initial).reads =
      [⟨Consumer.send, Framebuffer.framebuffer2, Roles.initial, false⟩] ∧
    Roles.initial.nextFrame = Framebuffer.framebuffer2 ∧
    Roles.initial.displayFrame = Framebuffer.framebuffer3 ∧
    ¬ ∀ rd ∈ (runServerMode Roles.initial).reads, rd.respectsRoles := by
  decide

/-- Claim C13 (amended). In every iteration of `runNativeMode` every consumer stage
(`upscale2x`, `writeCache`), and in every iteration of `runNativeMandatoryCPU_GPU` the
`writeCache` stage, reads after the draw the buffer `displayFrame` points to, which is not
the buffer holding the Write role at that time; in every iteration of `runServerMode` the
network send reads, after the draw, the buffer `nextFrame` points to, the rasterization
target of that iteration. -/
theorem consumer_reads (n : Nat) :
    (∀ rd ∈ (runNativeMode (loopRoles runNativeMode n)).reads,
      rd.respectsRoles ∧ rd.duringDraw = false) ∧
    (∀ rd ∈ (runNativeMandatoryCPU_GPU (loopRoles runNativeMandatoryCPU_GPU n)).reads,
      rd.consumer = Consumer.writeCache → rd.respectsRoles ∧ rd.duringDraw = false) ∧
    (∀ rd ∈ (runServerMode (loopRoles runServerMode n)).reads,
      rd.consumer = Consumer.send ∧ rd.buffer = rd.roles.nextFrame ∧
      rd.buffer = (runServerMode (loopRoles runServerMode n)).target ∧
      rd.buffer ≠ rd.roles.displayFrame ∧ rd.duringDraw = false) := by
  refine ⟨?_, ?_, ?_⟩
  · rw [loopRoles_runNativeMode]
    rcases rolesAfter_cases n with h | h | h <;> rw [h] <;> decide
  · rw [loopRoles_runNativeMandatoryCPU_GPU]
    rcases rolesAfter_cases n with h | h | h <;> rw [h] <;> decide
  · rcases loopRoles_runServerMode n with h | h <;> rw [h] <;> decide

/-- Claim C17, as stated, fails in the first iteration of `runServerMode`: the iteration
renders into `framebuffer2`, performs only the first role exchange, and ends with
`displayFrame` still pointing to `framebuffer3`. -/
theorem server_skips_display_swap :
    (runServerMode Roles.initial).target = Framebuffer.framebuffer2 ∧
    (runServerMode Roles.initial).roles.displayFrame = Framebuffer.framebuffer3 ∧
    (runServerMode Roles.initial).roles ≠ endFrame Roles.initial ∧
    (runServerMode Roles.initial).roles.displayFrame ≠ (runServerMode Roles.initial).target := by
  decide

/-- Claim C17 (amended). The loops `runNativeMode` and `runNativeMandatoryCPU_GPU` perform
one full `endFrame` transition per rendered frame, so that after each iteration Display
refers to the frame rendered in that iteration; `runServerMode` performs only
`swap(currentFrame,nextFrame)` per rendered frame, so that its Display stays
`framebuffer3` and never refers to a rendered frame. -/
theorem loops_rotation (r : Roles) (n : Nat) :
    ((runNativeMode r).roles = endFrame r ∧
      (runNativeMode r).roles.displayFrame = (runNativeMode r).target) ∧
    ((runNativeMandatoryCPU_GPU r).roles = endFrame r ∧
      (runNativeMandatoryCPU_GPU r).roles.displayFrame =
        (runNativeMandatoryCPU_GPU r).target) ∧
    ((runServerMode r).roles = swapCurrentNext r ∧
      (runServerMode r).roles.displayFrame = r.displayFrame) ∧
    ((loopRoles runServerMode n).displayFrame = Framebuffer.framebuffer3 ∧
      (runServerMode (loopRoles runServerMode n)).roles.displayFrame ≠
        (runServerMode (loopRoles runServerMode n)).target) := by
  refine ⟨⟨rfl, rfl⟩, ⟨rfl, rfl⟩, ⟨rfl, rfl⟩, ?_⟩
  rcases loopRoles_runServerMode n with h | h <;> rw [h] <;> decide

/-! ## Upscaling -/

theorem writeSeq_cons {α : Type} (p : Int × α) (ws : List (Int × α)) (v : List α) :
    writeSeq (p :: ws) v = (writeAt v p.1 p.2).bind (writeSeq ws) := by
  simp [writeSeq, List.foldlM_cons]

theorem writeSeq_append {α : Type} (ws ws' : List (Int × α)) (v : List α) :
    writeSeq (ws ++ ws') v = (writeSeq ws v).bind (writeSeq ws') := by
  simp [writeSeq, List.foldlM_append]

/-- A sequence of writes to pairwise different indices inside the vector returns, keeps
the length, leaves at every written index the value written there and keeps every other
entry. -/
theorem writeSeq_spec {α : Type} :
    ∀ (ws : List (Int × α)) (v : List α),
      (∀ p ∈ ws, 0 ≤ p.1 ∧ p.1 < v.length) → (ws.map Prod.fst).Nodup →
      ∃ v', writeSeq ws v = some v' ∧ v'.length = v.length ∧
        (∀ p ∈ ws, v'[p.1.toNat]? = some p.2) ∧
        (∀ i : Nat, (∀ p ∈ ws, p.1 ≠ (i : Int)) → v'[i]? = v[i]?) := by
  intro ws
  induction ws with
  | nil =>
    intro v _ _
    exact ⟨v, rfl, rfl, fun p hp => (by cases hp), fun _ _ => rfl⟩
  | cons p ws ih =>
    intro v hin hnd
    rw [List.map_cons, List.nodup_cons] at hnd
    obtain ⟨hp0, hplt⟩ := hin p (List.mem_cons_self _ _)
    have hlt : p.1.toNat < v.length := by omega
    have hw : writeAt v p.1 p.2 = some (v.set p.1.toNat p.2) := by
      simp [writeAt, hp0, hlt]
    obtain ⟨v', h, l, a, b⟩ := ih (v.set p.1.toNat p.2)
      (fun q hq => by
        rw [List.length_set]
        exact hin q (List.mem_cons_of_mem _ hq))
      hnd.2
    refine ⟨v', by rw [writeSeq_cons, hw, Option.some_bind, h], by rw [l, List.length_set],
      ?_, ?_⟩
    · intro q hq
      rcases List.mem_cons.1 hq with rfl | hq
      · rw [b q.1.toNat (fun r hr heq => hnd.1 (by
          rw [List.mem_map]
          exact ⟨r, hr, by omega⟩))]
        rw [List.getElem?_set, if_pos rfl, if_pos hlt]
      · exact a q hq
    · intro i hi
      rw [b i (fun q hq => hi q (List.mem_cons_of_mem _ hq))]
      have : p.1.toNat ≠ i := by
        have := hi p (List.mem_cons_self _ _)
        omega
      exact List.getElem?_set_ne this

/-- A loop whose body is a sequence of writes is the sequence of all these writes. -/
theorem foldlM_eq_writeSeq {α β : Type} (f : List α → β → Option (List α))
    (g : β → List (Int × α)) :
    ∀ (l : List β), (∀ b ∈ l, ∀ v, f v b = writeSeq (g b) v) →
      ∀ v, l.foldlM f v = writeSeq (l.flatMap g) v := by
  intro l
  induction l with
  | nil => intro _ v; rfl
  | cons b l ih =>
    intro h v
    rw [List.foldlM_cons, List.flatMap_cons, writeSeq_append, h b (List.mem_cons_self _ _)]
    cases writeSeq (g b) v with
    | none => rfl
    | some v1 => exact ih (fun c hc => h c (List.mem_cons_of_mem _ hc)) v1

/-- The loop body of `upscale2x` is a sequence of four writes when the source read is in
range. -/
theorem upscalePixel_eq_writeSeq (src : List Nat) (w : Int) (dst : List Nat) (x y : Int)
    (h0 : 0 ≤ y * w + x) (h1 : y * w + x < src.length) :
    upscalePixel src w dst x y =
      writeSeq ((upscaleTargets w x y).map (fun i => (i, src.getD (y * w + x).toNat 0))) dst := by
  have hlt : (y * w + x).toNat < src.length := by omega
  have hr : readAt src (y * w + x) = some (src.getD (y * w + x).toNat 0) := by
    simp only [readAt, h0, if_true]
    rw [List.getElem?_eq_getElem hlt, List.getD_eq_getElem _ _ hlt]
  unfold upscalePixel writeSeq
  rw [hr, List.foldlM_map]
  rfl

/-- Source pixel `(x, y)` of a `w x h` image has its index inside `[0, w*h)`. -/
theorem srcIndex_bounds (w h x y : Int) (hx : 0 ≤ x) (hxw : x < w) (hy : 0 ≤ y) (hyh : y < h) :
    0 ≤ y * w + x ∧ y * w + x < w * h := by
  have hw : 0 ≤ w := by omega
  have h1 := mul_nonneg hy hw
  have h2 : (y + 1) * w ≤ h * w := mul_le_mul_of_nonneg_right (by omega) hw
  constructor
  · omega
  · nlinarith

/-- With a source of `w*h` entries `upscale2x` is the sequence of writes `upscaleOps`. -/
theorem upscale2x_eq_writeSeq (src dst : List Nat) (w h : Int)
    (hsrc : (src.length : Int) = w * h) :
    upscale2x src dst w h = writeSeq (upscaleOps src w h) dst := by
  unfold upscale2x upscaleOps
  apply foldlM_eq_writeSeq
  intro y hy v
  rw [mem_intRange] at hy
  unfold upscaleRow
  apply foldlM_eq_writeSeq
  intro x hx v'
  rw [mem_intRange] at hx
  obtain ⟨b0, b1⟩ := srcIndex_bounds w h x y hx.1 hx.2 hy.1 hy.2
  exact upscalePixel_eq_writeSeq src w v' x y b0 (by omega)

theorem map_fst_upscaleOps (src : List Nat) (w h : Int) :
    (upscaleOps src w h).map Prod.fst = upscaleWrites w h := by
  unfold upscaleOps upscaleWrites
  rw [List.map_flatMap]
  congr 1
  funext y
  rw [List.map_flatMap]
  congr 1

/-- Row and column of a destination index. -/
theorem ediv_emod_form (w X Y : Int) (hX : 0 ≤ X) (hXw : X < 2 * w) :
    (X + Y * (2 * w)) / (2 * w) = Y ∧ (X + Y * (2 * w)) % (2 * w) = X := by
  have hw : (2 * w) ≠ 0 := by omega
  constructor
  · rw [Int.add_mul_ediv_right _ _ hw, Int.ediv_eq_zero_of_lt hX hXw, zero_add]
  · rw [Int.add_mul_emod_self, Int.emod_eq_of_lt hX hXw]

/-- The four targets of source pixel `(x, y)` are the destination pixels `(2x+a, 2y+b)`. -/
theorem mem_upscaleTargets (w x y i : Int) :
    i ∈ upscaleTargets w x y ↔
      ∃ a b : Int, (a = 0 ∨ a = 1) ∧ (b = 0 ∨ b = 1) ∧
        i = (x * 2 + a) + (y * 2 + b) * (2 * w) := by
  unfold upscaleTargets
  simp only [List.mem_cons, List.mem_singleton, List.not_mem_nil, or_false]
  constructor
  · rintro (rfl | rfl | rfl | rfl)
    · exact ⟨0, 0, Or.inl rfl, Or.inl rfl, by ring⟩
    · exact ⟨1, 0, Or.inr rfl, Or.inl rfl, by ring⟩
    · exact ⟨0, 1, Or.inl rfl, Or.inr rfl, by ring⟩
    · exact ⟨1, 1, Or.inr rfl, Or.inr rfl, by ring⟩
  · rintro ⟨a, b, ha, hb, rfl⟩
    rcases ha with rfl | rfl <;> rcases hb with rfl | rfl
    · left; ring
    · right; right; left; ring
    · right; left; ring
    · right; right; right; ring

/-- A target determines its source pixel. -/
theorem target_decode (w x y i : Int) (hx : 0 ≤ x) (hxw : x < w)
    (hi : i ∈ upscaleTargets w x y) :
    i / (2 * w) / 2 = y ∧ i % (2 * w) / 2 = x := by
  rw [mem_upscaleTargets] at hi
  obtain ⟨a, b, ha, hb, rfl⟩ := hi
  obtain ⟨e1, e2⟩ := ediv_emod_form w (x * 2 + a) (y * 2 + b) (by omega) (by omega)
  rw [e1, e2]
  constructor <;> omega

theorem nodup_upscaleTargets (w x y : Int) (hw : 0 < w) : (upscaleTargets w x y).Nodup := by
  unfold upscaleTargets
  simp only [List.nodup_cons, List.mem_cons, List.mem_singleton, List.not_mem_nil,
    List.nodup_nil, or_false, not_or, and_true]
  have e : (y * 2 + 1) * 2 * w = y * 2 * 2 * w + 2 * w := by ring
  rw [e]
  refine ⟨⟨?_, ?_, ?_⟩, ⟨?_, ?_⟩, ?_, not_false⟩ <;> omega

/-- The destination indices written by `upscale2x` are exactly the indices of the
destination pixels `(X, Y)` with `0 <= X < 2w` and `0 <= Y < 2h`. -/
theorem mem_upscaleWrites (w h i : Int) :
    i ∈ upscaleWrites w h ↔
      ∃ X Y : Int, 0 ≤ X ∧ X < 2 * w ∧ 0 ≤ Y ∧ Y < 2 * h ∧ i = X + Y * (2 * w) := by
  unfold upscaleWrites
  simp only [List.mem_flatMap, mem_intRange, mem_upscaleTargets]
  constructor
  · rintro ⟨y, ⟨hy0, hyh⟩, x, ⟨hx0, hxw⟩, a, b, ha, hb, rfl⟩
    exact ⟨x * 2 + a, y * 2 + b, by omega, by omega, by omega, by omega, rfl⟩
  · rintro ⟨X, Y, hX0, hXw, hY0, hYh, rfl⟩
    refine ⟨Y / 2, ⟨by omega, by omega⟩, X / 2, ⟨by omega, by omega⟩, X % 2, Y % 2,
      by omega, by omega, ?_⟩
    have e1 : X / 2 * 2 + X % 2 = X := by omega
    have e2 : Y / 2 * 2 + Y % 2 = Y := by omega
    rw [e1, e2]

theorem nodup_upscaleWrites (w h : Int) : (upscaleWrites w h).Nodup := by
  unfold upscaleWrites
  rw [List.nodup_flatMap]
  refine ⟨?_, ?_⟩
  · intro y _
    rw [List.nodup_flatMap]
    refine ⟨?_, ?_⟩
    · intro x hx
      rw [mem_intRange] at hx
      exact nodup_upscaleTargets w x y (by omega)
    · refine (nodup_intRange 0 w).imp_of_mem ?_
      intro x x' hx hx' hne
      rw [mem_intRange] at hx hx'
      rw [Function.onFun, List.disjoint_left]
      intro i h1 h2
      have d1 := (target_decode w x y i hx.1 hx.2 h1).2
      have d2 := (target_decode w x' y i hx'.1 hx'.2 h2).2
      exact hne (d1.symm.trans d2)
  · refine (nodup_intRange 0 h).imp ?_
    intro y y' hne
    rw [Function.onFun, List.disjoint_left]
    intro i h1 h2
    rw [List.mem_flatMap] at h1 h2
    obtain ⟨x, hx, h1⟩ := h1
    obtain ⟨x', hx', h2⟩ := h2
    rw [mem_intRange] at hx hx'
    have d1 := (target_decode w x y i hx.1 hx.2 h1).1
    have d2 := (target_decode w x' y' i hx'.1 hx'.2 h2).1
    exact hne (d1.symm.trans d2)

/-- The value that `upscaleOps` pairs with the index of destination pixel `(X, Y)`. -/
theorem mem_upscaleOps (src : List Nat) (w h X Y : Int) (hX0 : 0 ≤ X) (hXw : X < 2 * w)
    (hY0 : 0 ≤ Y) (hYh : Y < 2 * h) :
    (X + Y * (2 * w), src.getD ((Y / 2) * w + X / 2).toNat 0) ∈ upscaleOps src w h := by
  unfold upscaleOps
  rw [List.mem_flatMap]
  refine ⟨Y / 2, (mem_intRange _ _ _).2 ⟨by omega, by omega⟩, ?_⟩
  rw [List.mem_flatMap]
  refine ⟨X / 2, (mem_intRange _ _ _).2 ⟨by omega, by omega⟩, ?_⟩
  rw [List.mem_map]
  refine ⟨X + Y * (2 * w), ?_, rfl⟩
  rw [mem_upscaleTargets]
  refine ⟨X % 2, Y % 2, by omega, by omega, ?_⟩
  have e1 : X / 2 * 2 + X % 2 = X := by omega
  have e2 : Y / 2 * 2 + Y % 2 = Y := by omega
  rw [e1, e2]

/-- Destination pixels have their indices inside `[0, 4*w*h)`. -/
theorem dstIndex_bounds (w h X Y : Int) (hX0 : 0 ≤ X) (hXw : X < 2 * w) (hY0 : 0 ≤ Y)
    (hYh : Y < 2 * h) : 0 ≤ X + Y * (2 * w) ∧ X + Y * (2 * w) < 4 * w * h := by
  have hw : 0 ≤ 2 * w := by omega
  have h1 := mul_nonneg hY0 hw
  have h2 : (Y + 1) * (2 * w) ≤ (2 * h) * (2 * w) := mul_le_mul_of_nonneg_right (by omega) hw
  constructor
  · omega
  · nlinarith

/-- Every index of the destination is the index of a destination pixel, hence written. -/
theorem mem_upscaleWrites_of_lt (w h i : Int) (hw : 0 ≤ w) (hi0 : 0 ≤ i)
    (hi : i < 4 * w * h) : i ∈ upscaleWrites w h := by
  have hwpos : 0 < w := by
    rcases eq_or_lt_of_le hw with h0 | h0
    · rw [← h0] at hi; simp at hi; omega
    · exact h0
  have h2w : 0 < 2 * w := by omega
  rw [mem_upscaleWrites]
  refine ⟨i % (2 * w), i / (2 * w), Int.emod_nonneg _ (ne_of_gt h2w),
    Int.emod_lt_of_pos _ h2w, Int.ediv_nonneg hi0 (le_of_lt h2w), ?_, ?_⟩
  · apply Int.ediv_lt_of_lt_mul h2w
    have : 2 * h * (2 * w) = 4 * w * h := by ring
    rw [this]
    exact hi
  · have := Int.emod_add_ediv i (2 * w)
    rw [mul_comm (2 * w) (i / (2 * w))] at this
    exact this.symm

/-- Claim C18. The function `upscale2x` is a 2x nearest-neighbour upscale: for every
`w, h >= 0`, every source of length `w*h` and every destination of length `4*w*h` it
returns a destination of the same length in which every pixel `(X, Y)` with `0 <= X < 2w`
and `0 <= Y < 2h` holds `src[(Y/2)*w + (X/2)]` at index `Y*2w + X`; every written index
lies in `[0, 4wh)`, every index of `[0, 4wh)` is written exactly once, and every source
index read lies in `[0, wh)`. The source is only read. -/
theorem upscale2x_nearest (src dst : List Nat) (w h : Int) (hw : 0 ≤ w) (_hh : 0 ≤ h)
    (hsrc : (src.length : Int) = w * h) (hdst : (dst.length : Int) = 4 * w * h) :
    ∃ dst', upscale2x src dst w h = some dst' ∧ dst'.length = dst.length ∧
      (∀ X Y : Int, 0 ≤ X → X < 2 * w → 0 ≤ Y → Y < 2 * h →
        ∃ c, src[((Y / 2) * w + X / 2).toNat]? = some c ∧
          dst'[(Y * (2 * w) + X).toNat]? = some c) ∧
      (∀ i ∈ upscaleWrites w h, 0 ≤ i ∧ i < 4 * w * h) ∧
      (∀ i : Int, 0 ≤ i → i < 4 * w * h → (upscaleWrites w h).count i = 1) ∧
      (∀ x y : Int, 0 ≤ x → x < w → 0 ≤ y → y < h → 0 ≤ y * w + x ∧ y * w + x < w * h) := by
  have hrange : ∀ i ∈ upscaleWrites w h, 0 ≤ i ∧ i < 4 * w * h := by
    intro i hi
    rw [mem_upscaleWrites] at hi
    obtain ⟨X, Y, h1, h2, h3, h4, rfl⟩ := hi
    exact dstIndex_bounds w h X Y h1 h2 h3 h4
  obtain ⟨dst', hrun, hlen, hval, _⟩ := writeSeq_spec (upscaleOps src w h) dst
    (fun p hp => by
      have hm : p.1 ∈ upscaleWrites w h := by
        rw [← map_fst_upscaleOps src w h]
        exact List.mem_map_of_mem Prod.fst hp
      have := hrange p.1 hm
      omega)
    (by rw [map_fst_upscaleOps]; exact nodup_upscaleWrites w h)
  refine ⟨dst', by rw [upscale2x_eq_writeSeq src dst w h hsrc]; exact hrun, hlen, ?_, hrange,
    ?_, fun x y hx hxw hy hyh => srcIndex_bounds w h x y hx hxw hy hyh⟩
  · intro X Y hX0 hXw hY0 hYh
    have hv := hval _ (mem_upscaleOps src w h X Y hX0 hXw hY0 hYh)
    obtain ⟨b0, b1⟩ := srcIndex_bounds w h (X / 2) (Y / 2) (by omega) (by omega) (by omega)
      (by omega)
    have hlt : ((Y / 2) * w + X / 2).toNat < src.length := by omega
    refine ⟨src.getD ((Y / 2) * w + X / 2).toNat 0, ?_, ?_⟩
    · rw [List.getElem?_eq_getElem hlt, List.getD_eq_getElem _ _ hlt]
    · rw [add_comm]
      exact hv
  · intro i hi0 hi
    exact List.count_eq_one_of_mem (nodup_upscaleWrites w h)
      (mem_upscaleWrites_of_lt w h i hw hi0 hi)

/-- Claim C18 on a `3 x 2` source. -/
theorem upscale2x_nearest_witness :
    (0 : Int) ≤ 3 ∧ (0 : Int) ≤ 2 ∧
    ∃ dst', upscale2x [1, 2, 3, 4, 5, 6] (List.replicate 24 0) 3 2 = some dst' ∧
      dst'.length = (List.replicate 24 0).length ∧
      (∀ X Y : Int, 0 ≤ X → X < 2 * 3 → 0 ≤ Y → Y < 2 * 2 →
        ∃ c, [1, 2, 3, 4, 5, 6][((Y / 2) * 3 + X / 2).toNat]? = some c ∧
          dst'[(Y * (2 * 3) + X).toNat]? = some c) ∧
      (∀ i ∈ upscaleWrites 3 2, 0 ≤ i ∧ i < 4 * 3 * 2) ∧
      (∀ i : Int, 0 ≤ i → i < 4 * 3 * 2 → (upscaleWrites 3 2).count i = 1) ∧
      (∀ x y : Int, 0 ≤ x → x < 3 → 0 ≤ y → y < 2 → 0 ≤ y * 3 + x ∧ y * 3 + x < 3 * 2) :=
  ⟨by decide, by decide,
    upscale2x_nearest [1, 2, 3, 4, 5, 6] (List.replicate 24 0) 3 2 (by decide) (by decide)
      (by decide) (by decide)⟩

end WebBI
